import Mathlib

/-!
Verification of the TinyChessBot core against its specification.

This file gives a shallow embedding, in Lean 4, of the parts of the
repository that the checked claims are about:

* the packed 16-bit move encoding of `src/core/types.h`;
* the Zobrist tables and the state-key computation of
  `Position::init` / `Position::set_state` in `src/core/position.cc`;
* the retrograde solver `build_wdl_dtm` of `src/solve/retro.cc`
  (phases A, B and C, the draw pass, and record extraction);
* the tablebase writer of `src/solve/tb_write.cc` and the key sort of
  `src/solve/solve.cc`.

Machine integers are embedded as `Nat` with explicit masking where the
source relies on wrapping; fallible C library calls are embedded through
explicit success oracles.  `Position::do_move` / `Position::undo_move`
are declared in `src/core/position.h` but have no definition anywhere in
the repository, so they are modelled from the specification text (each
such definition is marked in its doc comment).  The solver only consumes
a `Position` through its state key, its legal move list, `do_move` /
`undo_move` and `in_check`; accordingly the solver is embedded over an
abstract game interface on state keys.
-/

namespace Tiny

/-- Colors, from the `Color` enum in `src/core/types.h`. -/
def WHITE : Nat := 0

/-- Black side, from the `Color` enum in `src/core/types.h`. -/
def BLACK : Nat := 1

/-- Piece type `PAWN` from `src/core/types.h`. -/
def PAWN : Nat := 1

/-- Piece type `HORSE` from `src/core/types.h`. -/
def HORSE : Nat := 2

/-- Piece type `FERZ` from `src/core/types.h`. -/
def FERZ : Nat := 3

/-- Piece type `WAZIR` from `src/core/types.h`. -/
def WAZIR : Nat := 4

/-- Piece type `KING` from `src/core/types.h`. -/
def KING : Nat := 5

/-- Piece `(c << 3) + pt`, from `make_piece` in `src/core/types.h`. -/
def make_piece (c pt : Nat) : Nat := c * 8 + pt

/-- Piece type `pc & 7`, from `type_of(Piece)` in `src/core/types.h`. -/
def piece_type (pc : Nat) : Nat := pc % 8

/-- Color `pc >> 3`, from `color_of` in `src/core/types.h`. -/
def piece_color (pc : Nat) : Nat := pc / 8

/-- Rank `s >> 2` of a square, from `rank_of` in `src/core/types.h`. -/
def rank_of (s : Nat) : Nat := s / 4

/-- The congruential key mixer `make_key` of `src/core/types.h`,
reduced modulo 2^64 as the C code computes in `uint64_t`. -/
def make_key (seed : Nat) : Nat :=
  (seed * 6364136223846793005 + 1442695040888963407) % (2 ^ 64)

/-! ### Move encoding, from `src/core/types.h` lines 192-313

A move is a 16-bit word: bits 0-3 `to`, bits 4-7 `from`, bits 8-9 the
AUX payload, bits 14-15 the type tag.  The `MoveType` enum values are
`NORMAL = 0`, `PROMOTION = 1 << 14`, `DROP = 2 << 14`. -/

/-- `MoveType` constant `NORMAL` (enum value 0). -/
def NORMAL : Nat := 0

/-- `MoveType` constant `PROMOTION` (enum value `1 << 14`). -/
def PROMOTION : Nat := 1 <<< 14

/-- `MoveType` constant `DROP` (enum value `2 << 14`). -/
def DROP : Nat := 2 <<< 14

/-- `Move::aux_from_promo`: promotion piece to AUX code. -/
def aux_from_promo (pt : Nat) : Nat :=
  if pt = WAZIR then 0 else if pt = FERZ then 1 else 2

/-- `Move::promo_from_aux`: AUX code to promotion piece. -/
def promo_from_aux (aux : Nat) : Nat :=
  if aux = 0 then WAZIR else if aux = 1 then FERZ else HORSE

/-- `Move::aux_from_drop`: drop piece to AUX code. -/
def aux_from_drop (pt : Nat) : Nat :=
  if pt = PAWN then 0 else if pt = WAZIR then 1 else if pt = FERZ then 2 else 3

/-- `Move::drop_from_aux`: AUX code to drop piece. -/
def drop_from_aux (aux : Nat) : Nat :=
  if aux = 0 then PAWN else if aux = 1 then WAZIR else if aux = 2 then FERZ else HORSE

/-- `Move::make_normal`: `(from << 4) | to`. -/
def make_normal (fr toS : Nat) : Nat := (fr <<< 4) ||| toS

/-- `Move::make_promotion`: `(1 << 14) | (aux_from_promo(pt) << 8) | (from << 4) | to`. -/
def make_promotion (fr toS pt : Nat) : Nat :=
  (1 <<< 14) ||| (aux_from_promo pt <<< 8) ||| (fr <<< 4) ||| toS

/-- `Move::make_drop`: `(2 << 14) | (aux_from_drop(pt) << 8) | (to << 4) | to`
(the from field is stored equal to `to`). -/
def make_drop (pt toS : Nat) : Nat :=
  (2 <<< 14) ||| (aux_from_drop pt <<< 8) ||| (toS <<< 4) ||| toS

/-- `Move::from_sq`: `(data >> 4) & 0x0F`. -/
def from_sq (d : Nat) : Nat := (d >>> 4) &&& 15

/-- `Move::to_sq`: `data & 0x0F`. -/
def to_sq (d : Nat) : Nat := d &&& 15

/-- `Move::type_of`: `MoveType((data >> 14) & 0x3)`.  Note that the C++
code shifts down, so the value returned lies in `{0,1,2}` while the
`MoveType` enum constants are `0`, `1 << 14` and `2 << 14`. -/
def move_type_of (d : Nat) : Nat := (d >>> 14) &&& 3

/-- `Move::promotion_type`: returns `NO_PIECE_TYPE = 0` unless
`type_of() == PROMOTION`, else decodes the AUX bits. -/
def promotion_type (d : Nat) : Nat :=
  if move_type_of d ≠ PROMOTION then 0 else promo_from_aux ((d >>> 8) &&& 3)

/-- `Move::drop_piece_type`: returns `NO_PIECE_TYPE = 0` unless
`type_of() == DROP`, else decodes the AUX bits. -/
def drop_piece_type (d : Nat) : Nat :=
  if move_type_of d ≠ DROP then 0 else drop_from_aux ((d >>> 8) &&& 3)

/-! ### Zobrist keys and the state key, from `src/core/position.cc`

`Position::init` (lines 73-82) fills `Zobrist::psq[pc][s]` for the ten
real pieces from a pseudo-random stream, then overwrites the keys of a
white pawn on rank 4 (squares 12-15) and of a black pawn on rank 1
(squares 0-3) with zero, and finally draws `Zobrist::side`.  The PRNG
itself lives in `misc.h`, which is not part of the repository snapshot,
so the stream is abstracted as a function from draw index to value. -/

/-- The `Pieces[]` array of `src/core/position.cc` line 32: piece codes
`W_PAWN..W_KING, B_PAWN..B_KING` in initialization order. -/
def zobristPieces : List Nat := [1, 2, 3, 4, 5, 9, 10, 11, 12, 13]

/-- Zobrist piece-square table after `Position::init`, given the PRNG
draw stream `rand` (draw `16*i + s` is the key of the `i`-th piece of
`zobristPieces` on square `s`).  The `fill_n` calls of lines 79-80 zero
the promotion-rank pawn entries. -/
def initPsq (rand : Nat → Nat) (pc s : Nat) : Nat :=
  if pc = 1 ∧ 12 ≤ s ∧ s ≤ 15 then 0
  else if pc = 9 ∧ s ≤ 3 then 0
  else
    match zobristPieces.findIdx? (fun x => x == pc) with
    | some i => rand (16 * i + s)
    | none => 0

/-- `Zobrist::side` after `Position::init`: the 161st draw (after 10
pieces times 16 squares). -/
def initSide (rand : Nat → Nat) : Nat := rand 160

/-- The Zobrist tables of namespace `Zobrist` in `src/core/position.cc`. -/
structure ZTable where
  psq : Nat → Nat → Nat
  side : Nat

/-- The tables produced by `Position::init` from the stream `rand`. -/
def initZ (rand : Nat → Nat) : ZTable := ⟨initPsq rand, initSide rand⟩

/-- The data members of `class Position` in `src/core/position.h` used
by the claims: the mailbox `board[16]`, `sideToMove`, the `Pockets`
reserve counts (`p[2][8]`, flattened as index `c*8 + pt`), and the
`StateInfo` fields `key` and `checkersBB` plus `gamePly`. -/
structure Position where
  board : List Nat
  sideToMove : Nat
  pockets : List Nat
  key : Nat
  checkersBB : Nat
  gamePly : Nat
  deriving DecidableEq

/-- The state key computed by `Position::set_state`
(`src/core/position.cc` lines 185-196): XOR of `Zobrist::psq[pc][s]`
over the occupied squares in ascending (`pop_lsb`) order, XORed with
`Zobrist::side` when Black is to move.  The reserve counts (`pockets`)
do not enter the computation. -/
def set_state_key (z : ZTable) (p : Position) : Nat :=
  ((List.range 16).foldl
    (fun k s => if p.board.getD s 0 ≠ 0 then k ^^^ z.psq (p.board.getD s 0) s else k) 0)
  ^^^ (if p.sideToMove = BLACK then z.side else 0)

/-! ### Make / unmake

`Position::do_move` and `Position::undo_move` are declared in
`src/core/position.h` lines 101-103 but are defined nowhere in the
repository, so they are modelled from the specification: `do_move`
"applies a legal move or drop, updates bitsets/board/reserves/key/
check-set incrementally, flips side to move; produces an undo record",
the undo record holds "prior state key, captured piece (if any), prior
reserve deltas", and `undo_move` "restores exactly the prior state".
A captured piece's type is added to the capturer's reserve; a dropped
piece leaves the dropper's reserve.  The recomputed check set is
supplied by the attack oracle `atk` (the attack tables live behind the
`attackers_to` interface). -/

/-- Modelled from the spec: the undo record produced by `do_move` —
"everything needed to reverse one make: prior state key, captured piece
(if any), ... prior reserve deltas" plus the prior cached check set and
ply counter held by the `StateInfo` chain. -/
structure UndoRec where
  move : Nat
  captured : Nat
  prevKey : Nat
  prevCheckers : Nat
  prevPly : Nat
  deriving DecidableEq

/-- Modelled from the spec: `Position::do_move` (declared in
`src/core/position.h`, no definition in the repository).  Applies a
normal move, promotion or drop according to the packed-move type bits,
moves the reserve counts, updates the key incrementally by Zobrist XOR,
flips the side to move, advances the ply counter, recomputes the cached
check set through the oracle `atk`, and returns the undo record. -/
def do_move (z : ZTable) (atk : List Nat → Nat → Nat) (p : Position) (m : Nat) :
    Position × UndoRec :=
  let us := p.sideToMove
  let code := (m >>> 14) &&& 3
  let toS := m &&& 15
  let frS := (m >>> 4) &&& 15
  let rec0 : UndoRec := ⟨m, 0, p.key, p.checkersBB, p.gamePly⟩
  if code = 2 then
    -- drop: place a reserve piece on the empty target square
    let pt := drop_from_aux ((m >>> 8) &&& 3)
    let pc := make_piece us pt
    let b := p.board.set toS pc
    let stm := 1 - us
    let p1 : Position :=
      { board := b
        sideToMove := stm
        pockets := p.pockets.set (us * 8 + pt) (p.pockets.getD (us * 8 + pt) 0 - 1)
        key := p.key ^^^ z.psq pc toS ^^^ z.side
        checkersBB := atk b stm
        gamePly := p.gamePly + 1 }
    (p1, rec0)
  else if code = 1 then
    -- promotion: the pawn on `from` becomes the promoted piece on `to`
    let pt := promo_from_aux ((m >>> 8) &&& 3)
    let captured := p.board.getD toS 0
    let pawn := make_piece us PAWN
    let promoted := make_piece us pt
    let b := (p.board.set frS 0).set toS promoted
    let stm := 1 - us
    let p1 : Position :=
      { board := b
        sideToMove := stm
        pockets :=
          if captured ≠ 0 then
            p.pockets.set (us * 8 + piece_type captured)
              (p.pockets.getD (us * 8 + piece_type captured) 0 + 1)
          else p.pockets
        key := p.key ^^^ z.psq pawn frS ^^^ z.psq promoted toS
          ^^^ (if captured ≠ 0 then z.psq captured toS else 0) ^^^ z.side
        checkersBB := atk b stm
        gamePly := p.gamePly + 1 }
    (p1, { rec0 with captured := captured })
  else
    -- normal move
    let pc := p.board.getD frS 0
    let captured := p.board.getD toS 0
    let b := (p.board.set frS 0).set toS pc
    let stm := 1 - us
    let p1 : Position :=
      { board := b
        sideToMove := stm
        pockets :=
          if captured ≠ 0 then
            p.pockets.set (us * 8 + piece_type captured)
              (p.pockets.getD (us * 8 + piece_type captured) 0 + 1)
          else p.pockets
        key := p.key ^^^ z.psq pc frS ^^^ z.psq pc toS
          ^^^ (if captured ≠ 0 then z.psq captured toS else 0) ^^^ z.side
        checkersBB := atk b stm
        gamePly := p.gamePly + 1 }
    (p1, { rec0 with captured := captured })

/-- Modelled from the spec: `Position::undo_move` (declared in
`src/core/position.h`, no definition in the repository).  Reverses the
board mutation of the recorded move, restores the reserve counts, and
restores key, check set and ply counter from the undo record. -/
def undo_move (p : Position) (u : UndoRec) : Position :=
  let us := 1 - p.sideToMove
  let m := u.move
  let code := (m >>> 14) &&& 3
  let toS := m &&& 15
  let frS := (m >>> 4) &&& 15
  if code = 2 then
    let pt := drop_from_aux ((m >>> 8) &&& 3)
    { board := p.board.set toS 0
      sideToMove := us
      pockets := p.pockets.set (us * 8 + pt) (p.pockets.getD (us * 8 + pt) 0 + 1)
      key := u.prevKey
      checkersBB := u.prevCheckers
      gamePly := u.prevPly }
  else if code = 1 then
    { board := (p.board.set toS u.captured).set frS (make_piece us PAWN)
      sideToMove := us
      pockets :=
        if u.captured ≠ 0 then
          p.pockets.set (us * 8 + piece_type u.captured)
            (p.pockets.getD (us * 8 + piece_type u.captured) 0 - 1)
        else p.pockets
      key := u.prevKey
      checkersBB := u.prevCheckers
      gamePly := u.prevPly }
  else
    let pc := p.board.getD toS 0
    { board := (p.board.set toS u.captured).set frS pc
      sideToMove := us
      pockets :=
        if u.captured ≠ 0 then
          p.pockets.set (us * 8 + piece_type u.captured)
            (p.pockets.getD (us * 8 + piece_type u.captured) 0 - 1)
        else p.pockets
      key := u.prevKey
      checkersBB := u.prevCheckers
      gamePly := u.prevPly }

/-- Modelled from the spec: the preconditions that hold for any legal
move, used by the round-trip property.  A normal move or promotion
moves between two distinct board squares and (for a promotion) moves
the mover's pawn; a drop targets an empty square and requires a piece
of that type in the mover's reserve. -/
def legalPre (p : Position) (m : Nat) : Prop :=
  let us := p.sideToMove
  let code := (m >>> 14) &&& 3
  let toS := m &&& 15
  let frS := (m >>> 4) &&& 15
  if code = 2 then
    let pt := drop_from_aux ((m >>> 8) &&& 3)
    p.board.getD toS 0 = 0 ∧ 1 ≤ p.pockets.getD (us * 8 + pt) 0
  else if code = 1 then
    frS ≠ toS ∧ p.board.getD frS 0 = make_piece us PAWN
  else
    frS ≠ toS

/-! ### The retrograde solver, from `src/solve/retro.cc`

`build_wdl_dtm` consumes a `Position` only through `pos.key()`,
`MoveList<LEGAL>(pos)`, `pos.do_move` / `pos.undo_move` and
`pos.in_check()`.  None of `generate<LEGAL>`, `do_move`, `undo_move`,
`in_check` or `Position::tinyhouse_start` is defined in the repository,
so the solver is embedded over that abstract interface: a game on state
keys.  Since `undo_move` restores the pre-move state exactly, a
do/undo pair around reading the child's key is embedded as the pure
`apply` below.  The C++ status codes are kept:
`UNKNOWN = 0`, `WIN = 1`, `LOSS = 2`, `DRAW = 3`. -/

/-- Modelled from the spec: the Position/MoveGenerator boundary the
solver consumes (legal move enumeration, make/unmake, check query),
abstracted over state keys; the concrete implementations are absent
from the repository. -/
structure Game where
  moves : Nat → List Nat
  apply : Nat → Nat → Nat
  inCheck : Nat → Bool

/-- The per-node record `Node` of `src/solve/retro.cc` lines 17-23. -/
structure Node where
  status : Nat
  dtm : Nat
  best : Nat
  outdeg : Nat
  remaining : Nat
  deriving DecidableEq

/-- The default-constructed `Node` (`nodes.emplace_back()`). -/
def Node.mk0 : Node := ⟨0, 0, 0, 0, 0⟩

/-- The solver storage of `build_wdl_dtm`: the `nodes`, `parents` and
`keys` vectors and the `unordered_map` `index` (embedded as an
association list in insertion order). -/
structure Graph where
  nodes : List Node
  parents : List (List Nat)
  keys : List Nat
  indexL : List (Nat × Nat)
  deriving DecidableEq

/-- `index.find(k)`: the id mapped to key `k`, if present. -/
def lookupIndex (l : List (Nat × Nat)) (k : Nat) : Option Nat :=
  match l.find? (fun kv => kv.1 == k) with
  | some kv => some kv.2
  | none => none

/-- The `add_node` lambda of `build_wdl_dtm` (lines 45-54): return the
existing id for a seen key, else append a fresh default node, an empty
parent list, the key, and the index entry. -/
def addNode (g : Graph) (k : Nat) : Nat × Graph :=
  match lookupIndex g.indexL k with
  | some id => (id, g)
  | none =>
    let id := g.nodes.length
    (id, ⟨g.nodes ++ [Node.mk0], g.parents ++ [[]], g.keys ++ [k],
          g.indexL ++ [(k, id)]⟩)

/-- Status of node `i` (`nodes[i].status`). -/
def nstat (g : Graph) (i : Nat) : Nat := (g.nodes.getD i Node.mk0).status

/-- DTM of node `i` (`nodes[i].dtm`). -/
def ndtm (g : Graph) (i : Nat) : Nat := (g.nodes.getD i Node.mk0).dtm

/-- Best move of node `i` (`nodes[i].best`). -/
def nbest (g : Graph) (i : Nat) : Nat := (g.nodes.getD i Node.mk0).best

/-- Out-degree of node `i` (`nodes[i].outdeg`). -/
def noutdeg (g : Graph) (i : Nat) : Nat := (g.nodes.getD i Node.mk0).outdeg

/-- Unresolved-edge counter of node `i` (`nodes[i].remaining`). -/
def nrem (g : Graph) (i : Nat) : Nat := (g.nodes.getD i Node.mk0).remaining

/-- `nodes[pid].outdeg = ml.size(); nodes[pid].remaining = outdeg;`
(lines 83-84). -/
def setOut (g : Graph) (i deg : Nat) : Graph :=
  let n := g.nodes.getD i Node.mk0
  { g with nodes := g.nodes.set i ({ n with outdeg := deg, remaining := deg }) }

/-- Assign status and DTM to a node (the classification writes of
phases B and C). -/
def classify (g : Graph) (i st d : Nat) : Graph :=
  let n := g.nodes.getD i Node.mk0
  { g with nodes := g.nodes.set i ({ n with status := st, dtm := d }) }

/-- `nodes[p].remaining--` (line 174). -/
def decRem (g : Graph) (i : Nat) : Graph :=
  let n := g.nodes.getD i Node.mk0
  { g with nodes := g.nodes.set i ({ n with remaining := n.remaining - 1 }) }

/-- `parents[cid].ids.push_back(pid)` (line 97). -/
def pushParent (g : Graph) (cid pid : Nat) : Graph :=
  { g with parents := g.parents.set cid (g.parents.getD cid [] ++ [pid]) }

/-- The per-move body of the Phase A expansion loop (lines 92-105):
add the child of move `m`, record the reverse edge, and push the child
for expansion when
`nodes.size() == index.size() && cid == nodes.size() - 1`. -/
def addChild (game : Game) (pid pk : Nat) (gs : Graph × List (Nat × Nat)) (m : Nat) :
    Graph × List (Nat × Nat) :=
  let ck := game.apply pk m
  let idg := addNode gs.1 ck
  let g2 := pushParent idg.2 idg.1 pid
  if g2.nodes.length = g2.indexL.length ∧ idg.1 + 1 = g2.nodes.length then
    (g2, (idg.1, ck) :: gs.2)
  else (g2, gs.2)

/-- One Phase A expansion (lines 77-106): record the popped node's
out-degree, then run the move loop.  The pushes land on top of the work
stack. -/
def expandStep (game : Game) (g : Graph) (pid pk : Nat) (stack : List (Nat × Nat)) :
    Graph × List (Nat × Nat) :=
  let ml := game.moves pk
  ml.foldl (addChild game pid pk) (setOut g pid ml.length, stack)

/-- Phase A (lines 77-106): LIFO worklist of `(id, key)` pairs, seeded
with the root; runs until the stack is empty.  `fuel` bounds the number
of iterations (the C++ loop terminates because the reachable key set is
finite); `none` means the fuel ran out. -/
def phaseA (game : Game) : Nat → Graph → List (Nat × Nat) → Option Graph
  | _, g, [] => some g
  | 0, _, _ :: _ => none
  | fuel + 1, g, (pid, pk) :: rest =>
    let gs := expandStep game g pid pk rest
    phaseA game fuel gs.1 gs.2

/-- The terminal test and classification of Phase B (lines 128-139): a
node with no legal moves is Loss (DTM 0) when in check, else Win
(DTM 0), and is enqueued on the Phase C queue. -/
def termStep (game : Game) (g : Graph) (pid pk : Nat) (q : List Nat) :
    Graph × List Nat :=
  if game.moves pk = [] then
    (if game.inCheck pk then classify g pid 2 0 else classify g pid 1 0, q ++ [pid])
  else (g, q)

/-- The per-move body of the Phase B child scan (lines 142-151): push
the child on the back of the BFS work queue if unseen and mark it. -/
def scanChild (game : Game) (g : Graph) (pk : Nat)
    (ws : List (Nat × Nat) × List Bool) (m : Nat) :
    List (Nat × Nat) × List Bool :=
  let ck := game.apply pk m
  let cid := (lookupIndex g.indexL ck).getD 0
  if ws.2.getD cid false then ws
  else (ws.1 ++ [(cid, ck)], ws.2.set cid true)

/-- The child scan of Phase B (lines 141-151). -/
def scanChildren (game : Game) (g : Graph) (pk : Nat)
    (work : List (Nat × Nat)) (seen : List Bool) :
    List (Nat × Nat) × List Bool :=
  (game.moves pk).foldl (scanChild game g pk) (work, seen)

/-- Phase B (lines 108-152): FIFO crawl from the root with a `seen`
array; classifies and enqueues terminals.  Returns the graph, the seen
array and the Phase C queue. -/
def phaseB (game : Game) :
    Nat → Graph → List (Nat × Nat) → List Bool → List Nat →
    Option (Graph × List Bool × List Nat)
  | _, g, [], seen, q => some (g, seen, q)
  | 0, _, _ :: _, _, _ => none
  | fuel + 1, g, (pid, pk) :: rest, seen, q =>
    let gq := termStep game g pid pk q
    let ws := scanChildren game gq.1 pk rest seen
    phaseB game fuel gq.1 ws.1 ws.2 gq.2

/-- The reverse-edge visit of Phase C (lines 162-181): skip classified
parents; a Loss child makes the parent Win (DTM+1, enqueued); a Win
child decrements the parent's unresolved counter and, when it reaches
zero, makes the parent Loss (DTM+1, enqueued). -/
def procParent (vstat vdtm : Nat) (gq : Graph × List Nat) (p : Nat) :
    Graph × List Nat :=
  if nstat gq.1 p ≠ 0 then gq
  else if vstat = 2 then
    (classify gq.1 p 1 (vdtm + 1), gq.2 ++ [p])
  else if vstat = 1 then
    let g1 := if 0 < nrem gq.1 p then decRem gq.1 p else gq.1
    if nrem g1 p = 0 then (classify g1 p 2 (vdtm + 1), gq.2 ++ [p])
    else (g1, gq.2)
  else gq

/-- Phase C (lines 154-182): FIFO propagation over reverse edges until
the queue is empty. -/
def phaseC : Nat → Graph → List Nat → Option Graph
  | _, g, [] => some g
  | 0, _, _ :: _ => none
  | fuel + 1, g, v :: rest =>
    let gq := (g.parents.getD v []).foldl (procParent (nstat g v) (ndtm g v)) (g, rest)
    phaseC fuel gq.1 gq.2

/-- The draw pass (lines 184-187): any still-Unknown node becomes Draw
with DTM 0. -/
def drawFill (g : Graph) : Graph :=
  let f := fun (n : Node) => if n.status = 0 then ({ n with status := 3, dtm := 0 }) else n
  { g with nodes := g.nodes.map f }

/-- The record type `TBRecord` of `src/solve/retro.h` with the `WDL`
enum stored numerically: `Loss = 0`, `Draw = 1`, `Win = 2`. -/
structure TBRecord where
  key : Nat
  wdl : Nat
  dtm : Nat
  best : Nat
  deriving DecidableEq

/-- The record extraction of `build_wdl_dtm` (lines 194-205): one
record per node, with the internal status translated to the `WDL`
encoding. -/
def toRecords (g : Graph) : List TBRecord :=
  (List.range g.nodes.length).map
    (fun i =>
      ⟨g.keys.getD i 0,
       if nstat g i = 1 then 2 else if nstat g i = 2 then 0 else 1,
       ndtm g i, nbest g i⟩)

/-- The empty solver storage. -/
def emptyGraph : Graph := ⟨[], [], [], []⟩

/-- The storage after `add_node(root.key())` (line 61). -/
def initGraph (rootKey : Nat) : Graph := (addNode emptyGraph rootKey).2

/-- The graph produced by `build_wdl_dtm` before record extraction:
Phase A from the root, Phase B with the root pre-marked seen, Phase C,
and the draw pass. -/
def solveGraph (game : Game) (fuel rootKey : Nat) : Option Graph :=
  match phaseA game fuel (initGraph rootKey) [(0, rootKey)] with
  | none => none
  | some gA =>
    match phaseB game fuel gA [(0, rootKey)]
        ((List.replicate gA.nodes.length false).set 0 true) [] with
    | none => none
    | some (gB, _, q0) =>
      match phaseC fuel gB q0 with
      | none => none
      | some gC => some (drawFill gC)

/-- The whole of `build_wdl_dtm` (lines 29-206): the solved graph
turned into one record per node. -/
def build_wdl_dtm (game : Game) (fuel rootKey : Nat) : Option (List TBRecord) :=
  (solveGraph game fuel rootKey).map toRecords

/-- Total number of reverse-edge contributions recorded from node `p`:
occurrences of `p` across all parent lists. -/
def contribCount (g : Graph) (p : Nat) : Nat :=
  (g.parents.map (fun l => l.count p)).sum

/-! ### The tablebase writer, from `src/solve/tb_write.cc`, and the
key sort of `src/solve/solve.cc`

The packed structs `TBHeader` / `TBRow` are laid out without padding
(`#pragma pack(1)`); their on-disk bytes are the little-endian field
encodings in declaration order, embedded below as byte lists. -/

/-- Little-endian byte encoding of `x` in `w` bytes. -/
def leBytes (w x : Nat) : List Nat :=
  (List.range w).map (fun i => x / 256 ^ i % 256)

/-- The packed `TBHeader` of `src/solve/tb_write.cc` lines 12-16:
`char magic[8]`, `uint32_t version`, `uint64_t count`. -/
structure TBHeader where
  magic : List Nat
  version : Nat
  count : Nat
  deriving DecidableEq

/-- The eight magic bytes `"TNYTB\0\1"` copied by `write_binary`
(ASCII `T N Y T B`, a NUL, `\1`, and the terminating NUL). -/
def tbMagic : List Nat := [84, 78, 89, 84, 66, 0, 1, 0]

/-- The header written by `write_binary`: the fixed magic, version 1,
and the record count. -/
def tbHeader (count : Nat) : TBHeader := ⟨tbMagic, 1, count⟩

/-- On-disk bytes of a packed `TBHeader`. -/
def headerBytes (h : TBHeader) : List Nat :=
  h.magic.take 8 ++ leBytes 4 h.version ++ leBytes 8 h.count

/-- On-disk bytes of a packed `TBRow` (lines 17-22): `uint64_t key`,
`uint8_t wdl`, `uint16_t dtm`, `uint32_t move`, filled from a record by
lines 38-42. -/
def rowBytes (r : TBRecord) : List Nat :=
  leBytes 8 r.key ++ leBytes 1 r.wdl ++ leBytes 2 r.dtm ++ leBytes 4 r.best

/-- Ordered insertion by key, ingredient of `sortRecords`. -/
def insertRec (r : TBRecord) : List TBRecord → List TBRecord
  | [] => [r]
  | x :: xs => if r.key ≤ x.key then r :: x :: xs else x :: insertRec r xs

/-- The `std::sort` call of `src/solve/solve.cc` lines 29-33 with
comparator `a.key < b.key`, embedded as a sort producing a permutation
ordered by the comparator (insertion sort). -/
def sortRecords : List TBRecord → List TBRecord
  | [] => []
  | x :: xs => insertRec x (sortRecords xs)

/-- Success oracle for the C library calls made by `write_binary`:
whether `fopen` succeeds, whether the header `fwrite` succeeds, and
whether the `i`-th row `fwrite` succeeds. -/
structure WriteOracle where
  openOk : Bool
  headerOk : Bool
  rowOk : Nat → Bool

/-- The row loop of `write_binary` (lines 37-44): returns 3 at the
first failed row write, else 0. -/
def writeRows (ok : Nat → Bool) : Nat → List TBRecord → Nat
  | _, [] => 0
  | i, _ :: rs => if ok i then writeRows ok (i + 1) rs else 3

/-- `tb::write_binary` (`src/solve/tb_write.cc` lines 25-47): returns
1 when the open fails, 2 when the header write fails, 3 when a row
write fails, and 0 after a complete write. -/
def write_binary (io : WriteOracle) (recs : List TBRecord) : Nat :=
  if io.openOk = false then 1
  else if io.headerOk = false then 2
  else writeRows io.rowOk 0 recs

/-- The bytes of a completely written tablebase file: the packed header
(with the record count) followed by the packed rows in list order. -/
def tbFileBytes (recs : List TBRecord) : List Nat :=
  headerBytes (tbHeader recs.length) ++ (recs.map rowBytes).flatten

/-! ### Fixture games

Small concrete instances of the abstract game interface, used to
evaluate the solver pipeline at specific inputs. -/

/-- Fixture: state 0 has two distinct moves into state 1, state 1 has
one move into state 2, state 2 is terminal.  The second move from 0
into 1 retriggers the Phase A push test while 1 is still the newest
node. -/
def gameDup : Game :=
  ⟨fun k => if k = 0 then [10, 11] else if k = 1 then [12] else [],
   fun k m => if k = 0 ∧ (m = 10 ∨ m = 11) then 1 else if k = 1 ∧ m = 12 then 2 else 0,
   fun _ => false⟩

/-- Fixture: a single stalemated state — no legal moves, not in
check. -/
def gameStale : Game := ⟨fun _ => [], fun _ _ => 0, fun _ => false⟩

/-- Fixture for the DTM claim: 0 has two moves into 1; 1 has moves into
the stalemate-terminal 2 and into 3; 3 reaches 4, which reaches the
stalemate-terminal 5.  In a correct solve node 1 is Loss with
DTM `1 + max(DTM 2, DTM 3) = 3`. -/
def gameDtm : Game :=
  ⟨fun k =>
    if k = 0 then [10, 11] else if k = 1 then [12, 13]
    else if k = 3 then [14] else if k = 4 then [15] else [],
   fun k m =>
    if k = 0 ∧ (m = 10 ∨ m = 11) then 1
    else if k = 1 ∧ m = 12 then 2
    else if k = 1 ∧ m = 13 then 3
    else if k = 3 ∧ m = 14 then 4
    else if k = 4 ∧ m = 15 then 5
    else 0,
   fun _ => false⟩

/-- Fixture: the chain 0 → 1 → 2 with state 2 checkmated (no moves, in
check).  No transpositions, so Phase A records every node exactly
once. -/
def gameChain : Game :=
  ⟨fun k => if k = 0 then [5] else if k = 1 then [6] else [],
   fun k m => if k = 0 ∧ m = 5 then 1 else if k = 1 ∧ m = 6 then 2 else 0,
   fun k => k == 2⟩

/-- The storage produced by Phase A on `gameChain` (root key 0): three
nodes in a chain, each non-final node with one move. -/
def chainGA : Graph :=
  ⟨[⟨0, 0, 0, 1, 1⟩, ⟨0, 0, 0, 1, 1⟩, ⟨0, 0, 0, 0, 0⟩],
   [[], [0], [1]], [0, 1, 2], [(0, 0), (1, 1), (2, 2)]⟩

/-- The storage after Phase B on `gameChain`: the final node (in check,
no moves) is classified Loss (internal status 2). -/
def chainGB : Graph :=
  ⟨[⟨0, 0, 0, 1, 1⟩, ⟨0, 0, 0, 1, 1⟩, ⟨2, 0, 0, 0, 0⟩],
   [[], [0], [1]], [0, 1, 2], [(0, 0), (1, 1), (2, 2)]⟩

/-- The storage after Phase C on `gameChain`: node 1 is Win (status 1,
DTM 1), node 0 is Loss (status 2, DTM 2). -/
def chainGC : Graph :=
  ⟨[⟨2, 2, 0, 1, 0⟩, ⟨1, 1, 0, 1, 1⟩, ⟨2, 0, 0, 0, 0⟩],
   [[], [0], [1]], [0, 1, 2], [(0, 0), (1, 1), (2, 2)]⟩

/-! ### Graph predicates

Statements about the solver are phrased with the following predicates
over the storage; all are decidable so they can be evaluated on the
fixtures. -/

/-- The legal move list of node `i` (the moves of the position whose
key is `keys[i]`). -/
def movesOf (game : Game) (g : Graph) (i : Nat) : List Nat :=
  game.moves (g.keys.getD i 0)

/-- The node id reached from node `i` by move `m`, through the key
index. -/
def childIdOf (game : Game) (g : Graph) (i m : Nat) : Option Nat :=
  lookupIndex g.indexL (game.apply (g.keys.getD i 0) m)

/-- The three parallel vectors and the index have equal sizes. -/
def graphSizes (g : Graph) : Prop :=
  g.parents.length = g.nodes.length ∧ g.keys.length = g.nodes.length ∧
  g.indexL.length = g.nodes.length

/-- Index soundness: a successful lookup returns a valid id holding
that key. -/
def IdxSound (g : Graph) : Prop :=
  ∀ k i, lookupIndex g.indexL k = some i → i < g.nodes.length ∧ g.keys.getD i 0 = k

/-- Index completeness: every stored key can be looked up to its id. -/
def IdxComplete (g : Graph) : Prop :=
  ∀ i, i < g.nodes.length → lookupIndex g.indexL (g.keys.getD i 0) = some i

/-- Index freshness: a failing lookup means no node holds that key. -/
def IdxFresh (g : Graph) : Prop :=
  ∀ k, lookupIndex g.indexL k = none → ∀ i, i < g.nodes.length → g.keys.getD i 0 ≠ k

/-- Well-formed storage: consistent sizes, an index that is exactly the
key-to-id map of the `keys` vector, and distinct keys. -/
def WF (g : Graph) : Prop :=
  graphSizes g ∧ IdxSound g ∧ IdxComplete g ∧ IdxFresh g ∧ g.keys.Nodup


/-- Every move of node `i` leads to a key present in the index. -/
def ClosedAt (game : Game) (g : Graph) (i : Nat) : Prop :=
  ∀ m ∈ movesOf game g i, childIdOf game g i m ≠ none

/-- Node `i` has been expanded: its children are present and its
out-degree and unresolved counter hold its legal move count. -/
def ExpandedAt (game : Game) (g : Graph) (i : Nat) : Prop :=
  ClosedAt game g i ∧ noutdeg g i = (movesOf game g i).length ∧
  nrem g i = (movesOf game g i).length

/-- All statuses and DTMs are still at their defaults (Phase A never
assigns them). -/
def AZero (g : Graph) : Prop :=
  ∀ i, nstat g i = 0 ∧ ndtm g i = 0

/-- What a completed Phase A guarantees unconditionally. -/
def APost (game : Game) (g : Graph) : Prop :=
  WF g ∧ AZero g ∧ ∀ i ∈ List.range g.nodes.length, ExpandedAt game g i

/-- Entries of the Phase A stack and the Phase B queue pair a valid
node id with that node's key. -/
def StackCoh (g : Graph) (stack : List (Nat × Nat)) : Prop :=
  ∀ e ∈ stack, e.1 < g.nodes.length ∧ g.keys.getD e.1 0 = e.2

/-- The Phase A loop invariant: well-formed zeroed storage whose stack
entries are coherent, and every node is either still awaiting expansion
on the stack or fully expanded. -/
def AInv (game : Game) (g : Graph) (stack : List (Nat × Nat)) : Prop :=
  WF g ∧ AZero g ∧ StackCoh g stack ∧
  ∀ i, i < g.nodes.length → (∃ e ∈ stack, e.1 = i) ∨ ExpandedAt game g i

/-- Number of moves of node `p` that land on the key of node `j`. -/
def childCount (game : Game) (keys : List Nat) (p j : Nat) : Nat :=
  (game.moves (keys.getD p 0)).countP
    (fun m => game.apply (keys.getD p 0) m == keys.getD j 0)

/-- The reverse-edge lists describe the move structure exactly once:
every entry of `parents[j]` is a node id, and node `p` occurs in
`parents[j]` once per legal move of `p` landing on node `j`.  This is
what Phase A is intended to record (each node expanded exactly once);
the Phase A push test can violate it. -/
def ExactCover (game : Game) (keys : List Nat) (parentsL : List (List Nat)) (n : Nat) :
    Prop :=
  ∀ j ∈ List.range n,
    (∀ x ∈ parentsL.getD j [], x < n) ∧
    ∀ p ∈ List.range n,
      (parentsL.getD j []).count p = childCount game keys p j

/-- Sum of the reverse-edge multiplicities of `p` into the dequeued
Win nodes of the trace `D` (pairs of node id and status at dequeue). -/
def winContrib (game : Game) (keys : List Nat) (D : List (Nat × Nat)) (p : Nat) : Nat :=
  ((D.filter (fun js => js.2 == 1)).map (fun js => childCount game keys p js.1)).sum

/-- The Phase C loop invariant over the current graph `g`, the pending
queue `q` and the ghost trace `D` of `(node, status at dequeue)`
snapshots: structure and out-degrees are those left by Phase A; every
snapshot is a still-valid classification; a node is classified exactly
when it has been dequeued or is pending; the unresolved counter of an
Unknown node accounts for the reverse edges from dequeued Win nodes;
every classified Win (resp. Loss) node with moves has a Loss child
(resp. only Win children); and the parents of a dequeued Loss node are
all classified. -/
def CInv (game : Game) (gA : Graph) (g : Graph) (q : List Nat)
    (D : List (Nat × Nat)) : Prop :=
  (g.keys = gA.keys ∧ g.parents = gA.parents ∧ g.indexL = gA.indexL ∧
    g.nodes.length = gA.nodes.length) ∧
  (∀ i, noutdeg g i = noutdeg gA i) ∧
  (∀ js ∈ D, js.1 < gA.nodes.length ∧ (js.2 = 1 ∨ js.2 = 2) ∧
    nstat g js.1 = js.2) ∧
  (∀ i, nstat g i = 0 ∨ nstat g i = 1 ∨ nstat g i = 2) ∧
  (∀ i, i < gA.nodes.length →
    (nstat g i ≠ 0 ↔ i ∈ D.map Prod.fst ∨ i ∈ q)) ∧
  ((D.map Prod.fst).Nodup ∧ q.Nodup ∧
    (∀ v ∈ q, v < gA.nodes.length ∧ v ∉ D.map Prod.fst ∧ nstat g v ≠ 0)) ∧
  (∀ p, p < gA.nodes.length → nstat g p = 0 →
    nrem g p + winContrib game gA.keys D p = noutdeg gA p) ∧
  (∀ p, nstat g p = 0 → 1 ≤ noutdeg gA p → 1 ≤ nrem g p) ∧
  (∀ p, p < gA.nodes.length → nstat g p = 1 → movesOf game gA p ≠ [] →
    ∃ c, c < gA.nodes.length ∧ 0 < childCount game gA.keys p c ∧
      nstat g c = 2) ∧
  (∀ p, p < gA.nodes.length → nstat g p = 2 → movesOf game gA p ≠ [] →
    ∀ j, j < gA.nodes.length → 0 < childCount game gA.keys p j →
      nstat g j = 1) ∧
  (∀ js ∈ D, js.2 = 2 → ∀ x ∈ gA.parents.getD js.1 [], nstat g x ≠ 0)

/-- The mid-fold invariant while a dequeued Win node `v` visits its
reverse edges; `L2` is the still-unvisited suffix of `parents[v]` and
`D` the trace before `(v, 1)` is appended.  The counting clause charges
the already-visited occurrences of each Unknown parent. -/
def WInv (game : Game) (gA : Graph) (v : Nat) (D : List (Nat × Nat))
    (L2 : List Nat) (g : Graph) (q : List Nat) : Prop :=
  (g.keys = gA.keys ∧ g.parents = gA.parents ∧ g.indexL = gA.indexL ∧
    g.nodes.length = gA.nodes.length) ∧
  (∀ i, noutdeg g i = noutdeg gA i) ∧
  ((∀ js ∈ D, nstat g js.1 = js.2) ∧ nstat g v = 1) ∧
  (∀ i, nstat g i = 0 ∨ nstat g i = 1 ∨ nstat g i = 2) ∧
  (∀ p, p < gA.nodes.length → nstat g p = 0 →
    nrem g p + winContrib game gA.keys D p + childCount game gA.keys p v =
      noutdeg gA p + L2.count p) ∧
  (∀ p, p < gA.nodes.length → nstat g p = 1 → movesOf game gA p ≠ [] →
    ∃ c, c < gA.nodes.length ∧ 0 < childCount game gA.keys p c ∧
      nstat g c = 2) ∧
  (∀ p, p < gA.nodes.length → nstat g p = 2 → movesOf game gA p ≠ [] →
    ∀ j, j < gA.nodes.length → 0 < childCount game gA.keys p j →
      nstat g j = 1) ∧
  (∀ js ∈ D, js.2 = 2 → ∀ x ∈ gA.parents.getD js.1 [], nstat g x ≠ 0) ∧
  (q.Nodup ∧ (∀ x ∈ q, x < gA.nodes.length ∧
    x ∉ (D ++ [(v, 1)]).map Prod.fst ∧ nstat g x ≠ 0)) ∧
  (∀ i, i < gA.nodes.length →
    (nstat g i ≠ 0 ↔ i ∈ (D ++ [(v, 1)]).map Prod.fst ∨ i ∈ q)) ∧
  (∀ p, nstat g p = 0 → 1 ≤ noutdeg gA p → 1 ≤ nrem g p)

/-! ### Fixture positions -/

/-- A position with the two kings on opposite corners and empty
reserves. -/
def posKings : Position :=
  ⟨[5, 0, 0, 0, 0, 0, 0, 0, 0, 0, 0, 0, 0, 0, 0, 13], 0,
   List.replicate 16 0, 0, 0, 0⟩

/-- The same board and side to move as `posKings` but with one white
pawn in White's reserve (`Pockets.p[WHITE][PAWN]`, flat index 1). -/
def posKingsPawnRes : Position :=
  { posKings with pockets := (List.replicate 16 0).set 1 1 }

/-- A trivial attack oracle (an empty check set), standing in for the
attack tables when exercising make/unmake. -/
def atk0 : List Nat → Nat → Nat := fun _ _ => 0

/-! ## Theorems

First a few generic list lemmas, then the claim theorems (with their
helper lemmas) in claim order. -/

theorem lgetD_set_self {α : Type} (l : List α) (i : Nat) (a d : α) (h : i < l.length) :
    (l.set i a).getD i d = a := by
  induction l generalizing i with
  | nil => simp at h
  | cons x xs ih =>
    cases i with
    | zero => simp [List.set]
    | succ n =>
      simp only [List.set, List.getD_cons_succ]
      exact ih n (by simpa using h)

theorem lgetD_set_ne {α : Type} (l : List α) {i j : Nat} (a d : α) (h : i ≠ j) :
    (l.set i a).getD j d = l.getD j d := by
  induction l generalizing i j with
  | nil => simp [List.set]
  | cons x xs ih =>
    cases i with
    | zero =>
      cases j with
      | zero => exact absurd rfl h
      | succ m => simp [List.set]
    | succ n =>
      cases j with
      | zero => simp [List.set]
      | succ m =>
        simp only [List.set, List.getD_cons_succ]
        exact ih (fun hnm => h (by simp [hnm]))

theorem lset_getD_self {α : Type} (l : List α) (i : Nat) (d : α) :
    l.set i (l.getD i d) = l := by
  induction l generalizing i with
  | nil => simp
  | cons x xs ih =>
    cases i with
    | zero => simp [List.set]
    | succ n =>
      simp only [List.set, List.cons.injEq, true_and]
      simpa [List.getD] using ih n

theorem lset_set {α : Type} (l : List α) (i : Nat) (a b : α) :
    (l.set i a).set i b = l.set i b :=
  List.set_set a b l i

theorem lfoldl_congr {α β : Type} {l : List β} {f g : α → β → α} {a : α}
    (h : ∀ acc x, x ∈ l → f acc x = g acc x) : l.foldl f a = l.foldl g a := by
  induction l generalizing a with
  | nil => rfl
  | cons x xs ih =>
    simp only [List.foldl_cons]
    rw [h a x (by simp)]
    exact ih (fun acc y hy => h acc y (by simp [hy]))

/-! ### Claim C10: the packed move accessors do not round-trip -/

/-- C10: the packed 16-bit move encoding does not round-trip its
constructors: `type_of` returns the shifted-down tag (0, 1 or 2),
which never equals the `MoveType` enum constants `PROMOTION = 1 << 14`
and `DROP = 2 << 14`, so `type_of() == DROP` is false for a drop and
`promotion_type` / `drop_piece_type` always return `NO_PIECE_TYPE`.
The square accessors do round-trip. -/
theorem c10_move_accessor_slip :
    move_type_of (make_drop PAWN 0) = 2 ∧
    DROP = 32768 ∧
    move_type_of (make_drop PAWN 0) ≠ DROP ∧
    drop_piece_type (make_drop PAWN 0) = 0 ∧
    drop_piece_type (make_drop PAWN 0) ≠ PAWN ∧
    move_type_of (make_promotion 1 13 WAZIR) = 1 ∧
    move_type_of (make_promotion 1 13 WAZIR) ≠ PROMOTION ∧
    promotion_type (make_promotion 1 13 WAZIR) = 0 ∧
    promotion_type (make_promotion 1 13 WAZIR) ≠ WAZIR ∧
    from_sq (make_promotion 1 13 WAZIR) = 1 ∧
    to_sq (make_promotion 1 13 WAZIR) = 13 ∧
    from_sq (make_drop PAWN 6) = 6 ∧ to_sq (make_drop PAWN 6) = 6 := by
  decide

/-! ### Claim C1: the state key ignores the reserve counts -/

/-- C1: `set_state` computes the key from the board contents and the
side to move only; two Positions with identical board and side but
different reserve counts receive the same key for every Zobrist table,
so states differing only in reserve counts collide with certainty. -/
theorem c1_key_ignores_reserves :
    (∀ z : ZTable, set_state_key z posKingsPawnRes = set_state_key z posKings) ∧
    posKingsPawnRes.pockets ≠ posKings.pockets ∧
    posKingsPawnRes.board = posKings.board ∧
    posKingsPawnRes.sideToMove = posKings.sideToMove :=
  ⟨fun _ => rfl, by decide, rfl, rfl⟩

/-! ### Claim C2: Phase A records a node's moves twice -/

/-- C2: on `gameDup` (two moves from the root into the same newly
discovered child), the Phase A push test re-expands node 1, so node 1
contributes two reverse edges while its stored legal-move count is 1:
the recorded contributions do not equal the out-degree. -/
theorem c2_duplicate_reverse_edges :
    (phaseA gameDup 50 (initGraph 0) [(0, 0)]).map
      (fun g => (contribCount g 1, noutdeg g 1, g.parents)) =
      some (2, 1, [[], [0, 0], [1, 1]]) := by
  decide

/-! ### Claim C5: a Loss DTM that is not the longest resistance -/

/-- C5: on `gameDtm` the solve classifies node 1 as Loss with DTM 1,
while its legal moves lead to the Win nodes 2 (DTM 0) and 3 (DTM 2):
the duplicated reverse edges empty its unresolved counter at the first
Win child, so the assigned DTM is not `1 + max` over its children. -/
theorem c5_loss_dtm_not_longest :
    (solveGraph gameDtm 50 0).map
      (fun g => (nstat g 1, ndtm g 1, movesOf gameDtm g 1,
                 childIdOf gameDtm g 1 12, childIdOf gameDtm g 1 13,
                 nstat g 2, ndtm g 2, nstat g 3, ndtm g 3)) =
      some (2, 1, [12, 13], some 2, some 3, 1, 0, 1, 2) ∧
    (solveGraph gameDtm 50 0).map
      (fun g => decide (ndtm g 1 = 1 + Nat.max (ndtm g 2) (ndtm g 3))) =
      some false := by
  exact ⟨rfl, rfl⟩

/-! ### Claim C8: the writer's return codes -/

theorem writeRows_spec (ok : Nat → Bool) :
    ∀ (rs : List TBRecord) (s : Nat),
      (writeRows ok s rs = 0 ∨ writeRows ok s rs = 3) ∧
      (writeRows ok s rs = 0 ↔ ∀ i, i < rs.length → ok (s + i) = true) := by
  intro rs
  induction rs with
  | nil => intro s; simp [writeRows]
  | cons r rs ih =>
    intro s
    by_cases h : ok s = true
    · have hrec := ih (s + 1)
      constructor
      · simpa [writeRows, h] using hrec.1
      · simp only [writeRows, h, if_true]
        rw [hrec.2]
        constructor
        · intro hall i hi
          cases i with
          | zero => simpa using h
          | succ j =>
            have := hall j (by simpa [Nat.succ_lt_succ_iff] using hi)
            simpa [Nat.add_comm, Nat.add_assoc, Nat.add_left_comm] using this
        · intro hall i hi
          have := hall (i + 1) (by simpa [Nat.succ_lt_succ_iff] using hi)
          simpa [Nat.add_comm, Nat.add_assoc, Nat.add_left_comm] using this
    · constructor
      · simp [writeRows, h]
      · simp only [writeRows, h, if_false]
        constructor
        · intro h3; cases h3
        · intro hall
          have := hall 0 (by simp)
          simp [h] at this

/-- C8: `write_binary` returns 1 exactly when the open fails, 2 exactly
when the open succeeds and the header write fails, 3 exactly when open
and header succeed and some row write fails, and 0 exactly when the
open, the header write and every row write succeed. -/
theorem c8_write_binary_codes (io : WriteOracle) (recs : List TBRecord) :
    (write_binary io recs = 1 ↔ io.openOk = false) ∧
    (write_binary io recs = 2 ↔ io.openOk = true ∧ io.headerOk = false) ∧
    (write_binary io recs = 3 ↔
      io.openOk = true ∧ io.headerOk = true ∧
        ∃ i, i < recs.length ∧ io.rowOk i = false) ∧
    (write_binary io recs = 0 ↔
      io.openOk = true ∧ io.headerOk = true ∧
        ∀ i, i < recs.length → io.rowOk i = true) := by
  have hrows := writeRows_spec io.rowOk recs 0
  cases hopen : io.openOk with
  | false => simp [write_binary, hopen]
  | true =>
    cases hhead : io.headerOk with
    | false => simp [write_binary, hopen, hhead]
    | true =>
      have hwb : write_binary io recs = writeRows io.rowOk 0 recs := by
        simp [write_binary, hopen, hhead]
      have hz : writeRows io.rowOk 0 recs = 0 ↔
          ∀ i, i < recs.length → io.rowOk i = true := by
        rw [hrows.2]; simp
      have h3 : writeRows io.rowOk 0 recs = 3 ↔
          ∃ i, i < recs.length ∧ io.rowOk i = false := by
        rcases hrows.1 with h0 | hh3
        · constructor
          · intro h; rw [h0] at h; cases h
          · rintro ⟨i, hi, hfalse⟩
            have := (hz.mp h0) i hi
            rw [this] at hfalse; cases hfalse
        · constructor
          · intro _
            have hne : ¬ ∀ i, i < recs.length → io.rowOk i = true := by
              intro hall
              rw [← hz] at hall
              rw [hh3] at hall
              cases hall
            push_neg at hne
            obtain ⟨i, hi, hne2⟩ := hne
            exact ⟨i, hi, by simpa using hne2⟩
          · intro _; exact hh3
      refine ⟨?_, ?_, ?_, ?_⟩
      · rw [hwb]
        constructor
        · intro h
          rcases hrows.1 with h0 | hh3
          · rw [h0] at h; cases h
          · rw [hh3] at h; cases h
        · intro h; cases h
      · rw [hwb]
        constructor
        · intro h
          rcases hrows.1 with h0 | hh3
          · rw [h0] at h; cases h
          · rw [hh3] at h; cases h
        · rintro ⟨_, h⟩; cases h
      · rw [hwb, h3]; simp [hopen, hhead]
      · rw [hwb, hz]; simp [hopen, hhead]

/-! ### Claim C3, counterexample: a stalemate terminal is Win with no
moves at all -/

theorem lset_oob {α : Type} (l : List α) (i : Nat) (a : α) (h : l.length ≤ i) :
    l.set i a = l := by
  induction l generalizing i with
  | nil => simp
  | cons x xs ih =>
    cases i with
    | zero => simp at h
    | succ n => simp [List.set, ih n (by simpa using h)]

/-- C3 counterexample: on the single-state stalemate game the solve
classifies the root Win while it has no legal moves, so "Win iff some
legal move leads to a Loss node" fails in the only-if direction. -/
theorem c3_stalemate_win_without_loss_child :
    (solveGraph gameStale 50 7).map
      (fun g => (nstat g 0, movesOf gameStale g 0, g.keys)) = some (1, [], [7]) ∧
    (solveGraph gameStale 50 7).map
      (fun g => decide (∃ m ∈ movesOf gameStale g 0,
        ∃ j ∈ List.range g.nodes.length,
          childIdOf gameStale g 0 m = some j ∧ nstat g j = 2)) = some false ∧
    gameStale.inCheck 7 = false :=
  ⟨rfl, rfl, rfl⟩

/-! ### Claim C9: promotion-rank pawns hash to zero -/

/-- C9: after `Position::init` the piece-square keys of a white pawn on
rank 4 and of a black pawn on rank 1 are zero, for every PRNG stream;
consequently `set_state` assigns equal keys to two boards differing
only in such a pawn on an otherwise empty square. -/
theorem c9_promotion_rank_pawn_keys :
    (∀ (rand : Nat → Nat) (s : Nat), 12 ≤ s → s ≤ 15 → initPsq rand 1 s = 0) ∧
    (∀ (rand : Nat → Nat) (s : Nat), s ≤ 3 → initPsq rand 9 s = 0) ∧
    (∀ (rand : Nat → Nat) (p : Position) (s : Nat), rank_of s = 3 → s ≤ 15 →
      p.board.getD s 0 = 0 →
      set_state_key (initZ rand) { p with board := p.board.set s 1 } =
        set_state_key (initZ rand) p) ∧
    (∀ (rand : Nat → Nat) (p : Position) (s : Nat), rank_of s = 0 → s ≤ 15 →
      p.board.getD s 0 = 0 →
      set_state_key (initZ rand) { p with board := p.board.set s 9 } =
        set_state_key (initZ rand) p) := by
  have hw : ∀ (rand : Nat → Nat) (s : Nat), 12 ≤ s → s ≤ 15 → initPsq rand 1 s = 0 := by
    intro rand s h1 h2
    simp [initPsq, h1, h2]
  have hb : ∀ (rand : Nat → Nat) (s : Nat), s ≤ 3 → initPsq rand 9 s = 0 := by
    intro rand s h
    simp [initPsq, h]
  refine ⟨hw, hb, ?_, ?_⟩
  · intro rand p s hrank hs hempty
    unfold set_state_key
    congr 1
    apply lfoldl_congr
    intro k i hi
    by_cases his : i = s
    · subst his
      by_cases hlen : i < p.board.length
      · rw [lgetD_set_self _ _ _ _ hlen, hempty]
        have h12 : 12 ≤ i := by
          unfold rank_of at hrank
          omega
        simp [initZ, hw rand i h12 hs]
      · rw [lset_oob _ _ _ (Nat.le_of_not_lt hlen)]
    · rw [lgetD_set_ne _ _ _ (Ne.symm his)]
  · intro rand p s hrank hs hempty
    unfold set_state_key
    congr 1
    apply lfoldl_congr
    intro k i hi
    by_cases his : i = s
    · subst his
      by_cases hlen : i < p.board.length
      · rw [lgetD_set_self _ _ _ _ hlen, hempty]
        have h3 : i ≤ 3 := by
          unfold rank_of at hrank
          omega
        simp [initZ, hb rand i h3]
      · rw [lset_oob _ _ _ (Nat.le_of_not_lt hlen)]
    · rw [lgetD_set_ne _ _ _ (Ne.symm his)]

/-- Witness for C9 at a concrete input: adding a white pawn on square
12 (rank 4) to the two-kings board leaves the state key unchanged. -/
theorem c9_promotion_rank_pawn_keys_witness :
    set_state_key (initZ make_key) { posKings with board := posKings.board.set 12 1 } =
      set_state_key (initZ make_key) posKings :=
  c9_promotion_rank_pawn_keys.2.2.1 make_key posKings 12 (by decide) (by decide) (by decide)

/-! ### Claim C6: make followed by unmake restores the position -/

theorem board_restore (bd : List Nat) {frS toS : Nat} (v : Nat) (hne : frS ≠ toS) :
    (((bd.set frS 0).set toS v).set toS (bd.getD toS 0)).set frS (bd.getD frS 0) = bd := by
  rw [lset_set]
  rw [show bd.getD toS 0 = (bd.set frS 0).getD toS 0 from (lgetD_set_ne _ _ _ hne).symm]
  rw [lset_getD_self, lset_set, lset_getD_self]

theorem pocket_restore_cap (pk : List Nat) (i : Nat) (h : i < pk.length) :
    (pk.set i (pk.getD i 0 + 1)).set i ((pk.set i (pk.getD i 0 + 1)).getD i 0 - 1) = pk := by
  rw [lgetD_set_self _ _ _ _ h, lset_set, Nat.add_sub_cancel, lset_getD_self]

theorem pocket_restore_drop (pk : List Nat) (i : Nat) (h : i < pk.length)
    (h1 : 1 ≤ pk.getD i 0) :
    (pk.set i (pk.getD i 0 - 1)).set i ((pk.set i (pk.getD i 0 - 1)).getD i 0 + 1) = pk := by
  rw [lgetD_set_self _ _ _ _ h]
  have : pk.getD i 0 - 1 + 1 = pk.getD i 0 := by omega
  rw [lset_set, this, lset_getD_self]

theorem drop_from_aux_bounds (a : Nat) : 1 ≤ drop_from_aux a ∧ drop_from_aux a ≤ 4 := by
  unfold drop_from_aux PAWN WAZIR FERZ HORSE
  split
  · exact ⟨le_refl 1, by omega⟩
  · split
    · exact ⟨by omega, le_refl 4⟩
    · split
      · exact ⟨by omega, by omega⟩
      · exact ⟨by omega, by omega⟩

/-- C6: for every move satisfying the legality preconditions,
`undo_move` after `do_move` restores the `Position` exactly — board,
side to move, reserves, state key, cached check set and ply counter.
(Spec-modelled: `do_move`/`undo_move` are only declared in the
repository.) -/
theorem c6_do_undo_roundtrip (z : ZTable) (atk : List Nat → Nat → Nat)
    (p : Position) (m : Nat)
    (hb : p.board.length = 16) (hp : p.pockets.length = 16)
    (hs : p.sideToMove ≤ 1) (hm : legalPre p m) :
    undo_move (do_move z atk p m).1 (do_move z atk p m).2 = p := by
  obtain ⟨bd, stm, pk, ky, cb, ply⟩ := p
  simp only at hb hp hs
  have hstm : 1 - (1 - stm) = stm := by omega
  have htoS : m &&& 15 < 16 := Nat.lt_succ_of_le (Nat.and_le_right)
  have hfrS : (m >>> 4) &&& 15 < 16 := Nat.lt_succ_of_le (Nat.and_le_right)
  by_cases h2 : (m >>> 14) &&& 3 = 2
  · -- drop
    have hpre : bd.getD (m &&& 15) 0 = 0 ∧
        1 ≤ pk.getD (stm * 8 + drop_from_aux ((m >>> 8) &&& 3)) 0 := by
      simpa [legalPre, h2] using hm
    have hidx : stm * 8 + drop_from_aux ((m >>> 8) &&& 3) < pk.length := by
      have := (drop_from_aux_bounds ((m >>> 8) &&& 3)).2
      omega
    simp only [do_move, undo_move, h2, hstm, reduceIte, Nat.reduceEqDiff]
    rw [Position.mk.injEq]
    refine ⟨?_, rfl, ?_, rfl, rfl, rfl⟩
    · rw [lset_set]
      calc bd.set (m &&& 15) 0
          = bd.set (m &&& 15) (bd.getD (m &&& 15) 0) := by rw [hpre.1]
        _ = bd := lset_getD_self _ _ _
    · exact pocket_restore_drop pk _ hidx hpre.2
  · by_cases h1 : (m >>> 14) &&& 3 = 1
    · -- promotion
      have hpre : (m >>> 4) &&& 15 ≠ m &&& 15 ∧
          bd.getD ((m >>> 4) &&& 15) 0 = make_piece stm PAWN := by
        simpa [legalPre, h1] using hm
      simp only [do_move, undo_move, h2, h1, hstm, reduceIte, Nat.reduceEqDiff]
      rw [Position.mk.injEq]
      refine ⟨?_, rfl, ?_, rfl, rfl, rfl⟩
      · rw [show make_piece stm PAWN = bd.getD ((m >>> 4) &&& 15) 0 from hpre.2.symm]
        exact board_restore bd _ hpre.1
      · by_cases hcap : bd.getD (m &&& 15) 0 ≠ 0
        · have hidx : stm * 8 + piece_type (bd.getD (m &&& 15) 0) < pk.length := by
            have : piece_type (bd.getD (m &&& 15) 0) < 8 := Nat.mod_lt _ (by omega)
            omega
          simp only [if_pos hcap]
          exact pocket_restore_cap pk _ hidx
        · simp only [if_neg hcap]
    · -- normal move
      have hpre : (m >>> 4) &&& 15 ≠ m &&& 15 := by
        simpa [legalPre, h2, h1] using hm
      simp only [do_move, undo_move, h2, h1, hstm, reduceIte, Nat.reduceEqDiff]
      rw [Position.mk.injEq]
      have hget : ((bd.set ((m >>> 4) &&& 15) 0).set (m &&& 15)
          (bd.getD ((m >>> 4) &&& 15) 0)).getD (m &&& 15) 0 =
          bd.getD ((m >>> 4) &&& 15) 0 := by
        apply lgetD_set_self
        simp [hb, htoS]
      refine ⟨?_, rfl, ?_, rfl, rfl, rfl⟩
      · rw [hget]
        exact board_restore bd _ hpre
      · by_cases hcap : bd.getD (m &&& 15) 0 ≠ 0
        · have hidx : stm * 8 + piece_type (bd.getD (m &&& 15) 0) < pk.length := by
            have : piece_type (bd.getD (m &&& 15) 0) < 8 := Nat.mod_lt _ (by omega)
            omega
          simp only [if_pos hcap]
          exact pocket_restore_cap pk _ hidx
        · simp only [if_neg hcap]

/-- Witness for C6 at a concrete input: moving the white king from
square 0 to square 1 and undoing restores the two-kings position
exactly. -/
theorem c6_do_undo_roundtrip_witness :
    undo_move (do_move (initZ make_key) atk0 posKings (make_normal 0 1)).1
        (do_move (initZ make_key) atk0 posKings (make_normal 0 1)).2 = posKings :=
  c6_do_undo_roundtrip (initZ make_key) atk0 posKings (make_normal 0 1)
    (by decide) (by decide) (by decide) (by simp [legalPre, make_normal])

/-! ### Phase A invariants

These lemmas establish what a completed Phase A run guarantees
unconditionally: well-formed storage with distinct keys, default
statuses, and every node expanded with its children present in the
index. -/

theorem lookupIndex_append (l : List (Nat × Nat)) (k v k' : Nat) :
    lookupIndex (l ++ [(k, v)]) k' =
      match lookupIndex l k' with
      | some i => some i
      | none => if k = k' then some v else none := by
  unfold lookupIndex
  rw [List.find?_append]
  cases h : l.find? (fun kv => kv.1 == k') with
  | some kv => simp [Option.or]
  | none =>
    simp only [Option.or]
    by_cases hk : k = k'
    · have hb : (k == k') = true := by simpa using hk
      simp [List.find?, hb, hk]
    · have hb : (k == k') = false := by simpa using hk
      simp [List.find?, hb, hk]

theorem mem_iff_getD {l : List Nat} {k : Nat} :
    k ∈ l ↔ ∃ i, i < l.length ∧ l.getD i 0 = k := by
  rw [List.mem_iff_getElem]
  constructor
  · rintro ⟨i, hi, he⟩
    exact ⟨i, hi, by rw [List.getD_eq_getElem _ _ hi, he]⟩
  · rintro ⟨i, hi, he⟩
    exact ⟨i, hi, by rw [← List.getD_eq_getElem _ 0 hi, he]⟩

theorem addNode_spec (g : Graph) (k : Nat) (hwf : WF g) :
    WF (addNode g k).2 ∧
    (addNode g k).1 < (addNode g k).2.nodes.length ∧
    (addNode g k).2.keys.getD (addNode g k).1 0 = k ∧
    lookupIndex (addNode g k).2.indexL k = some (addNode g k).1 ∧
    g.nodes.length ≤ (addNode g k).2.nodes.length ∧
    (∀ j, j < g.nodes.length →
      (addNode g k).2.nodes.getD j Node.mk0 = g.nodes.getD j Node.mk0 ∧
      (addNode g k).2.keys.getD j 0 = g.keys.getD j 0 ∧
      (addNode g k).2.parents.getD j [] = g.parents.getD j []) ∧
    (∀ j, g.nodes.length ≤ j →
      (addNode g k).2.nodes.getD j Node.mk0 = Node.mk0) ∧
    (∀ k' i, lookupIndex g.indexL k' = some i →
      lookupIndex (addNode g k).2.indexL k' = some i) ∧
    (((addNode g k).1 < g.nodes.length ∧
       (addNode g k).2.nodes.length = g.nodes.length) ∨
      ((addNode g k).1 = g.nodes.length ∧
       (addNode g k).2.nodes.length = g.nodes.length + 1 ∧
       (addNode g k).2.keys.getD g.nodes.length 0 = k)) := by
  obtain ⟨hsz, hsound, hcomp, hfresh, hnd⟩ := hwf
  obtain ⟨hszp, hszk, hszi⟩ := hsz
  unfold addNode
  cases h : lookupIndex g.indexL k with
  | some i =>
    obtain ⟨hi, hk⟩ := hsound k i h
    refine ⟨⟨⟨hszp, hszk, hszi⟩, hsound, hcomp, hfresh, hnd⟩, hi, hk, h,
      le_refl _, fun j _ => ⟨rfl, rfl, rfl⟩,
      fun j hj => List.getD_eq_default _ _ hj,
      fun k' i' h' => h', Or.inl ⟨hi, rfl⟩⟩
  | none =>
    have hknotin : k ∉ g.keys := by
      rw [mem_iff_getD]
      rintro ⟨i, hi, he⟩
      exact hfresh k h i (by omega) he
    have hlen : (g.nodes ++ [Node.mk0]).length = g.nodes.length + 1 := by simp
    have hkeys_old : ∀ j, j < g.nodes.length →
        (g.keys ++ [k]).getD j 0 = g.keys.getD j 0 := by
      intro j hj
      exact List.getD_append _ _ _ _ (by omega)
    have hkeys_new : (g.keys ++ [k]).getD g.nodes.length 0 = k := by
      rw [List.getD_append_right _ _ _ _ (by omega)]
      simp [hszk]
    have hlook : ∀ k', lookupIndex (g.indexL ++ [(k, g.nodes.length)]) k' =
        match lookupIndex g.indexL k' with
        | some i => some i
        | none => if k = k' then some g.nodes.length else none :=
      fun k' => lookupIndex_append _ _ _ _
    refine ⟨⟨⟨by simp [hszp], by simp [hszk], by simp [hszi]⟩, ?_, ?_, ?_, ?_⟩,
      ?_, ?_, ?_, ?_, ?_, ?_, ?_, ?_⟩
    · -- IdxSound
      intro k' i h'
      rw [hlook] at h'
      cases hold : lookupIndex g.indexL k' with
      | some i0 =>
        rw [hold] at h'
        simp at h'
        obtain ⟨hi0, hk0⟩ := hsound k' i0 hold
        subst h'
        exact ⟨by simp; omega, by rw [hkeys_old i0 hi0]; exact hk0⟩
      | none =>
        rw [hold] at h'
        by_cases hk : k = k'
        · simp [hk] at h'
          subst h'
          exact ⟨by simp, by rw [hkeys_new]; exact hk⟩
        · simp [hk] at h'
    · -- IdxComplete
      intro i hi
      rw [hlen] at hi
      by_cases hilt : i < g.nodes.length
      · rw [hkeys_old i hilt, hlook]
        rw [hcomp i hilt]
      · have : i = g.nodes.length := by omega
        subst this
        rw [hkeys_new, hlook, h]
        simp
    · -- IdxFresh
      intro k' h' i hi
      rw [hlook] at h'
      cases hold : lookupIndex g.indexL k' with
      | some i0 => rw [hold] at h'; simp at h'
      | none =>
        rw [hold] at h'
        by_cases hk : k = k'
        · simp [hk] at h'
        · rw [hlen] at hi
          by_cases hilt : i < g.nodes.length
          · rw [hkeys_old i hilt]
            exact hfresh k' hold i (by omega)
          · have : i = g.nodes.length := by omega
            subst this
            rw [hkeys_new]
            exact fun he => hk he
    · -- Nodup
      rw [List.nodup_append]
      exact ⟨hnd, List.nodup_singleton k, by
        intro a ha hb
        simp at hb
        subst hb
        exact hknotin ha⟩
    · simp
    · rw [hkeys_new]
    · rw [hlook, h]; simp
    · simp
    · intro j hj
      refine ⟨List.getD_append _ _ _ _ (by omega), hkeys_old j hj,
        List.getD_append _ _ _ _ (by omega)⟩
    · intro j hj
      show (g.nodes ++ [Node.mk0]).getD j Node.mk0 = Node.mk0
      by_cases hlt : j < (g.nodes ++ [Node.mk0]).length
      · rw [hlen] at hlt
        have hje : j = g.nodes.length := by omega
        subst hje
        rw [List.getD_append_right _ _ _ _ (by omega)]
        simp
      · exact List.getD_eq_default _ _ (by omega)
    · intro k' i h'
      rw [hlook, h']
    · right
      exact ⟨rfl, by simp, hkeys_new⟩

theorem lgetD_set {α : Type} (l : List α) (i j : Nat) (a d : α) :
    (l.set i a).getD j d = if i = j ∧ i < l.length then a else l.getD j d := by
  by_cases hij : i = j
  · subst hij
    by_cases hb : i < l.length
    · simp only [hb, and_true, if_pos rfl, true_and, if_true]
      exact lgetD_set_self _ _ _ _ hb
    · rw [lset_oob _ _ _ (by omega)]
      simp [hb]
  · rw [lgetD_set_ne _ _ _ hij]
    simp [hij]

theorem nstat_classify (g : Graph) (i st d j : Nat) :
    nstat (classify g i st d) j =
      if i = j ∧ i < g.nodes.length then st else nstat g j := by
  unfold nstat classify
  simp only
  rw [lgetD_set]
  by_cases h : i = j ∧ i < g.nodes.length
  · obtain ⟨hij, hlt⟩ := h
    subst hij
    simp [hlt]
  · simp [h]

theorem ndtm_classify (g : Graph) (i st d j : Nat) :
    ndtm (classify g i st d) j =
      if i = j ∧ i < g.nodes.length then d else ndtm g j := by
  unfold ndtm classify
  simp only
  rw [lgetD_set]
  by_cases h : i = j ∧ i < g.nodes.length
  · obtain ⟨hij, hlt⟩ := h
    subst hij
    simp [hlt]
  · simp [h]

theorem noutdeg_classify (g : Graph) (i st d j : Nat) :
    noutdeg (classify g i st d) j = noutdeg g j := by
  unfold noutdeg classify
  simp only
  rw [lgetD_set]
  by_cases h : i = j ∧ i < g.nodes.length
  · obtain ⟨hij, hlt⟩ := h
    subst hij
    simp [hlt]
  · simp [h]

theorem nrem_classify (g : Graph) (i st d j : Nat) :
    nrem (classify g i st d) j = nrem g j := by
  unfold nrem classify
  simp only
  rw [lgetD_set]
  by_cases h : i = j ∧ i < g.nodes.length
  · obtain ⟨hij, hlt⟩ := h
    subst hij
    simp [hlt]
  · simp [h]

theorem classify_fields (g : Graph) (i st d : Nat) :
    (classify g i st d).keys = g.keys ∧ (classify g i st d).parents = g.parents ∧
    (classify g i st d).indexL = g.indexL ∧
    (classify g i st d).nodes.length = g.nodes.length :=
  ⟨rfl, rfl, rfl, by simp [classify]⟩

theorem nstat_setOut (g : Graph) (i deg j : Nat) :
    nstat (setOut g i deg) j = nstat g j := by
  unfold nstat setOut
  simp only
  rw [lgetD_set]
  by_cases h : i = j ∧ i < g.nodes.length
  · obtain ⟨hij, hlt⟩ := h
    subst hij
    simp [hlt]
  · simp [h]

theorem ndtm_setOut (g : Graph) (i deg j : Nat) :
    ndtm (setOut g i deg) j = ndtm g j := by
  unfold ndtm setOut
  simp only
  rw [lgetD_set]
  by_cases h : i = j ∧ i < g.nodes.length
  · obtain ⟨hij, hlt⟩ := h
    subst hij
    simp [hlt]
  · simp [h]

theorem noutdeg_setOut (g : Graph) (i deg j : Nat) :
    noutdeg (setOut g i deg) j =
      if i = j ∧ i < g.nodes.length then deg else noutdeg g j := by
  unfold noutdeg setOut
  simp only
  rw [lgetD_set]
  by_cases h : i = j ∧ i < g.nodes.length
  · obtain ⟨hij, hlt⟩ := h
    subst hij
    simp [hlt]
  · simp [h]

theorem nrem_setOut (g : Graph) (i deg j : Nat) :
    nrem (setOut g i deg) j =
      if i = j ∧ i < g.nodes.length then deg else nrem g j := by
  unfold nrem setOut
  simp only
  rw [lgetD_set]
  by_cases h : i = j ∧ i < g.nodes.length
  · obtain ⟨hij, hlt⟩ := h
    subst hij
    simp [hlt]
  · simp [h]

theorem setOut_fields (g : Graph) (i deg : Nat) :
    (setOut g i deg).keys = g.keys ∧ (setOut g i deg).parents = g.parents ∧
    (setOut g i deg).indexL = g.indexL ∧
    (setOut g i deg).nodes.length = g.nodes.length :=
  ⟨rfl, rfl, rfl, by simp [setOut]⟩

theorem nstat_decRem (g : Graph) (i j : Nat) :
    nstat (decRem g i) j = nstat g j := by
  unfold nstat decRem
  simp only
  rw [lgetD_set]
  by_cases h : i = j ∧ i < g.nodes.length
  · obtain ⟨hij, hlt⟩ := h
    subst hij
    simp [hlt]
  · simp [h]

theorem ndtm_decRem (g : Graph) (i j : Nat) :
    ndtm (decRem g i) j = ndtm g j := by
  unfold ndtm decRem
  simp only
  rw [lgetD_set]
  by_cases h : i = j ∧ i < g.nodes.length
  · obtain ⟨hij, hlt⟩ := h
    subst hij
    simp [hlt]
  · simp [h]

theorem noutdeg_decRem (g : Graph) (i j : Nat) :
    noutdeg (decRem g i) j = noutdeg g j := by
  unfold noutdeg decRem
  simp only
  rw [lgetD_set]
  by_cases h : i = j ∧ i < g.nodes.length
  · obtain ⟨hij, hlt⟩ := h
    subst hij
    simp [hlt]
  · simp [h]

theorem nrem_decRem (g : Graph) (i j : Nat) :
    nrem (decRem g i) j =
      if i = j ∧ i < g.nodes.length then nrem g j - 1 else nrem g j := by
  unfold nrem decRem
  simp only
  rw [lgetD_set]
  by_cases h : i = j ∧ i < g.nodes.length
  · obtain ⟨hij, hlt⟩ := h
    subst hij
    simp [hlt]
  · simp [h]

theorem decRem_fields (g : Graph) (i : Nat) :
    (decRem g i).keys = g.keys ∧ (decRem g i).parents = g.parents ∧
    (decRem g i).indexL = g.indexL ∧
    (decRem g i).nodes.length = g.nodes.length :=
  ⟨rfl, rfl, rfl, by simp [decRem]⟩

theorem parents_pushParent (g : Graph) (cid pid j : Nat) :
    (pushParent g cid pid).parents.getD j [] =
      if cid = j ∧ cid < g.parents.length then g.parents.getD j [] ++ [pid]
      else g.parents.getD j [] := by
  unfold pushParent
  simp only
  rw [lgetD_set]
  by_cases h : cid = j ∧ cid < g.parents.length
  · obtain ⟨hij, hlt⟩ := h
    subst hij
    simp [hlt]
  · simp [h]

theorem pushParent_fields (g : Graph) (cid pid : Nat) :
    (pushParent g cid pid).nodes = g.nodes ∧ (pushParent g cid pid).keys = g.keys ∧
    (pushParent g cid pid).indexL = g.indexL ∧
    (pushParent g cid pid).parents.length = g.parents.length :=
  ⟨rfl, rfl, rfl, by simp [pushParent]⟩

theorem wf_pushParent (g : Graph) (cid pid : Nat) (h : WF g) :
    WF (pushParent g cid pid) := by
  obtain ⟨⟨hp, hk, hi⟩, hsound, hcomp, hfresh, hnd⟩ := h
  exact ⟨⟨by simp [pushParent, hp], hk, hi⟩, hsound, hcomp, hfresh, hnd⟩

theorem wf_setOut (g : Graph) (i deg : Nat) (h : WF g) : WF (setOut g i deg) := by
  obtain ⟨⟨hp, hk, hi⟩, hsound, hcomp, hfresh, hnd⟩ := h
  have hlen : (setOut g i deg).nodes.length = g.nodes.length := (setOut_fields g i deg).2.2.2
  refine ⟨⟨by rw [hlen]; exact hp, by rw [hlen]; exact hk, by rw [hlen]; exact hi⟩,
    ?_, ?_, ?_, hnd⟩
  · intro k' i' h'
    have := hsound k' i' h'
    rw [hlen]
    exact this
  · intro i' hi'
    rw [hlen] at hi'
    exact hcomp i' hi'
  · intro k' h' i' hi'
    rw [hlen] at hi'
    exact hfresh k' h' i' hi'

theorem wf_classify (g : Graph) (i st d : Nat) (h : WF g) : WF (classify g i st d) := by
  obtain ⟨⟨hp, hk, hi⟩, hsound, hcomp, hfresh, hnd⟩ := h
  have hlen : (classify g i st d).nodes.length = g.nodes.length :=
    (classify_fields g i st d).2.2.2
  refine ⟨⟨by rw [hlen]; exact hp, by rw [hlen]; exact hk, by rw [hlen]; exact hi⟩,
    ?_, ?_, ?_, hnd⟩
  · intro k' i' h'
    have := hsound k' i' h'
    rw [hlen]
    exact this
  · intro i' hi'
    rw [hlen] at hi'
    exact hcomp i' hi'
  · intro k' h' i' hi'
    rw [hlen] at hi'
    exact hfresh k' h' i' hi'

theorem addChild_spec (game : Game) (pid pk : Nat) (g : Graph)
    (stack : List (Nat × Nat)) (m : Nat)
    (hwf : WF g) (hz : AZero g) (hcoh : StackCoh g stack) :
    WF (addChild game pid pk (g, stack) m).1 ∧
    AZero (addChild game pid pk (g, stack) m).1 ∧
    StackCoh (addChild game pid pk (g, stack) m).1
      (addChild game pid pk (g, stack) m).2 ∧
    g.nodes.length ≤ (addChild game pid pk (g, stack) m).1.nodes.length ∧
    (∀ j, j < g.nodes.length →
      (addChild game pid pk (g, stack) m).1.nodes.getD j Node.mk0 =
        g.nodes.getD j Node.mk0 ∧
      (addChild game pid pk (g, stack) m).1.keys.getD j 0 = g.keys.getD j 0) ∧
    (∀ e ∈ stack, e ∈ (addChild game pid pk (g, stack) m).2) ∧
    (∀ i, g.nodes.length ≤ i →
      i < (addChild game pid pk (g, stack) m).1.nodes.length →
      ∃ e ∈ (addChild game pid pk (g, stack) m).2, e.1 = i) ∧
    (∀ k i, lookupIndex g.indexL k = some i →
      lookupIndex (addChild game pid pk (g, stack) m).1.indexL k = some i) ∧
    lookupIndex (addChild game pid pk (g, stack) m).1.indexL (game.apply pk m) ≠
      none := by
  have ha := addNode_spec g (game.apply pk m) hwf
  obtain ⟨hwfa, hcid, hkeycid, hlook, hgrow, hstable, hnew, hmono, hcases⟩ := ha
  have hP1 : (addChild game pid pk (g, stack) m).1 =
      pushParent (addNode g (game.apply pk m)).2 (addNode g (game.apply pk m)).1 pid := by
    unfold addChild
    dsimp only
    split
    · rfl
    · rfl
  have hpf := pushParent_fields (addNode g (game.apply pk m)).2
    (addNode g (game.apply pk m)).1 pid
  have hwf2 : WF (addChild game pid pk (g, stack) m).1 := by
    rw [hP1]
    exact wf_pushParent _ _ _ hwfa
  have hnodes1 : (addChild game pid pk (g, stack) m).1.nodes =
      (addNode g (game.apply pk m)).2.nodes := by rw [hP1]; exact hpf.1
  have hkeys1 : (addChild game pid pk (g, stack) m).1.keys =
      (addNode g (game.apply pk m)).2.keys := by rw [hP1]; exact hpf.2.1
  have hidx1 : (addChild game pid pk (g, stack) m).1.indexL =
      (addNode g (game.apply pk m)).2.indexL := by rw [hP1]; exact hpf.2.2.1
  have hz2 : AZero (addChild game pid pk (g, stack) m).1 := by
    intro i
    unfold nstat ndtm
    rw [hnodes1]
    by_cases hi : i < g.nodes.length
    · rw [(hstable i hi).1]
      exact hz i
    · by_cases hi2 : i < (addNode g (game.apply pk m)).2.nodes.length
      · rw [hnew i (by omega)]
        exact ⟨rfl, rfl⟩
      · rw [List.getD_eq_default _ _ (by omega)]
        exact ⟨rfl, rfl⟩
  have hsub : ∀ e ∈ stack, e ∈ (addChild game pid pk (g, stack) m).2 := by
    intro e he
    unfold addChild
    dsimp only
    split
    · exact List.mem_cons_of_mem _ he
    · exact he
  have hmem2 : ∀ e, e ∈ (addChild game pid pk (g, stack) m).2 →
      e = ((addNode g (game.apply pk m)).1, game.apply pk m) ∨ e ∈ stack := by
    intro e
    unfold addChild
    dsimp only
    split
    · intro he
      rcases List.mem_cons.mp he with h | h
      · exact Or.inl h
      · exact Or.inr h
    · intro he
      exact Or.inr he
  have hcoh2 : StackCoh (addChild game pid pk (g, stack) m).1
      (addChild game pid pk (g, stack) m).2 := by
    intro e he
    rcases hmem2 e he with he1 | he2
    · subst he1
      constructor
      · rw [hnodes1]
        exact hcid
      · rw [hkeys1]
        exact hkeycid
    · obtain ⟨h1, h2⟩ := hcoh e he2
      refine ⟨by rw [hnodes1]; omega, ?_⟩
      rw [hkeys1, (hstable e.1 h1).2.1]
      exact h2
  refine ⟨hwf2, hz2, hcoh2, ?_, ?_, hsub, ?_, ?_, ?_⟩
  · rw [hnodes1]; exact hgrow
  · intro j hj
    rw [hnodes1, hkeys1]
    exact ⟨(hstable j hj).1, (hstable j hj).2.1⟩
  · -- newly created nodes are on the stack
    intro i hgi hlt
    rw [hnodes1] at hlt
    rcases hcases with ⟨_, hsame⟩ | ⟨hcideq, hlen1, _⟩
    · omega
    · have hieq : i = (addNode g (game.apply pk m)).1 := by omega
      have hcond : (pushParent (addNode g (game.apply pk m)).2
            (addNode g (game.apply pk m)).1 pid).nodes.length =
          (pushParent (addNode g (game.apply pk m)).2
            (addNode g (game.apply pk m)).1 pid).indexL.length ∧
          (addNode g (game.apply pk m)).1 + 1 =
          (pushParent (addNode g (game.apply pk m)).2
            (addNode g (game.apply pk m)).1 pid).nodes.length := by

        obtain ⟨⟨hp, hk, hidx⟩, _, _, _, _⟩ := hwfa
        have e1 : (pushParent (addNode g (game.apply pk m)).2
            (addNode g (game.apply pk m)).1 pid).nodes =
            (addNode g (game.apply pk m)).2.nodes := hpf.1
        have e2 : (pushParent (addNode g (game.apply pk m)).2
            (addNode g (game.apply pk m)).1 pid).indexL =
            (addNode g (game.apply pk m)).2.indexL := hpf.2.2.1
        rw [e1, e2]
        exact ⟨hidx.symm, by omega⟩
      refine ⟨((addNode g (game.apply pk m)).1, game.apply pk m), ?_, hieq.symm⟩
      unfold addChild
      dsimp only
      rw [if_pos hcond]
      exact List.mem_cons_self _ _
  · intro k i h
    rw [hidx1]
    exact hmono k i h
  · rw [hidx1, hlook]
    exact fun h => by cases h

theorem expandFold_spec (game : Game) (pid pk : Nat) :
    ∀ (ml : List Nat) (g : Graph) (stack : List (Nat × Nat)),
      WF g → AZero g → StackCoh g stack →
      WF (ml.foldl (addChild game pid pk) (g, stack)).1 ∧
      AZero (ml.foldl (addChild game pid pk) (g, stack)).1 ∧
      StackCoh (ml.foldl (addChild game pid pk) (g, stack)).1
        (ml.foldl (addChild game pid pk) (g, stack)).2 ∧
      g.nodes.length ≤ (ml.foldl (addChild game pid pk) (g, stack)).1.nodes.length ∧
      (∀ j, j < g.nodes.length →
        (ml.foldl (addChild game pid pk) (g, stack)).1.nodes.getD j Node.mk0 =
          g.nodes.getD j Node.mk0 ∧
        (ml.foldl (addChild game pid pk) (g, stack)).1.keys.getD j 0 =
          g.keys.getD j 0) ∧
      (∀ e ∈ stack, e ∈ (ml.foldl (addChild game pid pk) (g, stack)).2) ∧
      (∀ i, g.nodes.length ≤ i →
        i < (ml.foldl (addChild game pid pk) (g, stack)).1.nodes.length →
        ∃ e ∈ (ml.foldl (addChild game pid pk) (g, stack)).2, e.1 = i) ∧
      (∀ k i, lookupIndex g.indexL k = some i →
        lookupIndex (ml.foldl (addChild game pid pk) (g, stack)).1.indexL k = some i) ∧
      (∀ m ∈ ml, lookupIndex
        (ml.foldl (addChild game pid pk) (g, stack)).1.indexL (game.apply pk m) ≠
          none) := by
  intro ml
  induction ml with
  | nil =>
    intro g stack hwf hz hcoh
    refine ⟨hwf, hz, hcoh, le_refl _, fun j _ => ⟨rfl, rfl⟩, fun e he => he,
      fun i h1 h2 => absurd (lt_of_le_of_lt h1 h2) (lt_irrefl _), fun k i h => h,
      fun m hm => absurd hm (List.not_mem_nil _)⟩
  | cons mh mt ih =>
    intro g stack hwf hz hcoh
    have h1 := addChild_spec game pid pk g stack mh hwf hz hcoh
    obtain ⟨hwf1, hz1, hcoh1, hgrow1, hstable1, hsub1, hnew1, hmono1, hlook1⟩ := h1
    rw [List.foldl_cons]
    have heq : addChild game pid pk (g, stack) mh =
        ((addChild game pid pk (g, stack) mh).1, (addChild game pid pk (g, stack) mh).2) := rfl
    rw [heq]
    have h2 := ih (addChild game pid pk (g, stack) mh).1
      (addChild game pid pk (g, stack) mh).2 hwf1 hz1 hcoh1
    obtain ⟨hwf2, hz2, hcoh2, hgrow2, hstable2, hsub2, hnew2, hmono2, hlook2⟩ := h2
    refine ⟨hwf2, hz2, hcoh2, le_trans hgrow1 hgrow2, ?_, ?_, ?_, ?_, ?_⟩
    · intro j hj
      have hj1 : j < (addChild game pid pk (g, stack) mh).1.nodes.length := by omega
      obtain ⟨hn2, hk2⟩ := hstable2 j hj1
      obtain ⟨hn1, hk1⟩ := hstable1 j hj
      exact ⟨hn2.trans hn1, hk2.trans hk1⟩
    · intro e he
      exact hsub2 e (hsub1 e he)
    · intro i hgi hlt
      by_cases hmid : i < (addChild game pid pk (g, stack) mh).1.nodes.length
      · obtain ⟨e, he, hei⟩ := hnew1 i hgi hmid
        exact ⟨e, hsub2 e he, hei⟩
      · exact hnew2 i (by omega) hlt
    · intro k i h
      exact hmono2 k i (hmono1 k i h)
    · intro m' hm'
      rcases List.mem_cons.mp hm' with hm1 | hm2
      · subst hm1
        cases hl : lookupIndex (addChild game pid pk (g, stack) m').1.indexL
            (game.apply pk m') with
        | none => exact absurd hl hlook1
        | some i =>
          rw [hmono2 _ _ hl]
          exact fun h => by cases h
      · exact hlook2 m' hm2

theorem expandStep_inv (game : Game) (g : Graph) (pid pk : Nat)
    (rest : List (Nat × Nat))
    (hwf : WF g) (hz : AZero g) (hcohall : StackCoh g ((pid, pk) :: rest))
    (hfull : ∀ i, i < g.nodes.length →
      (∃ e ∈ (pid, pk) :: rest, e.1 = i) ∨ ExpandedAt game g i) :
    AInv game (expandStep game g pid pk rest).1 (expandStep game g pid pk rest).2 ∧
    g.nodes.length ≤ (expandStep game g pid pk rest).1.nodes.length ∧
    (∀ j, j < g.nodes.length →
      (expandStep game g pid pk rest).1.keys.getD j 0 = g.keys.getD j 0) := by
  have hpid : pid < g.nodes.length ∧ g.keys.getD pid 0 = pk :=
    hcohall (pid, pk) (by simp)
  have hcohrest : StackCoh g rest := fun e he => hcohall e (by simp [he])
  have hsf := setOut_fields g pid (game.moves pk).length
  have hwf1 : WF (setOut g pid (game.moves pk).length) :=
    wf_setOut g pid (game.moves pk).length hwf
  have hz1 : AZero (setOut g pid (game.moves pk).length) := by
    intro i
    rw [nstat_setOut, ndtm_setOut]
    exact hz i
  have hcoh1 : StackCoh (setOut g pid (game.moves pk).length) rest := by
    intro e he
    obtain ⟨h1, h2⟩ := hcohrest e he
    rw [hsf.2.2.2, hsf.1]
    exact ⟨h1, h2⟩
  have hF := expandFold_spec game pid pk (game.moves pk)
    (setOut g pid (game.moves pk).length) rest hwf1 hz1 hcoh1
  obtain ⟨hwfP, hzP, hcohP, hgrowP, hstableP, hsubP, hnewP, hmonoP, hlookP⟩ := hF
  have hlen1 : (setOut g pid (game.moves pk).length).nodes.length = g.nodes.length :=
    hsf.2.2.2
  have hkeys1 : (setOut g pid (game.moves pk).length).keys = g.keys := hsf.1
  have hidx1 : (setOut g pid (game.moves pk).length).indexL = g.indexL := hsf.2.2.1
  have hE : expandStep game g pid pk rest =
      (game.moves pk).foldl (addChild game pid pk)
        (setOut g pid (game.moves pk).length, rest) := rfl
  rw [hE]
  have hkeystable : ∀ j, j < g.nodes.length →
      ((game.moves pk).foldl (addChild game pid pk)
        (setOut g pid (game.moves pk).length, rest)).1.keys.getD j 0 =
        g.keys.getD j 0 := by
    intro j hj
    rw [(hstableP j (by omega)).2, hkeys1]
  have hnodestable : ∀ j, j < g.nodes.length →
      ((game.moves pk).foldl (addChild game pid pk)
        (setOut g pid (game.moves pk).length, rest)).1.nodes.getD j Node.mk0 =
        (setOut g pid (game.moves pk).length).nodes.getD j Node.mk0 := by
    intro j hj
    exact (hstableP j (by omega)).1
  refine ⟨⟨hwfP, hzP, hcohP, ?_⟩, by omega, hkeystable⟩
  intro i hi
  by_cases hiold : i < g.nodes.length
  · by_cases hip : i = pid
    · subst hip
      right
      have hmv : movesOf game ((game.moves pk).foldl (addChild game i pk)
          (setOut g i (game.moves pk).length, rest)).1 i = game.moves pk := by
        unfold movesOf
        rw [hkeystable i hiold, hpid.2]
      refine ⟨?_, ?_, ?_⟩
      · intro m hm
        rw [hmv] at hm
        unfold childIdOf
        rw [hkeystable i hiold, hpid.2]
        exact hlookP m hm
      · unfold noutdeg
        rw [hmv, hnodestable i hiold]
        have := noutdeg_setOut g i (game.moves pk).length i
        unfold noutdeg at this
        rw [this]
        simp [hiold]
      · unfold nrem
        rw [hmv, hnodestable i hiold]
        have := nrem_setOut g i (game.moves pk).length i
        unfold nrem at this
        rw [this]
        simp [hiold]
    · rcases hfull i hiold with ⟨e, he, hei⟩ | hexp
      · rcases List.mem_cons.mp he with he1 | he2
        · rw [he1] at hei
          exact absurd hei.symm hip
        · exact Or.inl ⟨e, hsubP e he2, hei⟩
      · right
        obtain ⟨hclo, hdeg, hrem⟩ := hexp
        have hmv : movesOf game ((game.moves pk).foldl (addChild game pid pk)
            (setOut g pid (game.moves pk).length, rest)).1 i =
            movesOf game g i := by
          unfold movesOf
          rw [hkeystable i hiold]
        have hnode : ((game.moves pk).foldl (addChild game pid pk)
            (setOut g pid (game.moves pk).length, rest)).1.nodes.getD i Node.mk0 =
            g.nodes.getD i Node.mk0 := by
          rw [hnodestable i hiold]
          have hne : pid ≠ i := fun h => hip h.symm
          unfold setOut
          dsimp only
          rw [lgetD_set]
          simp [hne]
        refine ⟨?_, ?_, ?_⟩
        · intro m hm
          rw [hmv] at hm
          have hold := hclo m hm
          unfold childIdOf at hold ⊢
          rw [hkeystable i hiold]
          cases hl : lookupIndex g.indexL (game.apply (g.keys.getD i 0) m) with
          | none => exact absurd hl hold
          | some j =>
            have := hmonoP _ _ (by rw [hidx1]; exact hl)
            rw [this]
            exact fun h => by cases h
        · unfold noutdeg
          rw [hmv, hnode]
          exact hdeg
        · unfold nrem
          rw [hmv, hnode]
          exact hrem
  · left
    exact hnewP i (by omega) hi

theorem phaseA_inv (game : Game) :
    ∀ (fuel : Nat) (g : Graph) (stack : List (Nat × Nat)) (gOut : Graph),
      AInv game g stack → phaseA game fuel g stack = some gOut →
      APost game gOut ∧ g.nodes.length ≤ gOut.nodes.length ∧
      (∀ j, j < g.nodes.length → gOut.keys.getD j 0 = g.keys.getD j 0) := by
  intro fuel
  induction fuel with
  | zero =>
    intro g stack gOut hinv hrun
    cases stack with
    | nil =>
      cases hrun
      obtain ⟨hwf, hz, hcoh, hfull⟩ := hinv
      refine ⟨⟨hwf, hz, ?_⟩, le_refl _, fun j _ => rfl⟩
      intro i hi
      rw [List.mem_range] at hi
      rcases hfull i hi with ⟨e, he, _⟩ | hexp
      · exact absurd he (List.not_mem_nil e)
      · exact hexp
    | cons e rest => cases hrun
  | succ f ih =>
    intro g stack gOut hinv hrun
    cases stack with
    | nil =>
      cases hrun
      obtain ⟨hwf, hz, hcoh, hfull⟩ := hinv
      refine ⟨⟨hwf, hz, ?_⟩, le_refl _, fun j _ => rfl⟩
      intro i hi
      rw [List.mem_range] at hi
      rcases hfull i hi with ⟨e, he, _⟩ | hexp
      · exact absurd he (List.not_mem_nil e)
      · exact hexp
    | cons e rest =>
      obtain ⟨pid, pk⟩ := e
      obtain ⟨hwf, hz, hcoh, hfull⟩ := hinv
      have hstep := expandStep_inv game g pid pk rest hwf hz hcoh hfull
      obtain ⟨hinv1, hgrow1, hkeys1⟩ := hstep
      have hrun1 : phaseA game f (expandStep game g pid pk rest).1
          (expandStep game g pid pk rest).2 = some gOut := hrun
      obtain ⟨hpost, hgrow2, hkeys2⟩ := ih (expandStep game g pid pk rest).1
        (expandStep game g pid pk rest).2 gOut hinv1 hrun1
      refine ⟨hpost, by omega, ?_⟩
      intro j hj
      rw [hkeys2 j (by omega), hkeys1 j hj]

theorem wf_emptyGraph : WF emptyGraph := by
  refine ⟨⟨rfl, rfl, rfl⟩, ?_, ?_, ?_, List.nodup_nil⟩
  · intro k i h
    cases h
  · intro i hi
    simp [emptyGraph] at hi
  · intro k _ i hi
    simp [emptyGraph] at hi

theorem phaseA_run_post (game : Game) (fuel rootKey : Nat) (gA : Graph)
    (h : phaseA game fuel (initGraph rootKey) [(0, rootKey)] = some gA) :
    APost game gA ∧ 1 ≤ gA.nodes.length ∧ gA.keys.getD 0 0 = rootKey := by
  have ha := addNode_spec emptyGraph rootKey wf_emptyGraph
  have hwf0 : WF (initGraph rootKey) := ha.1
  have hz0 : AZero (initGraph rootKey) := by
    intro i
    cases i with
    | zero => exact ⟨rfl, rfl⟩
    | succ n =>
      unfold nstat ndtm initGraph addNode emptyGraph lookupIndex
      simp [List.getD]
      exact ⟨rfl, rfl⟩
  have hlen0 : (initGraph rootKey).nodes.length = 1 := rfl
  have hkey0 : (initGraph rootKey).keys.getD 0 0 = rootKey := rfl
  have hinv : AInv game (initGraph rootKey) [(0, rootKey)] := by
    refine ⟨hwf0, hz0, ?_, ?_⟩
    · intro e he
      simp only [List.mem_singleton] at he
      subst he
      exact ⟨by rw [hlen0]; omega, hkey0⟩
    · intro i hi
      rw [hlen0] at hi
      left
      exact ⟨(0, rootKey), by simp, by omega⟩
  obtain ⟨hpost, hgrow, hkeys⟩ := phaseA_inv game fuel (initGraph rootKey)
    [(0, rootKey)] gA hinv h
  rw [hlen0] at hgrow hkeys
  exact ⟨hpost, hgrow, by rw [hkeys 0 (by omega)]; exact hkey0⟩

/-! ### Claim C7: the tablebase format -/

theorem leBytes_length (w x : Nat) : (leBytes w x).length = w := by
  simp [leBytes]

theorem rowBytes_length (r : TBRecord) : (rowBytes r).length = 15 := by
  simp [rowBytes, leBytes_length]

theorem flatten_rowBytes_length (recs : List TBRecord) :
    ((recs.map rowBytes).flatten).length = 15 * recs.length := by
  induction recs with
  | nil => simp
  | cons r rs ih =>
    simp only [List.map_cons, List.flatten_cons, List.length_append, ih,
      rowBytes_length, List.length_cons]
    ring

theorem insertRec_perm (r : TBRecord) (l : List TBRecord) :
    (insertRec r l).Perm (r :: l) := by
  induction l with
  | nil => exact List.Perm.refl _
  | cons x xs ih =>
    unfold insertRec
    by_cases h : r.key ≤ x.key
    · rw [if_pos h]
    · rw [if_neg h]
      exact (ih.cons x).trans (List.Perm.swap r x xs)

theorem mem_insertRec {r y : TBRecord} {l : List TBRecord}
    (h : y ∈ insertRec r l) : y = r ∨ y ∈ l := by
  have := (insertRec_perm r l).mem_iff.mp h
  simpa using this

theorem insertRec_pairwise (r : TBRecord) (l : List TBRecord)
    (h : l.Pairwise (fun a b => a.key ≤ b.key)) :
    (insertRec r l).Pairwise (fun a b => a.key ≤ b.key) := by
  induction l with
  | nil => simp [insertRec]
  | cons x xs ih =>
    unfold insertRec
    rcases List.pairwise_cons.mp h with ⟨hx, hxs⟩
    by_cases hle : r.key ≤ x.key
    · rw [if_pos hle]
      refine List.pairwise_cons.mpr ⟨?_, h⟩
      intro y hy
      rcases List.mem_cons.mp hy with hy1 | hy2
      · subst hy1; exact hle
      · exact le_trans hle (hx y hy2)
    · rw [if_neg hle]
      refine List.pairwise_cons.mpr ⟨?_, ih hxs⟩
      intro y hy
      rcases mem_insertRec hy with hy1 | hy2
      · subst hy1
        exact le_of_not_le hle
      · exact hx y hy2

theorem sortRecords_perm (l : List TBRecord) : (sortRecords l).Perm l := by
  induction l with
  | nil => exact List.Perm.refl _
  | cons x xs ih =>
    unfold sortRecords
    exact (insertRec_perm x (sortRecords xs)).trans (ih.cons x)

theorem sortRecords_pairwise (l : List TBRecord) :
    (sortRecords l).Pairwise (fun a b => a.key ≤ b.key) := by
  induction l with
  | nil => simp [sortRecords]
  | cons x xs ih =>
    unfold sortRecords
    exact insertRec_pairwise x _ ih

theorem sortRecords_strict (recs : List TBRecord)
    (h : (recs.map TBRecord.key).Nodup) :
    (sortRecords recs).Pairwise (fun a b => a.key < b.key) := by
  have hperm : ((sortRecords recs).map TBRecord.key).Perm (recs.map TBRecord.key) :=
    (sortRecords_perm recs).map TBRecord.key
  have hnd : ((sortRecords recs).map TBRecord.key).Nodup := hperm.nodup_iff.mpr h
  have hne : (sortRecords recs).Pairwise (fun a b => a.key ≠ b.key) :=
    (List.pairwise_map).mp hnd
  have hle := sortRecords_pairwise recs
  exact (hle.and hne).imp (fun hab => lt_of_le_of_ne hab.1 hab.2)

/-- C7: the persisted tablebase is the 20-byte packed header — 8-byte
magic, 4-byte version, 8-byte record count — followed by 15-byte packed
rows `{8-byte key, 1-byte WDL, 2-byte DTM, 4-byte move}`, the WDL byte
encodes Loss as 0, Draw as 1 and Win as 2, the solver emits one record
per node with distinct keys, and the sort of `solve` orders the records
by ascending (strictly, for distinct keys) key. -/
theorem c7_tb_format :
    tbMagic.length = 8 ∧
    (∀ cnt, headerBytes (tbHeader cnt) = tbMagic ++ leBytes 4 1 ++ leBytes 8 cnt ∧
      (headerBytes (tbHeader cnt)).length = 20) ∧
    (∀ r : TBRecord,
      rowBytes r = leBytes 8 r.key ++ leBytes 1 r.wdl ++ leBytes 2 r.dtm ++
        leBytes 4 r.best ∧ (rowBytes r).length = 15) ∧
    (∀ recs : List TBRecord,
      tbFileBytes recs = headerBytes (tbHeader recs.length) ++ (recs.map rowBytes).flatten ∧
      (tbFileBytes recs).length = 20 + 15 * recs.length) ∧
    (∀ g : Graph, (toRecords g).length = g.nodes.length) ∧
    (∀ (g : Graph) (i : Nat), i < g.nodes.length →
      ((toRecords g).getD i ⟨0, 0, 0, 0⟩).wdl =
        if nstat g i = 1 then 2 else if nstat g i = 2 then 0 else 1) ∧
    (∀ (game : Game) (fuel rootKey : Nat) (gA : Graph),
      phaseA game fuel (initGraph rootKey) [(0, rootKey)] = some gA →
      gA.keys.Nodup) ∧
    (∀ recs : List TBRecord, (sortRecords recs).Perm recs) ∧
    (∀ recs : List TBRecord,
      (sortRecords recs).Pairwise (fun a b => a.key ≤ b.key)) ∧
    (∀ recs : List TBRecord, (recs.map TBRecord.key).Nodup →
      (sortRecords recs).Pairwise (fun a b => a.key < b.key)) := by
  refine ⟨rfl, ?_, ?_, ?_, ?_, ?_, ?_, sortRecords_perm, sortRecords_pairwise,
    sortRecords_strict⟩
  · intro cnt
    constructor
    · rfl
    · simp [headerBytes, tbHeader, tbMagic, leBytes_length]
  · intro r
    exact ⟨rfl, rowBytes_length r⟩
  · intro recs
    refine ⟨rfl, ?_⟩
    unfold tbFileBytes
    rw [List.length_append, flatten_rowBytes_length]
    have : (headerBytes (tbHeader recs.length)).length = 20 := by
      simp [headerBytes, tbHeader, tbMagic, leBytes_length]
    omega
  · intro g
    simp [toRecords]
  · intro g i hi
    unfold toRecords
    rw [List.getD_eq_getElem]
    · simp
    · simp [hi]
  · intro game fuel rootKey gA h
    exact (phaseA_run_post game fuel rootKey gA h).1.1.2.2.2.2

/-- Witness for C7: the strict-ascending conjunct applied to a concrete
record list with distinct keys. -/
theorem c7_tb_format_witness :
    (sortRecords [⟨9, 2, 0, 0⟩, ⟨4, 0, 1, 0⟩, ⟨7, 1, 0, 0⟩]).Pairwise
      (fun a b => a.key < b.key) :=
  c7_tb_format.2.2.2.2.2.2.2.2.2 [⟨9, 2, 0, 0⟩, ⟨4, 0, 1, 0⟩, ⟨7, 1, 0, 0⟩]
    (by decide)

/-! ### Phase B invariants -/

theorem getD_replicate_false (n i : Nat) :
    (List.replicate n false).getD i false = false := by
  by_cases h : i < n
  · rw [List.getD_eq_getElem _ _ (by simp [h])]
    simp
  · exact List.getD_eq_default _ _ (by simp; omega)

theorem scanChildren_spec (game : Game) (gA : Graph) (g : Graph) (pk : Nat)
    (hidx : g.indexL = gA.indexL) (hsound : IdxSound gA) :
    ∀ (ml : List Nat) (work : List (Nat × Nat)) (seen : List Bool),
      (∀ m ∈ ml, lookupIndex gA.indexL (game.apply pk m) ≠ none) →
      seen.length = gA.nodes.length →
      (∀ e ∈ work, e.1 < gA.nodes.length ∧ gA.keys.getD e.1 0 = e.2) →
      ((work.map Prod.fst).Nodup) →
      (∀ e ∈ work, seen.getD e.1 false = true) →
      (ml.foldl (scanChild game g pk) (work, seen)).2.length = seen.length ∧
      (∀ e ∈ (ml.foldl (scanChild game g pk) (work, seen)).1,
        e.1 < gA.nodes.length ∧ gA.keys.getD e.1 0 = e.2) ∧
      (∀ e ∈ work, e ∈ (ml.foldl (scanChild game g pk) (work, seen)).1) ∧
      (∀ e ∈ (ml.foldl (scanChild game g pk) (work, seen)).1,
        e ∈ work ∨ seen.getD e.1 false = false) ∧
      (((ml.foldl (scanChild game g pk) (work, seen)).1.map Prod.fst).Nodup) ∧
      (∀ e ∈ (ml.foldl (scanChild game g pk) (work, seen)).1,
        (ml.foldl (scanChild game g pk) (work, seen)).2.getD e.1 false = true) ∧
      (∀ i, seen.getD i false = true →
        (ml.foldl (scanChild game g pk) (work, seen)).2.getD i false = true) ∧
      (∀ i, (ml.foldl (scanChild game g pk) (work, seen)).2.getD i false = true →
        seen.getD i false = true ∨
          i ∈ (ml.foldl (scanChild game g pk) (work, seen)).1.map Prod.fst) := by
  intro ml
  induction ml with
  | nil =>
    intro work seen hclo hlen hcoh hnd hseen
    exact ⟨rfl, hcoh, fun e he => he, fun e he => Or.inl he, hnd, hseen,
      fun i h => h, fun i h => Or.inl h⟩
  | cons m mt ih =>
    intro work seen hclo hlen hcoh hnd hseen
    rw [List.foldl_cons]
    cases hl : lookupIndex gA.indexL (game.apply pk m) with
    | none => exact absurd hl (hclo m (by simp))
    | some c =>
      obtain ⟨hcn, hck⟩ := hsound _ _ hl
      have hstep : scanChild game g pk (work, seen) m =
          if seen.getD c false = true then (work, seen)
          else (work ++ [(c, game.apply pk m)], seen.set c true) := by
        unfold scanChild
        dsimp only
        rw [hidx, hl]
        rfl
      by_cases hs : seen.getD c false = true
      · rw [hstep, if_pos hs]
        exact ih work seen (fun m' hm' => hclo m' (by simp [hm'])) hlen hcoh hnd hseen
      · rw [hstep, if_neg hs]
        have hsb : seen.getD c false = false := by
          cases hv : seen.getD c false
          · rfl
          · exact absurd hv hs
        have hlen' : (seen.set c true).length = gA.nodes.length := by
          simp [hlen]
        have hcoh' : ∀ e ∈ work ++ [(c, game.apply pk m)],
            e.1 < gA.nodes.length ∧ gA.keys.getD e.1 0 = e.2 := by
          intro e he
          rcases List.mem_append.mp he with h1 | h2
          · exact hcoh e h1
          · simp at h2
            subst h2
            exact ⟨hcn, hck⟩
        have hcnotin : c ∉ work.map Prod.fst := by
          intro hc
          obtain ⟨e, he, hec⟩ := List.mem_map.mp hc
          have := hseen e he
          rw [hec] at this
          rw [this] at hsb
          cases hsb
        have hnd' : ((work ++ [(c, game.apply pk m)]).map Prod.fst).Nodup := by
          rw [List.map_append, List.nodup_append]
          exact ⟨hnd, List.nodup_singleton _, by
            intro a ha hb
            simp at hb
            subst hb
            exact hcnotin ha⟩
        have hseen' : ∀ e ∈ work ++ [(c, game.apply pk m)],
            (seen.set c true).getD e.1 false = true := by
          intro e he
          rcases List.mem_append.mp he with h1 | h2
          · rw [lgetD_set]
            by_cases hce : c = e.1 ∧ c < seen.length
            · rw [if_pos hce]
            · rw [if_neg hce]
              exact hseen e h1
          · simp at h2
            subst h2
            rw [lgetD_set, if_pos ⟨rfl, by omega⟩]
        obtain ⟨s1, s2, s3, s4, s5, s6, s7, s8⟩ :=
          ih (work ++ [(c, game.apply pk m)]) (seen.set c true)
            (fun m' hm' => hclo m' (by simp [hm'])) hlen' hcoh' hnd' hseen'
        refine ⟨by rw [s1]; simp, s2, ?_, ?_, s5, s6, ?_, ?_⟩
        · intro e he
          exact s3 e (by simp [he])
        · intro e he
          rcases s4 e he with h1 | h2
          · rcases List.mem_append.mp h1 with hw | hnew
            · exact Or.inl hw
            · simp at hnew
              right
              rw [hnew]
              exact hsb
          · right
            rw [lgetD_set] at h2
            by_cases hce : c = e.1 ∧ c < seen.length
            · rw [← hce.1]
              exact hsb
            · rw [if_neg hce] at h2
              exact h2
        · intro i hi
          apply s7
          rw [lgetD_set]
          by_cases hce : c = i ∧ c < seen.length
          · rw [if_pos hce]
          · rw [if_neg hce]
            exact hi
        · intro i hi
          rcases s8 i hi with h1 | h2
          · rw [lgetD_set] at h1
            by_cases hce : c = i ∧ c < seen.length
            · right
              have hmem := s3 (c, game.apply pk m) (by simp)
              rw [← hce.1]
              exact List.mem_map.mpr ⟨(c, game.apply pk m), hmem, rfl⟩
            · rw [if_neg hce] at h1
              exact Or.inl h1
          · exact Or.inr h2

theorem termStep_eq (game : Game) (g : Graph) (pid pk : Nat) (q : List Nat) :
    termStep game g pid pk q =
      if game.moves pk = [] then
        (classify g pid (if game.inCheck pk then 2 else 1) 0, q ++ [pid])
      else (g, q) := by
  unfold termStep
  by_cases hc : game.inCheck pk
  · simp [hc]
  · simp [hc]

theorem phaseB_inv (game : Game) (gA : Graph) (hpost : APost game gA) :
    ∀ (fuel : Nat) (g : Graph) (work : List (Nat × Nat)) (seen : List Bool)
      (q procd : List Nat) (out : Graph × List Bool × List Nat),
      (g.keys = gA.keys ∧ g.parents = gA.parents ∧ g.indexL = gA.indexL ∧
        g.nodes.length = gA.nodes.length ∧ seen.length = gA.nodes.length) →
      (∀ i, noutdeg g i = noutdeg gA i ∧ nrem g i = nrem gA i) →
      (∀ e ∈ work, e.1 < gA.nodes.length ∧ gA.keys.getD e.1 0 = e.2) →
      ((work.map Prod.fst).Nodup) →
      (procd.Nodup) →
      (∀ p ∈ procd, p < gA.nodes.length) →
      (∀ e ∈ work, e.1 ∉ procd) →
      (∀ i, i < gA.nodes.length →
        (seen.getD i false = true ↔ i ∈ procd ∨ i ∈ work.map Prod.fst)) →
      (∀ i, i < gA.nodes.length →
        ((i ∈ procd ∧ movesOf game gA i = []) →
          nstat g i = (if game.inCheck (gA.keys.getD i 0) then 2 else 1) ∧
          ndtm g i = 0 ∧ i ∈ q) ∧
        (¬(i ∈ procd ∧ movesOf game gA i = []) →
          nstat g i = 0 ∧ ndtm g i = 0 ∧ i ∉ q)) →
      (q.Nodup) →
      (∀ v ∈ q, v ∈ procd ∧ movesOf game gA v = []) →
      phaseB game fuel g work seen q = some out →
      (out.1.keys = gA.keys ∧ out.1.parents = gA.parents ∧
        out.1.indexL = gA.indexL ∧ out.1.nodes.length = gA.nodes.length ∧
        out.2.1.length = gA.nodes.length) ∧
      (∀ i, noutdeg out.1 i = noutdeg gA i ∧ nrem out.1 i = nrem gA i) ∧
      (∀ i, i < gA.nodes.length →
        ((out.2.1.getD i false = true ∧ movesOf game gA i = []) →
          nstat out.1 i = (if game.inCheck (gA.keys.getD i 0) then 2 else 1) ∧
          ndtm out.1 i = 0 ∧ i ∈ out.2.2) ∧
        (¬(out.2.1.getD i false = true ∧ movesOf game gA i = []) →
          nstat out.1 i = 0 ∧ ndtm out.1 i = 0 ∧ i ∉ out.2.2)) ∧
      out.2.2.Nodup ∧
      (∀ v ∈ out.2.2, v < gA.nodes.length ∧ out.2.1.getD v false = true ∧
        movesOf game gA v = []) := by
  obtain ⟨hwfA, hzA, hexpA⟩ := hpost
  intro fuel
  induction fuel with
  | zero =>
    intro g work seen q procd out h0 h1 hcoh hnd hpnd hpb hdisj hb4 hb5 hqnd hqm hrun
    cases work with
    | nil =>
      cases hrun
      refine ⟨h0, h1, ?_, hqnd, ?_⟩
      · intro i hi
        have hiff := hb4 i hi
        have hcl := hb5 i hi
        constructor
        · intro ⟨hs, hm⟩
          have : i ∈ procd := by
            rcases hiff.mp hs with h | h
            · exact h
            · simp at h
          exact hcl.1 ⟨this, hm⟩
        · intro hn
          apply hcl.2
          intro ⟨hp, hm⟩
          exact hn ⟨hiff.mpr (Or.inl hp), hm⟩
      · intro v hv
        obtain ⟨hvp, hvm⟩ := hqm v hv
        have hvn := hpb v hvp
        exact ⟨hvn, (hb4 v hvn).mpr (Or.inl hvp), hvm⟩
    | cons e rest => cases hrun
  | succ f ih =>
    intro g work seen q procd out h0 h1 hcoh hnd hpnd hpb hdisj hb4 hb5 hqnd hqm hrun
    cases work with
    | nil =>
      cases hrun
      refine ⟨h0, h1, ?_, hqnd, ?_⟩
      · intro i hi
        have hiff := hb4 i hi
        have hcl := hb5 i hi
        constructor
        · intro ⟨hs, hm⟩
          have : i ∈ procd := by
            rcases hiff.mp hs with h | h
            · exact h
            · simp at h
          exact hcl.1 ⟨this, hm⟩
        · intro hn
          apply hcl.2
          intro ⟨hp, hm⟩
          exact hn ⟨hiff.mpr (Or.inl hp), hm⟩
      · intro v hv
        obtain ⟨hvp, hvm⟩ := hqm v hv
        have hvn := hpb v hvp
        exact ⟨hvn, (hb4 v hvn).mpr (Or.inl hvp), hvm⟩
    | cons e rest =>
      obtain ⟨pid, pk⟩ := e
      obtain ⟨hkeys, hpars, hidx, hglen, hslen⟩ := h0
      have hpidn : pid < gA.nodes.length ∧ gA.keys.getD pid 0 = pk :=
        hcoh (pid, pk) (by simp)
      have hrun1 : phaseB game f (termStep game g pid pk q).1
          (scanChildren game (termStep game g pid pk q).1 pk rest seen).1
          (scanChildren game (termStep game g pid pk q).1 pk rest seen).2
          (termStep game g pid pk q).2 = some out := hrun
      -- the graph after the terminal step
      have hts := termStep_eq game g pid pk q
      have hgq_keys : (termStep game g pid pk q).1.keys = gA.keys := by
        rw [hts]
        split
        · exact (classify_fields _ _ _ _).1.trans hkeys
        · exact hkeys
      have hgq_pars : (termStep game g pid pk q).1.parents = gA.parents := by
        rw [hts]
        split
        · exact (classify_fields _ _ _ _).2.1.trans hpars
        · exact hpars
      have hgq_idx : (termStep game g pid pk q).1.indexL = gA.indexL := by
        rw [hts]
        split
        · exact (classify_fields _ _ _ _).2.2.1.trans hidx
        · exact hidx
      have hgq_len : (termStep game g pid pk q).1.nodes.length = gA.nodes.length := by
        rw [hts]
        split
        · exact (classify_fields _ _ _ _).2.2.2.trans hglen
        · exact hglen
      have hgq_deg : ∀ i, noutdeg (termStep game g pid pk q).1 i = noutdeg gA i ∧
          nrem (termStep game g pid pk q).1 i = nrem gA i := by
        intro i
        rw [hts]
        split
        · rw [noutdeg_classify, nrem_classify]
          exact h1 i
        · exact h1 i
      -- expanded-node facts for pid
      have hexp_pid := hexpA pid (by rw [List.mem_range]; exact hpidn.1)
      have hmv_pid : movesOf game gA pid = game.moves pk := by
        unfold movesOf
        rw [hpidn.2]
      have hclo_pid : ∀ m ∈ game.moves pk,
          lookupIndex gA.indexL (game.apply pk m) ≠ none := by
        intro m hm
        have := hexp_pid.1 m (by rw [hmv_pid]; exact hm)
        unfold childIdOf at this
        rw [hpidn.2] at this
        exact this
      have hrestcoh : ∀ e ∈ rest, e.1 < gA.nodes.length ∧ gA.keys.getD e.1 0 = e.2 :=
        fun e he => hcoh e (by simp [he])
      have hrestnd : (rest.map Prod.fst).Nodup := by
        have := hnd
        simp only [List.map_cons, List.nodup_cons] at this
        exact this.2
      have hpidrest : pid ∉ rest.map Prod.fst := by
        have := hnd
        simp only [List.map_cons, List.nodup_cons] at this
        exact this.1
      have hrestseen : ∀ e ∈ rest, seen.getD e.1 false = true := by
        intro e he
        have hen := (hrestcoh e he).1
        exact (hb4 e.1 hen).mpr (Or.inr (by
          simp only [List.map_cons, List.mem_cons]
          exact Or.inr (List.mem_map.mpr ⟨e, he, rfl⟩)))
      have hscan := scanChildren_spec game gA (termStep game g pid pk q).1 pk
        hgq_idx hwfA.2.1 (game.moves pk) rest seen hclo_pid hslen hrestcoh
        hrestnd hrestseen
      obtain ⟨s1, s2, s3, s4, s5, s6, s7, s8⟩ := hscan
      have hseenpid : seen.getD pid false = true :=
        (hb4 pid hpidn.1).mpr (Or.inr (by simp))
      have hpidnp : pid ∉ procd := hdisj (pid, pk) (by simp)
      -- invariant for the recursive call with procd ++ [pid]
      apply ih (termStep game g pid pk q).1
        (scanChildren game (termStep game g pid pk q).1 pk rest seen).1
        (scanChildren game (termStep game g pid pk q).1 pk rest seen).2
        (termStep game g pid pk q).2 (procd ++ [pid]) out
        ⟨hgq_keys, hgq_pars, hgq_idx, hgq_len, s1.trans hslen⟩
        hgq_deg s2 s5 ?_ ?_ ?_ ?_ ?_ ?_ ?_ hrun1
      · -- procd ++ [pid] nodup
        rw [List.nodup_append]
        exact ⟨hpnd, List.nodup_singleton _, by
          intro a ha hb
          simp at hb
          subst hb
          exact hpidnp ha⟩
      · -- bounds
        intro p hp
        rcases List.mem_append.mp hp with h | h
        · exact hpb p h
        · simp at h
          subst h
          exact hpidn.1
      · -- work entries not yet processed
        intro e he
        rcases s4 e he with hin | hunseen
        · intro hmem
          rcases List.mem_append.mp hmem with h | h
          · exact hdisj e (by simp [hin]) h
          · simp at h
            have : e.1 ∈ rest.map Prod.fst := List.mem_map.mpr ⟨e, hin, rfl⟩
            rw [h] at this
            exact hpidrest this
        · intro hmem
          have hen := (s2 e he).1
          rcases List.mem_append.mp hmem with h | h
          · have := (hb4 e.1 hen).mpr (Or.inl h)
            rw [this] at hunseen
            cases hunseen
          · simp at h
            rw [h] at hunseen
            rw [hseenpid] at hunseen
            cases hunseen
      · -- seen characterization
        intro i hi
        constructor
        · intro hs
          rcases s8 i hs with hold | hnew
          · rcases (hb4 i hi).mp hold with h | h
            · exact Or.inl (by simp [h])
            · simp only [List.map_cons, List.mem_cons] at h
              rcases h with h | h
              · exact Or.inl (by simp [h])
              · obtain ⟨e, he, hei⟩ := List.mem_map.mp h
                exact Or.inr (List.mem_map.mpr ⟨e, s3 e he, hei⟩)
          · exact Or.inr hnew
        · intro hs
          rcases hs with h | h
          · rcases List.mem_append.mp h with h | h
            · exact s7 i ((hb4 i hi).mpr (Or.inl h))
            · simp at h
              subst h
              exact s7 i hseenpid
          · obtain ⟨e, he, hei⟩ := List.mem_map.mp h
            rw [← hei]
            exact s6 e he
      · -- classification
        intro i hi
        have hold := hb5 i hi
        by_cases hip : i = pid
        · subst hip
          by_cases hterm : game.moves pk = []
          · constructor
            · intro _
              have hstv : nstat (termStep game g i pk q).1 i =
                  (if game.inCheck (gA.keys.getD i 0) then 2 else 1) := by
                rw [hts, if_pos hterm, nstat_classify]
                rw [if_pos ⟨rfl, by omega⟩, hpidn.2]
              have hdtv : ndtm (termStep game g i pk q).1 i = 0 := by
                rw [hts, if_pos hterm, ndtm_classify]
                rw [if_pos ⟨rfl, by omega⟩]
              refine ⟨hstv, hdtv, ?_⟩
              rw [hts, if_pos hterm]
              simp
            · intro hn
              exact absurd ⟨by simp, by rw [hmv_pid]; exact hterm⟩ hn
          · constructor
            · intro ⟨_, hm⟩
              rw [hmv_pid] at hm
              exact absurd hm hterm
            · intro _
              have h2 := hold.2 (by
                intro ⟨_, hm⟩
                rw [hmv_pid] at hm
                exact hterm hm)
              have hgg : (termStep game g i pk q).1 = g := by
                rw [hts, if_neg hterm]
              have hqq : (termStep game g i pk q).2 = q := by
                rw [hts, if_neg hterm]
              rw [hgg, hqq]
              exact h2
        · have hstv : nstat (termStep game g pid pk q).1 i = nstat g i := by
            rw [hts]
            split
            · rw [nstat_classify]
              rw [if_neg (fun hc => hip hc.1.symm)]
            · rfl
          have hdtv : ndtm (termStep game g pid pk q).1 i = ndtm g i := by
            rw [hts]
            split
            · rw [ndtm_classify]
              rw [if_neg (fun hc => hip hc.1.symm)]
            · rfl
          constructor
          · intro ⟨hp, hm⟩
            have hp' : i ∈ procd := by
              rcases List.mem_append.mp hp with h | h
              · exact h
              · simp at h
                exact absurd h hip
            obtain ⟨ha, hb, hc⟩ := hold.1 ⟨hp', hm⟩
            refine ⟨by rw [hstv]; exact ha, by rw [hdtv]; exact hb, ?_⟩
            rw [hts]
            split
            · exact List.mem_append.mpr (Or.inl hc)
            · exact hc
          · intro hn
            have hn' : ¬(i ∈ procd ∧ movesOf game gA i = []) := by
              intro ⟨hp, hm⟩
              exact hn ⟨List.mem_append.mpr (Or.inl hp), hm⟩
            obtain ⟨ha, hb, hc⟩ := hold.2 hn'
            refine ⟨by rw [hstv]; exact ha, by rw [hdtv]; exact hb, ?_⟩
            rw [hts]
            split
            · intro hmem
              rcases List.mem_append.mp hmem with h | h
              · exact hc h
              · simp at h
                exact hip h
            · exact hc
      · -- queue nodup
        rw [hts]
        split
        · rw [List.nodup_append]
          refine ⟨hqnd, List.nodup_singleton _, ?_⟩
          intro a ha hb
          simp at hb
          subst hb
          exact hpidnp (hqm a ha).1
        · exact hqnd
      · -- queue members
        intro v hv
        rw [hts] at hv
        revert hv
        split
        · intro hv
          rcases List.mem_append.mp hv with h | h
          · obtain ⟨h1, h2⟩ := hqm v h
            exact ⟨List.mem_append.mpr (Or.inl h1), h2⟩
          · simp at h
            subst h
            refine ⟨by simp, ?_⟩
            rw [hmv_pid]
            assumption
        · intro hv
          obtain ⟨h1, h2⟩ := hqm v hv
          exact ⟨List.mem_append.mpr (Or.inl h1), h2⟩

theorem phaseB_run_post (game : Game) (fuel rootKey : Nat) (gA gB : Graph)
    (seen1 : List Bool) (q0 : List Nat)
    (hA : phaseA game fuel (initGraph rootKey) [(0, rootKey)] = some gA)
    (hB : phaseB game fuel gA [(0, rootKey)]
        ((List.replicate gA.nodes.length false).set 0 true) [] =
      some (gB, seen1, q0)) :
    (gB.keys = gA.keys ∧ gB.parents = gA.parents ∧ gB.indexL = gA.indexL ∧
      gB.nodes.length = gA.nodes.length ∧ seen1.length = gA.nodes.length) ∧
    (∀ i, noutdeg gB i = noutdeg gA i ∧ nrem gB i = nrem gA i) ∧
    (∀ i, i < gA.nodes.length →
      ((seen1.getD i false = true ∧ movesOf game gA i = []) →
        nstat gB i = (if game.inCheck (gA.keys.getD i 0) then 2 else 1) ∧
        ndtm gB i = 0 ∧ i ∈ q0) ∧
      (¬(seen1.getD i false = true ∧ movesOf game gA i = []) →
        nstat gB i = 0 ∧ ndtm gB i = 0 ∧ i ∉ q0)) ∧
    q0.Nodup ∧
    (∀ v ∈ q0, v < gA.nodes.length ∧ seen1.getD v false = true ∧
      movesOf game gA v = []) := by
  obtain ⟨hpost, hlen1, hk0⟩ := phaseA_run_post game fuel rootKey gA hA
  have hz := hpost.2.1
  have hres := phaseB_inv game gA hpost fuel gA [(0, rootKey)]
    ((List.replicate gA.nodes.length false).set 0 true) [] [] (gB, seen1, q0)
    ⟨rfl, rfl, rfl, rfl, by simp⟩
    (fun i => ⟨rfl, rfl⟩)
    (by
      intro e he
      simp at he
      rw [he]
      exact ⟨hlen1, hk0⟩)
    (by simp)
    List.nodup_nil
    (by intro p hp; cases hp)
    (by intro e _ h; cases h)
    (by
      intro i hi
      rw [lgetD_set]
      constructor
      · intro hs
        by_cases h0 : 0 = i ∧ 0 < (List.replicate gA.nodes.length false).length
        · exact Or.inr (by simp [← h0.1])
        · rw [if_neg h0, getD_replicate_false] at hs
          cases hs
      · intro hs
        rcases hs with h | h
        · cases h
        · simp at h
          rw [if_pos ⟨h.symm, by simp; omega⟩])
    (by
      intro i hi
      refine ⟨fun h => absurd h.1 (by simp), fun _ => ⟨(hz i).1, (hz i).2, by simp⟩⟩)
    List.nodup_nil
    (by intro v hv; cases hv)
    hB
  exact hres

theorem wf_decRem (g : Graph) (i : Nat) (h : WF g) : WF (decRem g i) := by
  obtain ⟨⟨hp, hk, hi⟩, hsound, hcomp, hfresh, hnd⟩ := h
  have hlen : (decRem g i).nodes.length = g.nodes.length := (decRem_fields g i).2.2.2
  refine ⟨⟨by rw [hlen]; exact hp, by rw [hlen]; exact hk, by rw [hlen]; exact hi⟩,
    ?_, ?_, ?_, hnd⟩
  · intro k' i' h'
    have := hsound k' i' h'
    rw [hlen]
    exact this
  · intro i' hi'
    rw [hlen] at hi'
    exact hcomp i' hi'
  · intro k' h' i' hi'
    rw [hlen] at hi'
    exact hfresh k' h' i' hi'

theorem lsum_map_add (l : List Nat) (f g : Nat → Nat) :
    (l.map (fun x => f x + g x)).sum = (l.map f).sum + (l.map g).sum := by
  induction l with
  | nil => rfl
  | cons x xs ih =>
    simp only [List.map_cons, List.sum_cons, ih]
    omega

theorem lsum_map_ite (l : List Nat) (P : Nat → Bool) :
    (l.map (fun j => if P j then 1 else 0)).sum = l.countP P := by
  induction l with
  | nil => rfl
  | cons x xs ih =>
    simp only [List.map_cons, List.sum_cons, List.countP_cons, ih]
    by_cases h : P x
    · simp [h]
      omega
    · simp [h]

theorem range_toFinset (n : Nat) : (List.range n).toFinset = Finset.range n := by
  refine Finset.ext fun x => ?_
  simp

theorem lsum_range_finset (f : Nat → Nat) (n : Nat) :
    ((List.range n).map f).sum = (Finset.range n).sum f := by
  rw [← List.sum_toFinset f (List.nodup_range n), range_toFinset]

theorem winContrib_eq (game : Game) (keys : List Nat) (D : List (Nat × Nat))
    (p : Nat) :
    winContrib game keys D p =
      (((D.filter (fun js => js.2 == 1)).map Prod.fst).map
        (childCount game keys p)).sum := by
  unfold winContrib
  rw [List.map_map]
  rfl

theorem winContrib_append (game : Game) (keys : List Nat) (D : List (Nat × Nat))
    (v s p : Nat) :
    winContrib game keys (D ++ [(v, s)]) p =
      winContrib game keys D p +
        (if s = 1 then childCount game keys p v else 0) := by
  unfold winContrib
  rw [List.filter_append, List.map_append, List.sum_append]
  by_cases hs : s = 1
  · subst hs
    simp
  · have : ((s == 1) : Bool) = false := by simpa using hs
    simp [List.filter, this, hs]

theorem winIds_nodup (D : List (Nat × Nat)) (h : (D.map Prod.fst).Nodup) :
    ((D.filter (fun js => js.2 == 1)).map Prod.fst).Nodup :=
  ((List.filter_sublist D).map Prod.fst).nodup h

theorem winContrib_le (game : Game) (keys : List Nat) (D : List (Nat × Nat))
    (p n : Nat) (hnd : (D.map Prod.fst).Nodup) (hb : ∀ js ∈ D, js.1 < n) :
    winContrib game keys D p ≤
      ((List.range n).map (childCount game keys p)).sum := by
  rw [winContrib_eq, lsum_range_finset]
  have hwnd := winIds_nodup D hnd
  rw [← List.sum_toFinset _ hwnd]
  apply Finset.sum_le_sum_of_subset
  intro x hx
  rw [List.mem_toFinset] at hx
  obtain ⟨js, hjs, hfst⟩ := List.mem_map.mp hx
  rw [Finset.mem_range, ← hfst]
  exact hb js (List.mem_of_mem_filter hjs)

theorem winContrib_cover (game : Game) (keys : List Nat) (D : List (Nat × Nat))
    (p n : Nat) (hnd : (D.map Prod.fst).Nodup) (hb : ∀ js ∈ D, js.1 < n)
    (heq : winContrib game keys D p =
      ((List.range n).map (childCount game keys p)).sum) :
    ∀ j, j < n → 0 < childCount game keys p j →
      ∃ js ∈ D, js.1 = j ∧ js.2 = 1 := by
  intro j hj hpos
  rw [winContrib_eq, lsum_range_finset] at heq
  have hwnd := winIds_nodup D hnd
  rw [← List.sum_toFinset _ hwnd] at heq
  set W := (D.filter (fun js => js.2 == 1)).map Prod.fst with hW
  have hsub : W.toFinset ⊆ Finset.range n := by
    intro x hx
    rw [List.mem_toFinset] at hx
    obtain ⟨js, hjs, hfst⟩ := List.mem_map.mp hx
    rw [Finset.mem_range, ← hfst]
    exact hb js (List.mem_of_mem_filter hjs)
  have hsd := Finset.sum_sdiff (f := childCount game keys p) hsub
  have heq' : (∑ x ∈ W.toFinset, childCount game keys p x) =
      ∑ x ∈ Finset.range n, childCount game keys p x := heq
  have hz : (∑ x ∈ Finset.range n \ W.toFinset, childCount game keys p x) = 0 := by
    omega
  have hjW : j ∈ W.toFinset := by
    by_contra hjn
    have hjd : j ∈ Finset.range n \ W.toFinset :=
      Finset.mem_sdiff.mpr ⟨Finset.mem_range.mpr hj, hjn⟩
    have := (Finset.sum_eq_zero_iff.mp hz) j hjd
    omega
  rw [List.mem_toFinset] at hjW
  obtain ⟨js, hjs, hfst⟩ := List.mem_map.mp hjW
  have hsnd : js.2 = 1 := by
    have := (List.mem_filter.mp hjs).2
    simpa using this
  exact ⟨js, List.mem_of_mem_filter hjs, hfst, hsnd⟩

theorem winContrib_ge (game : Game) (keys : List Nat) (D : List (Nat × Nat))
    (p n : Nat) (hnd : (D.map Prod.fst).Nodup)
    (hcov : ∀ j, j < n → 0 < childCount game keys p j →
      ∃ js ∈ D, js.1 = j ∧ js.2 = 1) :
    ((List.range n).map (childCount game keys p)).sum ≤
      winContrib game keys D p := by
  rw [winContrib_eq, lsum_range_finset]
  have hwnd := winIds_nodup D hnd
  rw [← List.sum_toFinset _ hwnd]
  set W := (D.filter (fun js => js.2 == 1)).map Prod.fst with hW
  set f := childCount game keys p with hf
  have hsupp : ∀ x ∈ Finset.range n, x ∉ (Finset.range n).filter (fun j => 0 < f j) →
      f x = 0 := by
    intro x hx hxn
    by_contra hne
    exact hxn (Finset.mem_filter.mpr ⟨hx, by omega⟩)
  have hsplit : (Finset.range n).sum f =
      ((Finset.range n).filter (fun j => 0 < f j)).sum f :=
    (Finset.sum_subset (Finset.filter_subset _ _) hsupp).symm
  rw [hsplit]
  apply Finset.sum_le_sum_of_subset
  intro x hx
  obtain ⟨hxr, hxf⟩ := Finset.mem_filter.mp hx
  obtain ⟨js, hjs, hfst, hsnd⟩ := hcov x (Finset.mem_range.mp hxr) hxf
  rw [List.mem_toFinset]
  refine List.mem_map.mpr ⟨js, ?_, hfst⟩
  exact List.mem_filter.mpr ⟨hjs, by simpa using hsnd⟩

theorem countP_moves_partition (game : Game) (keys : List Nat) (pk n : Nat) :
    ∀ l : List Nat,
      (∀ m ∈ l,
        (List.range n).countP (fun j => game.apply pk m == keys.getD j 0) = 1) →
      ((List.range n).map
        (fun j => l.countP (fun m => game.apply pk m == keys.getD j 0))).sum =
        l.length := by
  intro l
  induction l with
  | nil =>
    intro _
    simp
  | cons m mt ih =>
    intro hone
    have hfun : (fun j => (m :: mt).countP (fun m' => game.apply pk m' == keys.getD j 0)) =
        (fun j => mt.countP (fun m' => game.apply pk m' == keys.getD j 0) +
          if (game.apply pk m == keys.getD j 0) then 1 else 0) := by
      funext j
      rw [List.countP_cons]
    have hstep : ((List.range n).map
        (fun j => (m :: mt).countP (fun m' => game.apply pk m' == keys.getD j 0))).sum =
        ((List.range n).map
          (fun j => mt.countP (fun m' => game.apply pk m' == keys.getD j 0))).sum +
        ((List.range n).map
          (fun j => if (game.apply pk m == keys.getD j 0) then 1 else 0)).sum := by
      rw [hfun]
      exact lsum_map_add (List.range n)
        (fun j => mt.countP (fun m' => game.apply pk m' == keys.getD j 0))
        (fun j => if (game.apply pk m == keys.getD j 0) then 1 else 0)
    rw [hstep, ih (fun m' hm' => hone m' (by simp [hm'])),
      lsum_map_ite _ (fun j => game.apply pk m == keys.getD j 0),
      hone m (by simp)]
    simp

theorem sumChild_eq (game : Game) (gA : Graph) (hpost : APost game gA) :
    ∀ p, p < gA.nodes.length →
      noutdeg gA p =
        ((List.range gA.nodes.length).map
          (childCount game gA.keys p)).sum := by
  obtain ⟨⟨⟨hpl, hkl, hil⟩, hsound, hcomp, hfresh, hnd⟩, hz, hexp⟩ := hpost
  intro p hp
  obtain ⟨hclo, hdeg, hrem⟩ := hexp p (List.mem_range.mpr hp)
  rw [hdeg]
  have hone : ∀ m ∈ movesOf game gA p,
      (List.range gA.nodes.length).countP
        (fun j => game.apply (gA.keys.getD p 0) m == gA.keys.getD j 0) = 1 := by
    intro m hm
    have hne := hclo m hm
    unfold childIdOf at hne
    cases hl : lookupIndex gA.indexL (game.apply (gA.keys.getD p 0) m) with
    | none => exact absurd hl hne
    | some c =>
      obtain ⟨hcn, hck⟩ := hsound _ _ hl
      have hcong : (List.range gA.nodes.length).countP
          (fun j => game.apply (gA.keys.getD p 0) m == gA.keys.getD j 0) =
          (List.range gA.nodes.length).countP (fun j => j == c) := by
        apply List.countP_congr
        intro j hj
        rw [List.mem_range] at hj
        constructor
        · intro hpj
          have hkey : gA.keys.getD j 0 = gA.keys.getD c 0 := by
            have := beq_iff_eq.mp hpj
            rw [← this, hck]
          have hj' : j = c := by
            rw [List.getD_eq_getElem _ _ (by omega : j < gA.keys.length),
              List.getD_eq_getElem _ _ (by omega : c < gA.keys.length)] at hkey
            exact (hnd.getElem_inj_iff).mp hkey
          simpa using hj'
        · intro hjc
          have hj' : j = c := by simpa using hjc
          subst hj'
          rw [hck]
          simp
      rw [hcong]
      have : (List.range gA.nodes.length).countP (fun j => j == c) =
          (List.range gA.nodes.length).count c := rfl
      rw [this]
      exact List.count_eq_one_of_mem (List.nodup_range _)
        (List.mem_range.mpr hcn)
  have := countP_moves_partition game gA.keys (gA.keys.getD p 0)
    gA.nodes.length (movesOf game gA p) hone
  unfold childCount
  unfold movesOf at this
  exact this.symm

theorem procParent_loss_eq (vdtm : Nat) (g : Graph) (q : List Nat) (p : Nat) :
    procParent 2 vdtm (g, q) p =
      if nstat g p ≠ 0 then (g, q)
      else (classify g p 1 (vdtm + 1), q ++ [p]) := by
  unfold procParent
  by_cases h : nstat g p ≠ 0
  · simp [h]
  · simp [h]

theorem procParent_win_eq (vdtm : Nat) (g : Graph) (q : List Nat) (p : Nat) :
    procParent 1 vdtm (g, q) p =
      if nstat g p ≠ 0 then (g, q)
      else
        if nrem (if 0 < nrem g p then decRem g p else g) p = 0 then
          (classify (if 0 < nrem g p then decRem g p else g) p 2 (vdtm + 1),
            q ++ [p])
        else ((if 0 < nrem g p then decRem g p else g), q) := by
  unfold procParent
  by_cases h : nstat g p ≠ 0
  · simp [h]
  · simp [h]

theorem lossFold_spec (game : Game) (gA : Graph) (vdtm : Nat) :
    ∀ (L : List Nat) (g : Graph) (q : List Nat),
      (g.keys = gA.keys ∧ g.parents = gA.parents ∧ g.indexL = gA.indexL ∧
        g.nodes.length = gA.nodes.length) →
      (∀ p ∈ L, p < gA.nodes.length) →
      q.Nodup →
      (∀ x ∈ q, nstat g x ≠ 0) →
      ((L.foldl (procParent 2 vdtm) (g, q)).1.keys = gA.keys ∧
        (L.foldl (procParent 2 vdtm) (g, q)).1.parents = gA.parents ∧
        (L.foldl (procParent 2 vdtm) (g, q)).1.indexL = gA.indexL ∧
        (L.foldl (procParent 2 vdtm) (g, q)).1.nodes.length = gA.nodes.length) ∧
      (∀ i, noutdeg (L.foldl (procParent 2 vdtm) (g, q)).1 i = noutdeg g i) ∧
      (∀ i, nstat g i ≠ 0 →
        nstat (L.foldl (procParent 2 vdtm) (g, q)).1 i = nstat g i ∧
        ndtm (L.foldl (procParent 2 vdtm) (g, q)).1 i = ndtm g i ∧
        nrem (L.foldl (procParent 2 vdtm) (g, q)).1 i = nrem g i) ∧
      (∀ i, nstat g i = 0 → i ∉ L →
        nstat (L.foldl (procParent 2 vdtm) (g, q)).1 i = 0 ∧
        ndtm (L.foldl (procParent 2 vdtm) (g, q)).1 i = ndtm g i ∧
        nrem (L.foldl (procParent 2 vdtm) (g, q)).1 i = nrem g i) ∧
      (∀ i, nstat g i = 0 → i ∈ L →
        nstat (L.foldl (procParent 2 vdtm) (g, q)).1 i = 1) ∧
      (∀ x, x ∈ (L.foldl (procParent 2 vdtm) (g, q)).2 ↔
        x ∈ q ∨ (nstat g x = 0 ∧ x ∈ L)) ∧
      (L.foldl (procParent 2 vdtm) (g, q)).2.Nodup ∧
      (∀ x ∈ (L.foldl (procParent 2 vdtm) (g, q)).2,
        nstat (L.foldl (procParent 2 vdtm) (g, q)).1 x ≠ 0) := by
  intro L
  induction L with
  | nil =>
    intro g q hfields _ hqnd hqs
    exact ⟨hfields, fun i => rfl, fun i _ => ⟨rfl, rfl, rfl⟩,
      fun i hi _ => ⟨hi, rfl, rfl⟩, fun i _ hi => absurd hi (by simp),
      fun x => by simp, hqnd, hqs⟩
  | cons p L' ih =>
    intro g q hfields hLb hqnd hqs
    have hpn : p < gA.nodes.length := hLb p (by simp)
    have hplen : p < g.nodes.length := by rw [hfields.2.2.2]; exact hpn
    rw [List.foldl_cons, procParent_loss_eq]
    by_cases hps : nstat g p ≠ 0
    · rw [if_pos hps]
      obtain ⟨i1, i2, i3, i4, i5, i6, i7, i8⟩ :=
        ih g q hfields (fun x hx => hLb x (by simp [hx])) hqnd hqs
      refine ⟨i1, i2, i3, ?_, ?_, ?_, i7, i8⟩
      · intro i hi hni
        exact i4 i hi (fun h => hni (by simp [h]))
      · intro i hi hmem
        rcases List.mem_cons.mp hmem with h | h
        · subst h
          exact absurd hi hps
        · exact i5 i hi h
      · intro x
        rw [i6]
        constructor
        · rintro (h | ⟨h1, h2⟩)
          · exact Or.inl h
          · exact Or.inr ⟨h1, by simp [h2]⟩
        · rintro (h | ⟨h1, h2⟩)
          · exact Or.inl h
          · rcases List.mem_cons.mp h2 with h | h
            · subst h
              exact absurd h1 hps
            · exact Or.inr ⟨h1, h⟩
    · rw [if_neg hps]
      have hps0 : nstat g p = 0 := by omega
      have hg1f := classify_fields g p 1 (vdtm + 1)
      have hstat1 : ∀ i, nstat (classify g p 1 (vdtm + 1)) i =
          if p = i then 1 else nstat g i := by
        intro i
        rw [nstat_classify]
        by_cases h : p = i
        · rw [if_pos ⟨h, hplen⟩, if_pos h]
        · rw [if_neg (fun hc => h hc.1), if_neg h]
      have hdtm1 : ∀ i, i ≠ p → ndtm (classify g p 1 (vdtm + 1)) i = ndtm g i := by
        intro i hi
        rw [ndtm_classify]
        rw [if_neg (fun hc => hi hc.1.symm)]
      have hpq : p ∉ q := fun h => hqs p h hps0
      obtain ⟨i1, i2, i3, i4, i5, i6, i7, i8⟩ :=
        ih (classify g p 1 (vdtm + 1)) (q ++ [p])
          ⟨hg1f.1.trans hfields.1, hg1f.2.1.trans hfields.2.1,
            hg1f.2.2.1.trans hfields.2.2.1, hg1f.2.2.2.trans hfields.2.2.2⟩
          (fun x hx => hLb x (by simp [hx]))
          (by
            rw [List.nodup_append]
            exact ⟨hqnd, List.nodup_singleton _, by
              intro a ha hb
              simp at hb
              subst hb
              exact hpq ha⟩)
          (by
            intro x hx
            rw [hstat1]
            rcases List.mem_append.mp hx with h | h
            · by_cases hxp : p = x
              · simp [hxp]
              · rw [if_neg hxp]
                exact hqs x h
            · simp at h
              simp [h])
      refine ⟨i1, ?_, ?_, ?_, ?_, ?_, i7, i8⟩
      · intro i
        rw [i2 i, noutdeg_classify]
      · intro i hi
        have hip : i ≠ p := fun h => hps (h ▸ hi)
        have h1 : nstat (classify g p 1 (vdtm + 1)) i = nstat g i := by
          rw [hstat1, if_neg (fun h => hip h.symm)]
        obtain ⟨ha, hb, hc⟩ := i3 i (by rw [h1]; exact hi)
        exact ⟨ha.trans h1, hb.trans (hdtm1 i hip),
          hc.trans (nrem_classify g p 1 (vdtm + 1) i)⟩
      · intro i hi hni
        have hip : i ≠ p := fun h => hni (by simp [h])
        have hni' : i ∉ L' := fun h => hni (by simp [h])
        have h1 : nstat (classify g p 1 (vdtm + 1)) i = nstat g i := by
          rw [hstat1, if_neg (fun h => hip h.symm)]
        obtain ⟨ha, hb, hc⟩ := i4 i (by rw [h1]; exact hi) hni'
        exact ⟨ha, hb.trans (hdtm1 i hip),
          hc.trans (nrem_classify g p 1 (vdtm + 1) i)⟩
      · intro i hi hmem
        by_cases hip : i = p
        · subst hip
          have h1 : nstat (classify g i 1 (vdtm + 1)) i = 1 := by
            rw [hstat1]
            simp
          exact (i3 i (by rw [h1]; omega)).1.trans h1
        · have h1 : nstat (classify g p 1 (vdtm + 1)) i = nstat g i := by
            rw [hstat1, if_neg (fun h => hip h.symm)]
          rcases List.mem_cons.mp hmem with h | h
          · exact absurd h hip
          · exact i5 i (by rw [h1]; exact hi) h
      · intro x
        rw [i6]
        constructor
        · rintro (h | ⟨h1, h2⟩)
          · rcases List.mem_append.mp h with h | h
            · exact Or.inl h
            · simp at h
              subst h
              exact Or.inr ⟨hps0, by simp⟩
          · rw [hstat1] at h1
            by_cases hxp : p = x
            · rw [if_pos hxp] at h1
              cases h1
            · rw [if_neg hxp] at h1
              exact Or.inr ⟨h1, by simp [h2]⟩
        · rintro (h | ⟨h1, h2⟩)
          · exact Or.inl (List.mem_append.mpr (Or.inl h))
          · by_cases hxp : x = p
            · subst hxp
              exact Or.inl (List.mem_append.mpr (Or.inr (by simp)))
            · rcases List.mem_cons.mp h2 with h | h
              · exact absurd h hxp
              · refine Or.inr ⟨?_, h⟩
                rw [hstat1, if_neg (fun hc => hxp hc.symm)]
                exact h1

theorem winFold_spec (game : Game) (gA : Graph) (v vdtm : Nat)
    (D : List (Nat × Nat)) (hvn : v < gA.nodes.length)
    (hDnd : ((D ++ [(v, 1)]).map Prod.fst).Nodup)
    (hDb : ∀ js ∈ D, js.1 < gA.nodes.length)
    (hD12 : ∀ js ∈ D, js.2 = 1 ∨ js.2 = 2)
    (hsum : ∀ p, p < gA.nodes.length →
      noutdeg gA p = ((List.range gA.nodes.length).map
        (childCount game gA.keys p)).sum) :
    ∀ (L2 : List Nat) (g : Graph) (q : List Nat),
      WInv game gA v D L2 g q →
      (∀ x ∈ L2, x < gA.nodes.length) →
      WInv game gA v D []
        (L2.foldl (procParent 1 vdtm) (g, q)).1
        (L2.foldl (procParent 1 vdtm) (g, q)).2 := by
  have hDb' : ∀ js ∈ D ++ [(v, 1)], js.1 < gA.nodes.length := by
    intro js hjs
    rcases List.mem_append.mp hjs with h | h
    · exact hDb js h
    · simp at h
      subst h
      exact hvn
  have hbound : ∀ p', p' < gA.nodes.length →
      winContrib game gA.keys D p' + childCount game gA.keys p' v ≤
        noutdeg gA p' := by
    intro p' hp'
    have h1 := winContrib_le game gA.keys (D ++ [(v, 1)]) p'
      gA.nodes.length hDnd hDb'
    rw [winContrib_append] at h1
    simp only [if_pos rfl] at h1
    rw [hsum p' hp']
    exact h1
  intro L2
  induction L2 with
  | nil =>
    intro g q hinv _
    exact hinv
  | cons p L2' ih =>
    intro g q hinv hL2b
    obtain ⟨hfields, hdeg, ⟨hsnap, hsv⟩, huniv, hcnt, h8, h9, h10,
      ⟨hqnd, hqm⟩, hiff, hrem1⟩ := hinv
    have hp : p < gA.nodes.length := hL2b p (by simp)
    have hplen : p < g.nodes.length := by
      rw [hfields.2.2.2]
      exact hp
    rw [List.foldl_cons, procParent_win_eq]
    by_cases hps : nstat g p ≠ 0
    · rw [if_pos hps]
      apply ih g q ?_ (fun x hx => hL2b x (by simp [hx]))
      refine ⟨hfields, hdeg, ⟨hsnap, hsv⟩, huniv, ?_, h8, h9, h10,
        ⟨hqnd, hqm⟩, hiff, hrem1⟩
      intro p' hp' hsp'
      have hpp : p' ≠ p := fun h => hps (h ▸ hsp')
      have hcnt' := hcnt p' hp' hsp'
      have hceq : (p :: L2').count p' = L2'.count p' := by
        rw [List.count_cons]
        simp [hpp, Ne.symm hpp]
      rw [hceq] at hcnt'
      exact hcnt'
    · rw [if_neg hps]
      have hps0 : nstat g p = 0 := by omega
      have hc := hcnt p hp hps0
      have hcc : (p :: L2').count p = L2'.count p + 1 := by
        rw [List.count_cons]
        simp
      rw [hcc] at hc
      have hb := hbound p hp
      have hrem : 1 + L2'.count p ≤ nrem g p := by omega
      have h0lt : 0 < nrem g p := by omega
      rw [if_pos h0lt]
      have hlen2 : p < (decRem g p).nodes.length := by
        rw [(decRem_fields g p).2.2.2]
        exact hplen
      have hremdec : nrem (decRem g p) p = nrem g p - 1 := by
        rw [nrem_decRem, if_pos ⟨rfl, hplen⟩]
      by_cases hr0 : nrem (decRem g p) p = 0
      · rw [if_pos hr0]
        have hrg1 : nrem g p = 1 := by omega
        have hcount0 : L2'.count p = 0 := by omega
        have heqwc : winContrib game gA.keys D p +
            childCount game gA.keys p v = noutdeg gA p := by omega
        have heqD' : winContrib game gA.keys (D ++ [(v, 1)]) p =
            ((List.range gA.nodes.length).map
              (childCount game gA.keys p)).sum := by
          rw [winContrib_append, if_pos rfl, heqwc, hsum p hp]
        have hcov := winContrib_cover game gA.keys (D ++ [(v, 1)]) p
          gA.nodes.length hDnd hDb' heqD'
        have hchild1 : ∀ j, j < gA.nodes.length →
            0 < childCount game gA.keys p j → nstat g j = 1 := by
          intro j hj hcpos
          obtain ⟨js, hjs, hfst, hsnd⟩ := hcov j hj hcpos
          rcases List.mem_append.mp hjs with h | h
          · have hg := hsnap js h
            rw [hfst, hsnd] at hg
            exact hg
          · simp at h
            subst h
            rw [← hfst]
            exact hsv
        have hstat2 : ∀ i, nstat (classify (decRem g p) p 2 (vdtm + 1)) i =
            if p = i then 2 else nstat g i := by
          intro i
          rw [nstat_classify]
          by_cases h : p = i
          · rw [if_pos ⟨h, hlen2⟩, if_pos h]
          · rw [if_neg (fun hc' => h hc'.1), if_neg h, nstat_decRem]
        have hrem2 : ∀ i, i ≠ p →
            nrem (classify (decRem g p) p 2 (vdtm + 1)) i = nrem g i := by
          intro i hi
          rw [nrem_classify, nrem_decRem, if_neg (fun hc' => hi hc'.1.symm)]
        have hdf := decRem_fields g p
        have hcf := classify_fields (decRem g p) p 2 (vdtm + 1)
        have hpnotq : p ∉ q := fun h => (hqm p h).2.2 hps0
        have hpnotD : p ∉ (D ++ [(v, 1)]).map Prod.fst := by
          intro h
          exact (hiff p hp).mpr (Or.inl h) hps0
        apply ih (classify (decRem g p) p 2 (vdtm + 1)) (q ++ [p]) ?_
          (fun x hx => hL2b x (by simp [hx]))
        refine ⟨⟨hcf.1.trans (hdf.1.trans hfields.1),
          hcf.2.1.trans (hdf.2.1.trans hfields.2.1),
          hcf.2.2.1.trans (hdf.2.2.1.trans hfields.2.2.1),
          hcf.2.2.2.trans (hdf.2.2.2.trans hfields.2.2.2)⟩,
          ?_, ⟨?_, ?_⟩, ?_, ?_, ?_, ?_, ?_, ⟨?_, ?_⟩, ?_, ?_⟩
        · intro i
          rw [noutdeg_classify, noutdeg_decRem]
          exact hdeg i
        · intro js hjs
          have hnz : js.2 ≠ 0 := by
            rcases hD12 js hjs with h | h
            · omega
            · omega
          have hjp : js.1 ≠ p := by
            intro h
            have := hsnap js hjs
            rw [h, hps0] at this
            exact hnz this.symm
          rw [hstat2, if_neg (fun h => hjp h.symm)]
          exact hsnap js hjs
        · have hvp : v ≠ p := by
            intro h
            rw [h, hps0] at hsv
            cases hsv
          rw [hstat2, if_neg (fun h => hvp h.symm)]
          exact hsv
        · intro i
          rw [hstat2]
          by_cases h : p = i
          · rw [if_pos h]
            omega
          · rw [if_neg h]
            exact huniv i
        · intro p' hp' hsp'
          rw [hstat2] at hsp'
          by_cases hpp : p = p'
          · rw [if_pos hpp] at hsp'
            cases hsp'
          · rw [if_neg hpp] at hsp'
            have hcnt' := hcnt p' hp' hsp'
            have hpp' : p' ≠ p := fun h => hpp h.symm
            have hceq : (p :: L2').count p' = L2'.count p' := by
              rw [List.count_cons]
              simp [hpp', Ne.symm hpp']
            rw [hceq] at hcnt'
            rw [hrem2 p' hpp']
            exact hcnt'
        · intro p' hp' hsp' hmv
          rw [hstat2] at hsp'
          by_cases hpp : p = p'
          · rw [if_pos hpp] at hsp'
            cases hsp'
          · rw [if_neg hpp] at hsp'
            obtain ⟨c, hcn, hcpos, hcstat⟩ := h8 p' hp' hsp' hmv
            have hcp : c ≠ p := by
              intro h
              rw [h, hps0] at hcstat
              cases hcstat
            refine ⟨c, hcn, hcpos, ?_⟩
            rw [hstat2, if_neg (fun h => hcp h.symm)]
            exact hcstat
        · intro p' hp' hsp' hmv j hj hcpos
          rw [hstat2] at hsp'
          by_cases hpp : p = p'
          · subst hpp
            have hj1 := hchild1 j hj hcpos
            have hjp : j ≠ p := by
              intro h
              rw [h, hps0] at hj1
              cases hj1
            rw [hstat2, if_neg (fun h => hjp h.symm)]
            exact hj1
          · rw [if_neg hpp] at hsp'
            have hj1 := h9 p' hp' hsp' hmv j hj hcpos
            have hjp : j ≠ p := by
              intro h
              rw [h, hps0] at hj1
              cases hj1
            rw [hstat2, if_neg (fun h => hjp h.symm)]
            exact hj1
        · intro js hjs hjs2 x hx
          have := h10 js hjs hjs2 x hx
          rw [hstat2]
          by_cases h : p = x
          · rw [if_pos h]
            omega
          · rw [if_neg h]
            exact this
        · rw [List.nodup_append]
          exact ⟨hqnd, List.nodup_singleton _, by
            intro a ha hb'
            simp at hb'
            subst hb'
            exact hpnotq ha⟩
        · intro x hx
          rcases List.mem_append.mp hx with h | h
          · obtain ⟨ha, hb', hc'⟩ := hqm x h
            refine ⟨ha, hb', ?_⟩
            rw [hstat2]
            by_cases hpx : p = x
            · rw [if_pos hpx]
              omega
            · rw [if_neg hpx]
              exact hc'
          · simp at h
            subst h
            refine ⟨hp, hpnotD, ?_⟩
            rw [hstat2, if_pos rfl]
            omega
        · intro i hi
          rw [hstat2]
          by_cases h : p = i
          · subst h
            rw [if_pos rfl]
            constructor
            · intro _
              exact Or.inr (List.mem_append.mpr (Or.inr (by simp)))
            · intro _
              omega
          · rw [if_neg h]
            rw [hiff i hi]
            constructor
            · rintro (h' | h')
              · exact Or.inl h'
              · exact Or.inr (List.mem_append.mpr (Or.inl h'))
            · rintro (h' | h')
              · exact Or.inl h'
              · rcases List.mem_append.mp h' with h'' | h''
                · exact Or.inr h''
                · simp at h''
                  exact absurd h''.symm h
        · intro p' hsp' hdp'
          rw [hstat2] at hsp'
          by_cases hpp : p = p'
          · rw [if_pos hpp] at hsp'
            cases hsp'
          · rw [if_neg hpp] at hsp'
            rw [hrem2 p' (fun h => hpp h.symm)]
            exact hrem1 p' hsp' hdp'
      · rw [if_neg hr0]
        have hstat1 : ∀ i, nstat (decRem g p) i = nstat g i :=
          fun i => nstat_decRem g p i
        have hremd : ∀ i, i ≠ p → nrem (decRem g p) i = nrem g i := by
          intro i hi
          rw [nrem_decRem, if_neg (fun hc' => hi hc'.1.symm)]
        have hdf := decRem_fields g p
        apply ih (decRem g p) q ?_ (fun x hx => hL2b x (by simp [hx]))
        refine ⟨⟨hdf.1.trans hfields.1, hdf.2.1.trans hfields.2.1,
          hdf.2.2.1.trans hfields.2.2.1, hdf.2.2.2.trans hfields.2.2.2⟩,
          ?_, ⟨?_, ?_⟩, ?_, ?_, ?_, ?_, ?_, ⟨?_, ?_⟩, ?_, ?_⟩
        · intro i
          rw [noutdeg_decRem]
          exact hdeg i
        · intro js hjs
          rw [hstat1]
          exact hsnap js hjs
        · rw [hstat1]
          exact hsv
        · intro i
          rw [hstat1]
          exact huniv i
        · intro p' hp' hsp'
          rw [hstat1] at hsp'
          by_cases hpp : p' = p
          · subst hpp
            rw [nrem_decRem, if_pos ⟨rfl, hplen⟩]
            omega
          · rw [hremd p' hpp]
            have hcnt' := hcnt p' hp' hsp'
            have hceq : (p :: L2').count p' = L2'.count p' := by
              rw [List.count_cons]
              simp [hpp, Ne.symm hpp]
            rw [hceq] at hcnt'
            exact hcnt'
        · intro p' hp' hsp' hmv
          rw [hstat1] at hsp'
          obtain ⟨c, hcn, hcpos, hcstat⟩ := h8 p' hp' hsp' hmv
          exact ⟨c, hcn, hcpos, by rw [hstat1]; exact hcstat⟩
        · intro p' hp' hsp' hmv j hj hcpos
          rw [hstat1] at hsp'
          rw [hstat1]
          exact h9 p' hp' hsp' hmv j hj hcpos
        · intro js hjs hjs2 x hx
          rw [hstat1]
          exact h10 js hjs hjs2 x hx
        · exact hqnd
        · intro x hx
          obtain ⟨ha, hb', hc'⟩ := hqm x hx
          exact ⟨ha, hb', by rw [hstat1]; exact hc'⟩
        · intro i hi
          rw [hstat1]
          exact hiff i hi
        · intro p' hsp' hdp'
          rw [hstat1] at hsp'
          by_cases hpp : p' = p
          · subst hpp
            omega
          · rw [hremd p' hpp]
            exact hrem1 p' hsp' hdp'

theorem phaseC_inv (game : Game) (gA : Graph) (hpost : APost game gA)
    (hEC : ExactCover game gA.keys gA.parents gA.nodes.length) :
    ∀ (fuel : Nat) (g : Graph) (q : List Nat) (D : List (Nat × Nat))
      (out : Graph),
      CInv game gA g q D → phaseC fuel g q = some out →
      ∃ Df, CInv game gA out [] Df := by
  have hsum := sumChild_eq game gA hpost
  intro fuel
  induction fuel with
  | zero =>
    intro g q D out hinv hrun
    cases q with
    | nil =>
      cases hrun
      exact ⟨D, hinv⟩
    | cons v rest => cases hrun
  | succ f ih =>
    intro g q D out hinv hrun
    cases q with
    | nil =>
      cases hrun
      exact ⟨D, hinv⟩
    | cons v rest =>
      obtain ⟨hfields, hdeg, hD, huniv, hiff, ⟨hDnd, hqnd, hqm⟩, hcnt, hrem1,
        h8, h9, h10⟩ := hinv
      obtain ⟨hvn, hvD, hvs⟩ := hqm v (by simp)
      have hrun1 : phaseC f
          ((g.parents.getD v []).foldl
            (procParent (nstat g v) (ndtm g v)) (g, rest)).1
          ((g.parents.getD v []).foldl
            (procParent (nstat g v) (ndtm g v)) (g, rest)).2 = some out := hrun
      have hL : g.parents.getD v [] = gA.parents.getD v [] := by
        rw [hfields.2.1]
      have hLb : ∀ x ∈ gA.parents.getD v [], x < gA.nodes.length :=
        (hEC v (List.mem_range.mpr hvn)).1
      have hrestnd : rest.Nodup := (List.nodup_cons.mp hqnd).2
      have hvrest : v ∉ rest := (List.nodup_cons.mp hqnd).1
      have hrestm : ∀ x ∈ rest, x < gA.nodes.length ∧
          x ∉ D.map Prod.fst ∧ nstat g x ≠ 0 :=
        fun x hx => hqm x (List.mem_cons.mpr (Or.inr hx))
      rw [hL] at hrun1
      rcases huniv v with h0 | h1 | h2
      · exact absurd h0 hvs
      · -- the dequeued node is a Win: decrement the unresolved counters
        rw [h1] at hrun1
        have hDnd' : ((D ++ [(v, 1)]).map Prod.fst).Nodup := by
          rw [List.map_append, List.nodup_append]
          refine ⟨hDnd, by simp, ?_⟩
          intro a ha hb
          simp at hb
          subst hb
          exact hvD ha
        have hDb : ∀ js ∈ D, js.1 < gA.nodes.length :=
          fun js hjs => (hD js hjs).1
        have hD12 : ∀ js ∈ D, js.2 = 1 ∨ js.2 = 2 :=
          fun js hjs => (hD js hjs).2.1
        have hwinv : WInv game gA v D (gA.parents.getD v []) g rest := by
          refine ⟨hfields, hdeg, ⟨fun js hjs => (hD js hjs).2.2, h1⟩, huniv,
            ?_, h8, h9, h10, ⟨hrestnd, ?_⟩, ?_, hrem1⟩
          · intro p hp hsp
            have hc := hcnt p hp hsp
            have hLc : (gA.parents.getD v []).count p =
                childCount game gA.keys p v :=
              (hEC v (List.mem_range.mpr hvn)).2 p (List.mem_range.mpr hp)
            omega
          · intro x hx
            obtain ⟨ha, hb, hc⟩ := hrestm x hx
            refine ⟨ha, ?_, hc⟩
            rw [List.map_append]
            intro hmem
            rcases List.mem_append.mp hmem with h | h
            · exact hb h
            · simp at h
              subst h
              exact hvrest hx
          · intro i hi
            rw [hiff i hi, List.map_append]
            constructor
            · rintro (h | h)
              · exact Or.inl (List.mem_append.mpr (Or.inl h))
              · rcases List.mem_cons.mp h with h | h
                · exact Or.inl (List.mem_append.mpr (Or.inr (by simp [h])))
                · exact Or.inr h
            · rintro (h | h)
              · rcases List.mem_append.mp h with h | h
                · exact Or.inl h
                · simp at h
                  exact Or.inr (List.mem_cons.mpr (Or.inl h))
              · exact Or.inr (List.mem_cons.mpr (Or.inr h))
        have hw := winFold_spec game gA v (ndtm g v) D hvn hDnd' hDb hD12 hsum
          (gA.parents.getD v []) g rest hwinv hLb
        obtain ⟨wf1, wf2, ⟨wsnap, wsv⟩, wuniv, wcnt, w8, w9, w10q,
          ⟨wqnd, wqm⟩, wiff, wrem1⟩ := hw
        apply ih _ _ (D ++ [(v, 1)]) out ?_ hrun1
        refine ⟨wf1, wf2, ?_, wuniv, wiff, ⟨hDnd', wqnd, wqm⟩, ?_, wrem1,
          w8, w9, ?_⟩
        · intro js hjs
          rcases List.mem_append.mp hjs with h | h
          · exact ⟨(hD js h).1, (hD js h).2.1, wsnap js h⟩
          · simp at h
            subst h
            exact ⟨hvn, Or.inl rfl, wsv⟩
        · intro p hp hsp
          have hc := wcnt p hp hsp
          rw [winContrib_append, if_pos rfl]
          rw [List.count_nil] at hc
          omega
        · intro js hjs hjs2 x hx
          rcases List.mem_append.mp hjs with h | h
          · exact w10q js h hjs2 x hx
          · simp at h
            subst h
            simp at hjs2
      · -- the dequeued node is a Loss: every Unknown parent becomes a Win
        rw [h2] at hrun1
        have hlf := lossFold_spec game gA (ndtm g v) (gA.parents.getD v [])
          g rest hfields hLb hrestnd (fun x hx => (hrestm x hx).2.2)
        obtain ⟨l1, l2, l3, l4, l5, l6, l7, l8⟩ := hlf
        have hDnd' : ((D ++ [(v, 2)]).map Prod.fst).Nodup := by
          rw [List.map_append, List.nodup_append]
          refine ⟨hDnd, by simp, ?_⟩
          intro a ha hb
          simp at hb
          subst hb
          exact hvD ha
        apply ih _ _ (D ++ [(v, 2)]) out ?_ hrun1
        refine ⟨l1, ?_, ?_, ?_, ?_, ⟨hDnd', l7, ?_⟩, ?_, ?_, ?_, ?_, ?_⟩
        · intro i
          rw [l2 i]
          exact hdeg i
        · intro js hjs
          rcases List.mem_append.mp hjs with h | h
          · have hst := (hD js h).2.2
            have hnz : nstat g js.1 ≠ 0 := by
              rcases (hD js h).2.1 with h' | h'
              · omega
              · omega
            exact ⟨(hD js h).1, (hD js h).2.1, ((l3 js.1 hnz).1).trans hst⟩
          · simp at h
            subst h
            exact ⟨hvn, Or.inr rfl, ((l3 v (by omega)).1).trans h2⟩
        · intro i
          by_cases hgi : nstat g i ≠ 0
          · rw [(l3 i hgi).1]
            exact huniv i
          · have hgi0 : nstat g i = 0 := by omega
            by_cases hiL : i ∈ gA.parents.getD v []
            · rw [l5 i hgi0 hiL]
              omega
            · rw [(l4 i hgi0 hiL).1]
              omega
        · intro i hi
          rw [List.map_append]
          have hmem := l6 i
          constructor
          · intro hnz
            by_cases hgi : nstat g i ≠ 0
            · rcases (hiff i hi).mp hgi with h | h
              · exact Or.inl (List.mem_append.mpr (Or.inl h))
              · rcases List.mem_cons.mp h with h | h
                · exact Or.inl (List.mem_append.mpr (Or.inr (by simp [h])))
                · exact Or.inr (hmem.mpr (Or.inl h))
            · have hgi0 : nstat g i = 0 := by omega
              by_cases hiL : i ∈ gA.parents.getD v []
              · exact Or.inr (hmem.mpr (Or.inr ⟨hgi0, hiL⟩))
              · rw [(l4 i hgi0 hiL).1] at hnz
                omega
          · intro h
            rcases h with h | h
            · rcases List.mem_append.mp h with h | h
              · have hgi : nstat g i ≠ 0 := (hiff i hi).mpr (Or.inl h)
                rw [(l3 i hgi).1]
                exact hgi
              · simp at h
                subst h
                have hgi : nstat g i ≠ 0 := by omega
                rw [(l3 i hgi).1]
                exact hgi
            · exact l8 i h
        · intro x hx
          rcases (l6 x).mp hx with h | ⟨hx0, hxL⟩
          · obtain ⟨ha, hb, hc⟩ := hrestm x h
            refine ⟨ha, ?_, l8 x hx⟩
            rw [List.map_append]
            intro hm
            rcases List.mem_append.mp hm with h' | h'
            · exact hb h'
            · simp at h'
              subst h'
              exact hvrest h
          · have hxn : x < gA.nodes.length := hLb x hxL
            refine ⟨hxn, ?_, l8 x hx⟩
            have hnd2 : ¬(x ∈ D.map Prod.fst ∨ x ∈ v :: rest) := by
              intro hor
              exact (hiff x hxn).mpr hor hx0
            rw [List.map_append]
            intro hm
            rcases List.mem_append.mp hm with h' | h'
            · exact hnd2 (Or.inl h')
            · simp at h'
              subst h'
              exact hnd2 (Or.inr (by simp))
        · intro p hp hsp
          have hgp0 : nstat g p = 0 := by
            by_contra hgp
            rw [(l3 p hgp).1] at hsp
            exact hgp hsp
          have hpL : p ∉ gA.parents.getD v [] := by
            intro hmem
            rw [l5 p hgp0 hmem] at hsp
            cases hsp
          have hremp := (l4 p hgp0 hpL).2.2
          have hc := hcnt p hp hgp0
          rw [winContrib_append, if_neg (by omega : ¬(2 : Nat) = 1)]
          omega
        · intro p hsp hdeg1
          have hgp0 : nstat g p = 0 := by
            by_contra hgp
            rw [(l3 p hgp).1] at hsp
            exact hgp hsp
          have hpL : p ∉ gA.parents.getD v [] := by
            intro hmem
            rw [l5 p hgp0 hmem] at hsp
            cases hsp
          rw [(l4 p hgp0 hpL).2.2]
          exact hrem1 p hgp0 hdeg1
        · intro p hp hsp hmv
          by_cases hgp : nstat g p = 0
          · have hpL : p ∈ gA.parents.getD v [] := by
              by_contra hpL
              rw [(l4 p hgp hpL).1] at hsp
              cases hsp
            refine ⟨v, hvn, ?_, ?_⟩
            · have hcount : 0 < (gA.parents.getD v []).count p :=
                List.count_pos_iff.mpr hpL
              rw [(hEC v (List.mem_range.mpr hvn)).2 p
                (List.mem_range.mpr hp)] at hcount
              exact hcount
            · rw [(l3 v (by omega)).1]
              exact h2
          · rw [(l3 p hgp).1] at hsp
            obtain ⟨c, hcn, hcpos, hcstat⟩ := h8 p hp hsp hmv
            refine ⟨c, hcn, hcpos, ?_⟩
            rw [(l3 c (by omega)).1]
            exact hcstat
        · intro p hp hsp hmv j hj hcpos
          have hgp : nstat g p ≠ 0 := by
            intro hgp0
            by_cases hpL : p ∈ gA.parents.getD v []
            · rw [l5 p hgp0 hpL] at hsp
              omega
            · rw [(l4 p hgp0 hpL).1] at hsp
              omega
          rw [(l3 p hgp).1] at hsp
          have hj1 := h9 p hp hsp hmv j hj hcpos
          have hj1nz : nstat g j ≠ 0 := by omega
          rw [(l3 j hj1nz).1]
          exact hj1
        · intro js hjs hjs2 x hx
          rcases List.mem_append.mp hjs with h | h
          · have hnz := h10 js h hjs2 x hx
            rw [(l3 x hnz).1]
            exact hnz
          · simp at h
            subst h
            by_cases hgx : nstat g x = 0
            · rw [l5 x hgx hx]
              omega
            · rw [(l3 x hgx).1]
              exact hgx

theorem node_oob (g : Graph) (i : Nat) (h : g.nodes.length ≤ i) :
    nstat g i = 0 ∧ ndtm g i = 0 ∧ noutdeg g i = 0 ∧ nrem g i = 0 := by
  unfold nstat ndtm noutdeg nrem
  rw [List.getD_eq_default _ _ h]
  exact ⟨rfl, rfl, rfl, rfl⟩

theorem phaseC_run_pre (game : Game) (fuel rootKey : Nat) (gA gB : Graph)
    (seen1 : List Bool) (q0 : List Nat)
    (hA : phaseA game fuel (initGraph rootKey) [(0, rootKey)] = some gA)
    (hB : phaseB game fuel gA [(0, rootKey)]
        ((List.replicate gA.nodes.length false).set 0 true) [] =
      some (gB, seen1, q0)) :
    CInv game gA gB q0 [] := by
  obtain ⟨hpost, hlen1, hk0⟩ := phaseA_run_post game fuel rootKey gA hA
  obtain ⟨hfields, hdegrem, hcls, hqnd, hqm⟩ :=
    phaseB_run_post game fuel rootKey gA gB seen1 q0 hA hB
  have hexp := hpost.2.2
  have hstat01 : ∀ i, i < gA.nodes.length →
      nstat gB i = 0 ∨
      (nstat gB i = (if game.inCheck (gA.keys.getD i 0) then 2 else 1) ∧
        seen1.getD i false = true ∧ movesOf game gA i = [] ∧ i ∈ q0) := by
    intro i hi
    by_cases hcl : seen1.getD i false = true ∧ movesOf game gA i = []
    · obtain ⟨ha, hb, hc⟩ := (hcls i hi).1 hcl
      exact Or.inr ⟨ha, hcl.1, hcl.2, hc⟩
    · exact Or.inl ((hcls i hi).2 hcl).1
  refine ⟨⟨hfields.1, hfields.2.1, hfields.2.2.1, hfields.2.2.2.1⟩,
    fun i => (hdegrem i).1, ?_, ?_, ?_, ⟨List.nodup_nil, hqnd, ?_⟩,
    ?_, ?_, ?_, ?_, ?_⟩
  · intro js hjs
    cases hjs
  · intro i
    by_cases hi : i < gA.nodes.length
    · rcases hstat01 i hi with h | ⟨h, _⟩
      · exact Or.inl h
      · rw [h]
        by_cases hc : game.inCheck (gA.keys.getD i 0)
        · rw [if_pos hc]
          omega
        · rw [if_neg hc]
          omega
    · exact Or.inl (node_oob gB i (by omega)).1
  · intro i hi
    constructor
    · intro hnz
      rcases hstat01 i hi with h | ⟨_, _, _, h⟩
      · exact absurd h hnz
      · exact Or.inr h
    · intro h
      rcases h with h | h
      · cases h
      · obtain ⟨hvn, hvs, hvm⟩ := hqm i h
        obtain ⟨ha, _, _⟩ := (hcls i hi).1 ⟨hvs, hvm⟩
        rw [ha]
        by_cases hc : game.inCheck (gA.keys.getD i 0)
        · rw [if_pos hc]
          omega
        · rw [if_neg hc]
          omega
  · intro v hv
    obtain ⟨hvn, hvs, hvm⟩ := hqm v hv
    obtain ⟨ha, _, _⟩ := (hcls v hvn).1 ⟨hvs, hvm⟩
    refine ⟨hvn, by simp, ?_⟩
    rw [ha]
    by_cases hc : game.inCheck (gA.keys.getD v 0)
    · rw [if_pos hc]
      omega
    · rw [if_neg hc]
      omega
  · intro p hp hsp
    have hwz : winContrib game gA.keys ([] : List (Nat × Nat)) p = 0 := rfl
    rw [hwz]
    obtain ⟨hclo, hdeg, hrem⟩ := hexp p (List.mem_range.mpr hp)
    rw [(hdegrem p).2, hrem, hdeg]
    omega
  · intro p hsp hd1
    by_cases hp : p < gA.nodes.length
    · obtain ⟨hclo, hdeg, hrem⟩ := hexp p (List.mem_range.mpr hp)
      rw [(hdegrem p).2, hrem, ← hdeg]
      exact hd1
    · have := (node_oob gA p (by omega)).2.2.1
      omega
  · intro p hp hsp hmv
    rcases hstat01 p hp with h | ⟨_, _, hm, _⟩
    · omega
    · exact absurd hm hmv
  · intro p hp hsp hmv
    rcases hstat01 p hp with h | ⟨_, _, hm, _⟩
    · omega
    · exact absurd hm hmv
  · intro js hjs
    cases hjs

theorem drawFill_fields (g : Graph) :
    (drawFill g).keys = g.keys ∧ (drawFill g).parents = g.parents ∧
    (drawFill g).indexL = g.indexL ∧
    (drawFill g).nodes.length = g.nodes.length :=
  ⟨rfl, rfl, rfl, by simp [drawFill]⟩

theorem nstat_drawFill (g : Graph) (i : Nat) (h : i < g.nodes.length) :
    nstat (drawFill g) i = if nstat g i = 0 then 3 else nstat g i := by
  unfold nstat drawFill
  simp only
  rw [List.getD_eq_getElem _ _ (by simpa using h), List.getElem_map,
    List.getD_eq_getElem _ _ h]
  by_cases hs : (g.nodes[i]).status = 0
  · rw [if_pos hs, if_pos hs]
  · rw [if_neg hs, if_neg hs]

theorem ndtm_drawFill (g : Graph) (i : Nat) (h : i < g.nodes.length) :
    ndtm (drawFill g) i = if nstat g i = 0 then 0 else ndtm g i := by
  unfold nstat ndtm drawFill
  simp only
  rw [List.getD_eq_getElem _ _ (by simpa using h), List.getElem_map,
    List.getD_eq_getElem _ _ h]
  by_cases hs : (g.nodes[i]).status = 0
  · rw [if_pos hs, if_pos hs]
  · rw [if_neg hs, if_neg hs]

theorem procParent_preserve (vstat vdtm : Nat) (gq : Graph × List Nat)
    (p : Nat) (i : Nat) (h : nstat gq.1 i ≠ 0) :
    nstat (procParent vstat vdtm gq p).1 i = nstat gq.1 i ∧
    ndtm (procParent vstat vdtm gq p).1 i = ndtm gq.1 i := by
  unfold procParent
  by_cases hps : nstat gq.1 p ≠ 0
  · rw [if_pos hps]
    exact ⟨rfl, rfl⟩
  · rw [if_neg hps]
    have hip : i ≠ p := fun he => hps (he ▸ h)
    by_cases h2 : vstat = 2
    · rw [if_pos h2]
      simp only
      rw [nstat_classify, if_neg (fun hc => hip hc.1.symm),
        ndtm_classify, if_neg (fun hc => hip hc.1.symm)]
      exact ⟨rfl, rfl⟩
    · rw [if_neg h2]
      by_cases h1 : vstat = 1
      · rw [if_pos h1]
        simp only
        by_cases hr : nrem (if 0 < nrem gq.1 p then decRem gq.1 p else gq.1) p = 0
        · rw [if_pos hr]
          simp only
          constructor
          · rw [nstat_classify, if_neg (fun hc => hip hc.1.symm)]
            split
            · rw [nstat_decRem]
            · rfl
          · rw [ndtm_classify, if_neg (fun hc => hip hc.1.symm)]
            split
            · rw [ndtm_decRem]
            · rfl
        · rw [if_neg hr]
          simp only
          constructor
          · split
            · rw [nstat_decRem]
            · rfl
          · split
            · rw [ndtm_decRem]
            · rfl
      · rw [if_neg h1]
        exact ⟨rfl, rfl⟩

theorem procFold_preserve (vstat vdtm : Nat) :
    ∀ (L : List Nat) (gq : Graph × List Nat) (i : Nat),
      nstat gq.1 i ≠ 0 →
      nstat (L.foldl (procParent vstat vdtm) gq).1 i = nstat gq.1 i ∧
      ndtm (L.foldl (procParent vstat vdtm) gq).1 i = ndtm gq.1 i := by
  intro L
  induction L with
  | nil =>
    intro gq i h
    exact ⟨rfl, rfl⟩
  | cons p L' ih =>
    intro gq i h
    rw [List.foldl_cons]
    obtain ⟨h1, h2⟩ := procParent_preserve vstat vdtm gq p i h
    obtain ⟨h3, h4⟩ := ih (procParent vstat vdtm gq p) i (by rw [h1]; exact h)
    exact ⟨h3.trans h1, h4.trans h2⟩

theorem phaseC_preserve :
    ∀ (fuel : Nat) (g : Graph) (q : List Nat) (out : Graph),
      phaseC fuel g q = some out →
      ∀ i, nstat g i ≠ 0 →
        nstat out i = nstat g i ∧ ndtm out i = ndtm g i := by
  intro fuel
  induction fuel with
  | zero =>
    intro g q out hrun i h
    cases q with
    | nil =>
      cases hrun
      exact ⟨rfl, rfl⟩
    | cons v rest => cases hrun
  | succ f ih =>
    intro g q out hrun i h
    cases q with
    | nil =>
      cases hrun
      exact ⟨rfl, rfl⟩
    | cons v rest =>
      have hrun1 : phaseC f
          ((g.parents.getD v []).foldl
            (procParent (nstat g v) (ndtm g v)) (g, rest)).1
          ((g.parents.getD v []).foldl
            (procParent (nstat g v) (ndtm g v)) (g, rest)).2 = some out := hrun
      obtain ⟨h1, h2⟩ := procFold_preserve (nstat g v) (ndtm g v)
        (g.parents.getD v []) (g, rest) i h
      obtain ⟨h3, h4⟩ := ih _ _ out hrun1 i (by rw [h1]; exact h)
      exact ⟨h3.trans h1, h4.trans h2⟩

theorem childCount_pos_iff (game : Game) (gA : Graph) (hwf : WF gA)
    (p c : Nat) (hc : c < gA.nodes.length) :
    0 < childCount game gA.keys p c ↔
      ∃ m ∈ movesOf game gA p, childIdOf game gA p m = some c := by
  obtain ⟨⟨hpl, hkl, hil⟩, hsound, hcomp, hfresh, hnd⟩ := hwf
  unfold childCount
  rw [List.countP_pos]
  constructor
  · rintro ⟨m, hm, hbeq⟩
    refine ⟨m, hm, ?_⟩
    unfold childIdOf
    rw [beq_iff_eq.mp hbeq]
    exact hcomp c hc
  · rintro ⟨m, hm, hlk⟩
    unfold childIdOf at hlk
    obtain ⟨hcn, hck⟩ := hsound _ _ hlk
    exact ⟨m, hm, beq_iff_eq.mpr hck.symm⟩

theorem procParent_fields (vstat vdtm : Nat) (gq : Graph × List Nat)
    (p : Nat) :
    (procParent vstat vdtm gq p).1.keys = gq.1.keys ∧
    (procParent vstat vdtm gq p).1.parents = gq.1.parents ∧
    (procParent vstat vdtm gq p).1.indexL = gq.1.indexL ∧
    (procParent vstat vdtm gq p).1.nodes.length = gq.1.nodes.length := by
  unfold procParent
  by_cases hps : nstat gq.1 p ≠ 0
  · rw [if_pos hps]
    exact ⟨rfl, rfl, rfl, rfl⟩
  · rw [if_neg hps]
    by_cases h2 : vstat = 2
    · rw [if_pos h2]
      simp only
      exact classify_fields _ _ _ _
    · rw [if_neg h2]
      by_cases h1 : vstat = 1
      · rw [if_pos h1]
        simp only
        by_cases hr : nrem (if 0 < nrem gq.1 p then decRem gq.1 p else gq.1) p = 0
        · rw [if_pos hr]
          simp only
          have hcf := classify_fields
            (if 0 < nrem gq.1 p then decRem gq.1 p else gq.1) p 2 (vdtm + 1)
          by_cases hlt : 0 < nrem gq.1 p
          · rw [if_pos hlt] at hcf ⊢
            have hdf := decRem_fields gq.1 p
            exact ⟨hcf.1.trans hdf.1, hcf.2.1.trans hdf.2.1,
              hcf.2.2.1.trans hdf.2.2.1, hcf.2.2.2.trans hdf.2.2.2⟩
          · rw [if_neg hlt] at hcf ⊢
            exact hcf
        · rw [if_neg hr]
          simp only
          by_cases hlt : 0 < nrem gq.1 p
          · rw [if_pos hlt]
            exact decRem_fields gq.1 p
          · rw [if_neg hlt]
            exact ⟨rfl, rfl, rfl, rfl⟩
      · rw [if_neg h1]
        exact ⟨rfl, rfl, rfl, rfl⟩

theorem procFold_fields (vstat vdtm : Nat) :
    ∀ (L : List Nat) (gq : Graph × List Nat),
      (L.foldl (procParent vstat vdtm) gq).1.keys = gq.1.keys ∧
      (L.foldl (procParent vstat vdtm) gq).1.parents = gq.1.parents ∧
      (L.foldl (procParent vstat vdtm) gq).1.indexL = gq.1.indexL ∧
      (L.foldl (procParent vstat vdtm) gq).1.nodes.length =
        gq.1.nodes.length := by
  intro L
  induction L with
  | nil =>
    intro gq
    exact ⟨rfl, rfl, rfl, rfl⟩
  | cons p L' ih =>
    intro gq
    rw [List.foldl_cons]
    have h1 := procParent_fields vstat vdtm gq p
    have h2 := ih (procParent vstat vdtm gq p)
    exact ⟨h2.1.trans h1.1, h2.2.1.trans h1.2.1,
      h2.2.2.1.trans h1.2.2.1, h2.2.2.2.trans h1.2.2.2⟩

theorem phaseC_fields :
    ∀ (fuel : Nat) (g : Graph) (q : List Nat) (out : Graph),
      phaseC fuel g q = some out →
      out.keys = g.keys ∧ out.parents = g.parents ∧
      out.indexL = g.indexL ∧ out.nodes.length = g.nodes.length := by
  intro fuel
  induction fuel with
  | zero =>
    intro g q out hrun
    cases q with
    | nil =>
      cases hrun
      exact ⟨rfl, rfl, rfl, rfl⟩
    | cons v rest => cases hrun
  | succ f ih =>
    intro g q out hrun
    cases q with
    | nil =>
      cases hrun
      exact ⟨rfl, rfl, rfl, rfl⟩
    | cons v rest =>
      have hrun1 : phaseC f
          ((g.parents.getD v []).foldl
            (procParent (nstat g v) (ndtm g v)) (g, rest)).1
          ((g.parents.getD v []).foldl
            (procParent (nstat g v) (ndtm g v)) (g, rest)).2 = some out := hrun
      have h1 := procFold_fields (nstat g v) (ndtm g v)
        (g.parents.getD v []) (g, rest)
      have h2 := ih _ _ out hrun1
      exact ⟨h2.1.trans h1.1, h2.2.1.trans h1.2.1,
        h2.2.2.1.trans h1.2.2.1, h2.2.2.2.trans h1.2.2.2⟩

/-- C3 (amended): after the full solve, restricted to nodes with at
least one legal move, and under the additional hypothesis that Phase A
recorded the reverse edges exactly once per legal move (which its push
test can violate, see C2), a node is Win (internal status 1) iff some
legal move leads to a Loss child (internal status 2), and Loss iff all
legal moves lead to Win children. -/
theorem c3_win_loss_duality_amended (game : Game) (fuel rootKey : Nat)
    (gA gB gC : Graph) (seen1 : List Bool) (q0 : List Nat)
    (hA : phaseA game fuel (initGraph rootKey) [(0, rootKey)] = some gA)
    (hEC : ExactCover game gA.keys gA.parents gA.nodes.length)
    (hB : phaseB game fuel gA [(0, rootKey)]
        ((List.replicate gA.nodes.length false).set 0 true) [] =
      some (gB, seen1, q0))
    (hC : phaseC fuel gB q0 = some gC)
    (i : Nat) (hi : i < gA.nodes.length)
    (hmv : movesOf game gA i ≠ []) :
    (nstat (drawFill gC) i = 1 ↔ ∃ m ∈ movesOf game gA i, ∃ c,
      childIdOf game gA i m = some c ∧ nstat (drawFill gC) c = 2) ∧
    (nstat (drawFill gC) i = 2 ↔ ∀ m ∈ movesOf game gA i, ∃ c,
      childIdOf game gA i m = some c ∧ nstat (drawFill gC) c = 1) := by
  obtain ⟨hpost, hlen1, hk0⟩ := phaseA_run_post game fuel rootKey gA hA
  have hwf := hpost.1
  have hexp := hpost.2.2
  have hsum := sumChild_eq game gA hpost
  have hpre := phaseC_run_pre game fuel rootKey gA gB seen1 q0 hA hB
  obtain ⟨Df, hfinal⟩ := phaseC_inv game gA hpost hEC fuel gB q0 [] gC hpre hC
  obtain ⟨ffields, fdeg, fD, funiv, fiff, ⟨fDnd, _, _⟩, fcnt, frem1,
    f8, f9, f10⟩ := hfinal
  have hlenC : gC.nodes.length = gA.nodes.length := ffields.2.2.2
  have hiffD : ∀ j, j < gA.nodes.length →
      (nstat gC j ≠ 0 ↔ j ∈ Df.map Prod.fst) := by
    intro j hj
    rw [fiff j hj]
    simp
  have hsnapst : ∀ j, j < gA.nodes.length → nstat gC j ≠ 0 →
      ∃ js ∈ Df, js.1 = j ∧ js.2 = nstat gC j := by
    intro j hj hnz
    obtain ⟨js, hjs, hfst⟩ := List.mem_map.mp ((hiffD j hj).mp hnz)
    have hsnap := (fD js hjs).2.2
    rw [hfst] at hsnap
    exact ⟨js, hjs, hfst, hsnap.symm⟩
  have hT1 : ∀ j, j < gA.nodes.length →
      (nstat (drawFill gC) j = 1 ↔ nstat gC j = 1) := by
    intro j hj
    rw [nstat_drawFill gC j (by omega)]
    by_cases hz : nstat gC j = 0
    · rw [if_pos hz]
      omega
    · rw [if_neg hz]
  have hT2 : ∀ j, j < gA.nodes.length →
      (nstat (drawFill gC) j = 2 ↔ nstat gC j = 2) := by
    intro j hj
    rw [nstat_drawFill gC j (by omega)]
    by_cases hz : nstat gC j = 0
    · rw [if_pos hz]
      omega
    · rw [if_neg hz]
  have hchildn : ∀ m c, childIdOf game gA i m = some c →
      c < gA.nodes.length ∧ gA.keys.getD c 0 = game.apply (gA.keys.getD i 0) m :=
    fun m c hcid => hwf.2.1 _ _ hcid
  constructor
  · constructor
    · intro hTi
      have hSi := (hT1 i hi).mp hTi
      obtain ⟨c, hcn, hcpos, hc2⟩ := f8 i hi hSi hmv
      obtain ⟨m, hm, hcid⟩ := (childCount_pos_iff game gA hwf i c hcn).mp hcpos
      exact ⟨m, hm, c, hcid, (hT2 c hcn).mpr hc2⟩
    · rintro ⟨m, hm, c, hcid, hTc⟩
      obtain ⟨hcn, hck⟩ := hchildn m c hcid
      have hSc : nstat gC c = 2 := (hT2 c hcn).mp hTc
      obtain ⟨js, hjs, hfst, hsnd⟩ := hsnapst c hcn (by omega)
      have hcpos : 0 < childCount game gA.keys i c :=
        (childCount_pos_iff game gA hwf i c hcn).mpr ⟨m, hm, hcid⟩
      have hiP : i ∈ gA.parents.getD c [] := by
        apply List.count_pos_iff.mp
        rw [(hEC c (List.mem_range.mpr hcn)).2 i (List.mem_range.mpr hi)]
        exact hcpos
      have hnz : nstat gC i ≠ 0 := by
        have := f10 js hjs (by omega) i
        rw [hfst] at this
        exact this hiP
      rcases funiv i with h | h | h
      · exact absurd h hnz
      · exact (hT1 i hi).mpr h
      · have := f9 i hi h hmv c hcn hcpos
        omega
  · constructor
    · intro hTi
      have hSi := (hT2 i hi).mp hTi
      intro m hm
      obtain ⟨hclo, _, _⟩ := hexp i (List.mem_range.mpr hi)
      cases hcid : childIdOf game gA i m with
      | none => exact absurd hcid (hclo m hm)
      | some c =>
        obtain ⟨hcn, hck⟩ := hchildn m c hcid
        have hcpos : 0 < childCount game gA.keys i c :=
          (childCount_pos_iff game gA hwf i c hcn).mpr ⟨m, hm, hcid⟩
        have hSc := f9 i hi hSi hmv c hcn hcpos
        exact ⟨c, rfl, (hT1 c hcn).mpr hSc⟩
    · intro hall
      have hSi : nstat gC i = 2 := by
        rcases funiv i with h | h | h
        · exfalso
          have hchild : ∀ j, j < gA.nodes.length →
              0 < childCount game gA.keys i j →
              ∃ js ∈ Df, js.1 = j ∧ js.2 = 1 := by
            intro j hj hcpos
            obtain ⟨m, hm, hcid⟩ :=
              (childCount_pos_iff game gA hwf i j hj).mp hcpos
            obtain ⟨c', hcid', hTc'⟩ := hall m hm
            have hjc : j = c' := by
              have := hcid.symm.trans hcid'
              exact Option.some.inj this
            subst hjc
            have hSj : nstat gC j = 1 := (hT1 j hj).mp hTc'
            obtain ⟨js, hjs, hfst, hsnd⟩ := hsnapst j hj (by omega)
            exact ⟨js, hjs, hfst, by omega⟩
          have hge := winContrib_ge game gA.keys Df i gA.nodes.length
            fDnd hchild
          have hsi := hsum i hi
          have hci := fcnt i hi h
          have hd1 : 1 ≤ noutdeg gA i := by
            obtain ⟨_, hdeg, _⟩ := hexp i (List.mem_range.mpr hi)
            rw [hdeg]
            exact List.length_pos.mpr hmv
          have hr1 := frem1 i h hd1
          omega
        · exfalso
          obtain ⟨c, hcn, hcpos, hc2⟩ := f8 i hi h hmv
          obtain ⟨m, hm, hcid⟩ :=
            (childCount_pos_iff game gA hwf i c hcn).mp hcpos
          obtain ⟨c', hcid', hTc'⟩ := hall m hm
          have hcc : c = c' := Option.some.inj (hcid.symm.trans hcid')
          subst hcc
          have := (hT1 c hcn).mp hTc'
          omega
        · exact h
      exact (hT2 i hi).mpr hSi

/-- C3 (amended) witness: the three-node chain game run through all
phases; node 1 (one move, to the checkmated node 2) comes out Win with
a Loss child, node 0 would come out Loss with only Win children. -/
theorem c3_win_loss_duality_amended_witness :
    phaseA gameChain 50 (initGraph 0) [(0, 0)] = some chainGA ∧
    ExactCover gameChain chainGA.keys chainGA.parents chainGA.nodes.length ∧
    phaseB gameChain 50 chainGA [(0, 0)]
      ((List.replicate chainGA.nodes.length false).set 0 true) [] =
      some (chainGB, [true, true, true], [2]) ∧
    phaseC 50 chainGB [2] = some chainGC ∧
    1 < chainGA.nodes.length ∧
    movesOf gameChain chainGA 1 ≠ [] ∧
    ((nstat (drawFill chainGC) 1 = 1 ↔ ∃ m ∈ movesOf gameChain chainGA 1,
        ∃ c, childIdOf gameChain chainGA 1 m = some c ∧
          nstat (drawFill chainGC) c = 2) ∧
      (nstat (drawFill chainGC) 1 = 2 ↔ ∀ m ∈ movesOf gameChain chainGA 1,
        ∃ c, childIdOf gameChain chainGA 1 m = some c ∧
          nstat (drawFill chainGC) c = 1)) :=
  ⟨rfl, by unfold ExactCover; decide, rfl, rfl, by decide,
    by unfold movesOf; decide,
    c3_win_loss_duality_amended gameChain 50 0 chainGA chainGB chainGC
      [true, true, true] [2] rfl (by unfold ExactCover; decide) rfl rfl 1
      (by decide) (by unfold movesOf; decide)⟩

/-- C4: every node with zero legal moves that Phase B reached is
classified terminal with DTM 0 by the full solve: internal status 2
(Loss, written to the table as WDL 0) when the side to move is in
check, internal status 1 (Win, written as WDL 2) otherwise. -/
theorem c4_terminal_classification (game : Game) (fuel rootKey : Nat)
    (gA gB gC : Graph) (seen1 : List Bool) (q0 : List Nat)
    (hA : phaseA game fuel (initGraph rootKey) [(0, rootKey)] = some gA)
    (hB : phaseB game fuel gA [(0, rootKey)]
        ((List.replicate gA.nodes.length false).set 0 true) [] =
      some (gB, seen1, q0))
    (hC : phaseC fuel gB q0 = some gC)
    (i : Nat) (hi : i < gA.nodes.length)
    (hseen : seen1.getD i false = true)
    (hterm : movesOf game gA i = []) :
    nstat (drawFill gC) i =
      (if game.inCheck (gA.keys.getD i 0) then 2 else 1) ∧
    ndtm (drawFill gC) i = 0 := by
  obtain ⟨hfields, hdegrem, hcls, hqnd, hqm⟩ :=
    phaseB_run_post game fuel rootKey gA gB seen1 q0 hA hB
  obtain ⟨hst, hdt, hq⟩ := (hcls i hi).1 ⟨hseen, hterm⟩
  have hnz : nstat gB i ≠ 0 := by
    rw [hst]
    by_cases hc : game.inCheck (gA.keys.getD i 0)
    · rw [if_pos hc]
      omega
    · rw [if_neg hc]
      omega
  obtain ⟨hpst, hpdt⟩ := phaseC_preserve fuel gB q0 gC hC i hnz
  have hlenC : gC.nodes.length = gA.nodes.length :=
    (phaseC_fields fuel gB q0 gC hC).2.2.2.trans hfields.2.2.2.1
  constructor
  · rw [nstat_drawFill gC i (by omega), hpst, hst]
    by_cases hc : game.inCheck (gA.keys.getD i 0)
    · rw [if_pos hc]
      rw [if_neg (by omega : ¬(2 : Nat) = 0)]
    · rw [if_neg hc]
      rw [if_neg (by omega : ¬(1 : Nat) = 0)]
  · rw [ndtm_drawFill gC i (by omega), hpst, hst]
    by_cases hc : game.inCheck (gA.keys.getD i 0)
    · rw [if_pos hc]
      rw [if_neg (by omega : ¬(2 : Nat) = 0)]
      rw [hpdt, hdt]
    · rw [if_neg hc]
      rw [if_neg (by omega : ¬(1 : Nat) = 0)]
      rw [hpdt, hdt]

/-- C4 witness: on the chain game the final node (no moves, in check)
is classified Loss with DTM 0 by the full solve. -/
theorem c4_terminal_classification_witness :
    phaseA gameChain 50 (initGraph 0) [(0, 0)] = some chainGA ∧
    phaseB gameChain 50 chainGA [(0, 0)]
      ((List.replicate chainGA.nodes.length false).set 0 true) [] =
      some (chainGB, [true, true, true], [2]) ∧
    phaseC 50 chainGB [2] = some chainGC ∧
    2 < chainGA.nodes.length ∧
    ([true, true, true] : List Bool).getD 2 false = true ∧
    movesOf gameChain chainGA 2 = [] ∧
    (nstat (drawFill chainGC) 2 =
      (if gameChain.inCheck (chainGA.keys.getD 2 0) then 2 else 1) ∧
      ndtm (drawFill chainGC) 2 = 0) :=
  ⟨rfl, rfl, rfl, by decide, rfl, by unfold movesOf; decide,
    c4_terminal_classification gameChain 50 0 chainGA chainGB chainGC
      [true, true, true] [2] rfl rfl rfl 2 (by decide) rfl
      (by unfold movesOf; decide)⟩

end Tiny
